import Mathlib

/-! # Circular singly-linked list (`clist`) of STC

A shallow embedding of `src/include/stc/clist.h` (the current header) over an
explicit memory of nodes.

* A node pointer is `Option Nat`: `none` is `NULL`, `some a` is the address of a node.
  A pointer to the `value` field of a node (`_cx_value*`, the `ref` of an iterator) is
  identified with the address of its node, which is what `_clist_tonode` recovers.
* The memory is a function from addresses to nodes; an address that holds no live node
  maps to `none`.  Reading or writing through `NULL` or through an address without a
  live node is a `Fault`.
* `i_malloc` returns an address chosen by the allocator: it is the parameter `entry`
  of every operation that allocates, and the theorems assume it holds no live node.
* Loops whose trip count depends on the memory take a step budget `fuel`; running out
  of it is reported as `Fault.outOfFuel`, which is a limit of the model only.  The
  theorems show that every large enough budget gives the result.
* The counter `intptr_t n` of `_count` is a natural number: it counts nodes, each of which
  occupies several bytes of the address space, so it cannot overflow.
* The counters `int insize, nmerges, psize, qsize` of `_clist_mergesort` are integers kept in
  the range of a 32-bit `int`: every result of `++`, `--` and `*= 2` goes through `wrapInt`,
  the two's complement value on 32 bits.  (Signed overflow is undefined behaviour in C; the
  model gives it the value that the hardware computes.)  On a ring of `2^31` nodes at most
  no counter leaves the range; on more nodes `insize *= 2` overflows.
* An `assert` of the source is taken as compiled in: when it fails the operation stops with
  `Fault.assertFailed`.
* The template parameters `i_keyto`, `i_eq`, `i_cmp`, `i_keydrop` come from headers that
  are not part of the embedded file: comparison and equality are parameters on the
  stored values, and dropping a value has no effect on the memory of nodes.
* A well-formed list is described by `IsList h self l`: `l` lists the addresses of the nodes
  from the head to the last node.  `IsList.unique` shows that `l` is determined by the
  memory and the handle, and `vals h l` is the value sequence of the list.
-/

namespace STC

/-- A node pointer; `none` is `NULL`. -/
abbrev Ptr := Option Nat

/-- The `struct SELF_node` of `_c_clist_complete_types`: a next link and a value. -/
structure Node (α : Type) where
  next : Ptr
  value : α
deriving DecidableEq

/-- The memory of nodes: `none` at an address that holds no live node. -/
abbrev Heap (α : Type) := Nat → Option (Node α)

/-- Ways in which an operation fails to return. -/
inductive Fault
  /-- a `NULL` pointer is dereferenced -/
  | nullDeref
  /-- an address that holds no live node is read or written -/
  | invalidAccess
  /-- an `assert` of the source fails -/
  | assertFailed
  /-- the step budget of a loop of the model ran out -/
  | outOfFuel
deriving DecidableEq, Repr

/-- The list handle: `last` is the tail of the ring, or `NULL` for the empty list. -/
structure CList where
  last : Ptr
deriving DecidableEq, Repr

/-- The iterator `{ref, _last, prev}` (initialised in that order by `_begin`): `ref` is the
current value (absent at the end), `_last` the address of the `last` slot of the handle the
iterator came from (`NULL` in the iterator made by `_end`), `prev` the previous node. -/
structure Iter where
  ref : Ptr
  _last : Option Nat
  prev : Ptr
deriving DecidableEq, Repr

section Memory
variable {α : Type}

/-- Read the node a pointer designates (`p->next`, `p->value`). -/
def load (h : Heap α) : Ptr → Except Fault (Node α)
  | none => .error .nullDeref
  | some a =>
    match h a with
    | none => .error .invalidAccess
    | some n => .ok n

/-- Write a whole node at an address. -/
def store (h : Heap α) (a : Nat) (n : Node α) : Heap α :=
  fun x => if x = a then some n else h x

/-- The assignment `p->next = nx`. -/
def setNext (h : Heap α) (p : Ptr) (nx : Ptr) : Except Fault (Heap α) :=
  match p with
  | none => .error .nullDeref
  | some a =>
    match h a with
    | none => .error .invalidAccess
    | some n => .ok (store h a ⟨nx, n.value⟩)

/-- The call `i_free(node)`: the node stops being live; `free(NULL)` does nothing. -/
def i_free (h : Heap α) : Ptr → Heap α
  | none => h
  | some a => fun x => if x = a then none else h x

/-- A memory given by a table of addresses and nodes (the first entry of an address counts). -/
def Heap.ofList (l : List (Nat × Node α)) : Heap α :=
  fun a => (l.find? (fun e => e.1 == a)).map (fun e => e.2)

end Memory

/-- The value of an `int` after an operation whose exact result is `x`: `x` reduced to 32 bits
in two's complement, between `INT_MIN = -2^31` and `INT_MAX = 2^31 - 1`. -/
def wrapInt (x : Int) : Int := (x + 2147483648) % 4294967296 - 2147483648

namespace clist
variable {α : Type}

/-- The macro `_c_clist_insert_after_node(ref, entry)`:
`if (ref) entry->next = ref->next, ref->next = entry; else entry->next = entry`. -/
def _c_clist_insert_after_node (h : Heap α) (ref : Ptr) (entry : Ptr) :
    Except Fault (Heap α) :=
  match ref with
  | some r => do
    let rn ← load h (some r)
    let h1 ← setNext h entry rn.next
    setNext h1 (some r) entry
  | none => setNext h entry entry

/-- The macro `_c_clist_insert_entry_after(ref, val)`: a node is allocated at `entry`, its
value is set, and it is linked after `ref`. -/
def _c_clist_insert_entry_after (h : Heap α) (ref : Ptr) (entry : Nat) (val : α) :
    Except Fault (Heap α) :=
  _c_clist_insert_after_node (store h entry ⟨none, val⟩) ref (some entry)

/-- Function `_cx_memb(_empty)`. -/
def empty (self : CList) : Bool := self.last == none

/-- Function `_cx_memb(_unlink_after_node)`. -/
def unlink_after_node (h : Heap α) (self : CList) (ref : Ptr) :
    Except Fault (Heap α × CList × Ptr) := do
  let rn ← load h ref
  let node := rn.next
  let nn ← load h node
  let next := nn.next
  let h1 ← setNext h ref next
  if node = next then
    pure (h1, ⟨none⟩, node)
  else if node = self.last then
    pure (h1, ⟨ref⟩, node)
  else
    pure (h1, self, node)

/-- Function `_cx_memb(_erase_after_node)`: unlink the node after `ref`, drop its value, free it. -/
def erase_after_node (h : Heap α) (self : CList) (ref : Ptr) :
    Except Fault (Heap α × CList) := do
  let (h1, self1, node) ← unlink_after_node h self ref
  pure (i_free h1 node, self1)

/-- Function `_cx_memb(_pop_front)`: `assert(!empty(self)); erase_after_node(self, self->last)`. -/
def pop_front (h : Heap α) (self : CList) : Except Fault (Heap α × CList) :=
  if empty self then .error .assertFailed
  else erase_after_node h self self.last

/-- The expression `&p->value`: the address of the value field of the node `p`.  No memory is
read; applying `->` to `NULL` is undefined behaviour, reported as a fault. -/
def valueRef : Ptr → Except Fault Ptr
  | none => .error .nullDeref
  | some a => .ok (some a)

/-- Function `_cx_memb(_front)`: `return &self->last->next->value;`. -/
def front (h : Heap α) (self : CList) : Except Fault Ptr := do
  let ln ← load h self.last
  valueRef ln.next

/-- Function `_cx_memb(_back)`: `return &self->last->value;`. -/
def back (_h : Heap α) (self : CList) : Except Fault Ptr :=
  valueRef self.last

/-- The loop of `_cx_memb(_count)`: `while ((node = node->next) != self->last) ++n;`. -/
def count_loop (h : Heap α) (last : Ptr) : Nat → Ptr → Nat → Except Fault Nat
  | 0, _, _ => .error .outOfFuel
  | fuel + 1, node, n => do
    let nd ← load h node
    if nd.next = last then pure n
    else count_loop h last fuel nd.next (n + 1)

/-- Function `_cx_memb(_count)`. -/
def count (fuel : Nat) (h : Heap α) (self : CList) : Except Fault Nat :=
  match self.last with
  | none => pure 0
  | some _ => count_loop h self.last fuel self.last 1

/-- Function `_cx_memb(_push_back)`; the result carries the address of the new value. -/
def push_back (h : Heap α) (self : CList) (entry : Nat) (value : α) :
    Except Fault (Heap α × CList × Ptr) := do
  let h1 ← _c_clist_insert_entry_after h self.last entry value
  pure (h1, ⟨some entry⟩, some entry)

/-- Function `_cx_memb(_push_front)`. -/
def push_front (h : Heap α) (self : CList) (entry : Nat) (value : α) :
    Except Fault (Heap α × CList × Ptr) := do
  let h1 ← _c_clist_insert_entry_after h self.last entry value
  if self.last = none then
    pure (h1, ⟨some entry⟩, some entry)
  else
    pure (h1, self, some entry)

/-- Function `_cx_memb(_insert_after_node)`. -/
def insert_after_node (h : Heap α) (self : CList) (ref : Ptr) (node : Ptr) :
    Except Fault (Heap α × CList × Ptr) := do
  let h1 ← _c_clist_insert_after_node h ref node
  if self.last = none then
    pure (h1, ⟨node⟩, node)
  else
    pure (h1, self, node)

/-- Function `_cx_memb(_insert_at)`. -/
def insert_at (h : Heap α) (self : CList) (it : Iter) (entry : Nat) (value : α) :
    Except Fault (Heap α × CList × Iter) := do
  let node := if it.ref ≠ none then it.prev else self.last
  let h1 ← _c_clist_insert_entry_after h node entry value
  if self.last = none ∨ it.ref = none then
    let prev := if self.last ≠ none then self.last else some entry
    pure (h1, ⟨some entry⟩, ⟨some entry, it._last, prev⟩)
  else
    pure (h1, self, ⟨some entry, it._last, it.prev⟩)

/-- Function `_cx_memb(_erase_at)`.  The node of a `NULL` reference is not an address of a node:
it differs from `self->last`, and reading its `next` is an invalid access. -/
def erase_at (h : Heap α) (self : CList) (it : Iter) :
    Except Fault (Heap α × CList × Iter) :=
  match it.ref with
  | none => .error .invalidAccess
  | some a => do
    let ref ← (if some a = self.last then pure none
               else do
                 let nd ← load h (some a)
                 valueRef nd.next)
    let (h1, self1) ← erase_after_node h self it.prev
    pure (h1, self1, ⟨ref, it._last, it.prev⟩)

/-- The loop of `_cx_memb(_remove)` from `node = prev->next` to `while (node != self->last)`;
`i_eq` compares a stored value with the value looked for. -/
def remove_loop (i_eq : α → α → Bool) (val : α) :
    Nat → Heap α → CList → Ptr → Nat → Except Fault (Heap α × CList × Nat)
  | 0, _, _, _, _ => .error .outOfFuel
  | fuel + 1, h, self, prev, n => do
    let pn ← load h prev
    let node := pn.next
    let nd ← load h node
    if i_eq nd.value val then
      let (h1, self1) ← erase_after_node h self prev
      if self1.last = none then
        pure (h1, self1, n + 1)
      else if node ≠ self1.last then
        remove_loop i_eq val fuel h1 self1 prev (n + 1)
      else
        pure (h1, self1, n + 1)
    else if node ≠ self.last then
      remove_loop i_eq val fuel h self node n
    else
      pure (h, self, n)

/-- Function `_cx_memb(_remove)`. -/
def remove (i_eq : α → α → Bool) (fuel : Nat) (h : Heap α) (self : CList) (val : α) :
    Except Fault (Heap α × CList × Nat) :=
  if self.last ≠ none then remove_loop i_eq val fuel h self self.last 0
  else pure (h, self, 0)

/-- The loop of `_cx_memb(_reverse)`: `while (self->last)`, moving the head of `self` to the
front of `rev`; at the exit `*self = rev`. -/
def reverse_loop : Nat → Heap α → CList → CList → Except Fault (Heap α × CList)
  | 0, _, _, _ => .error .outOfFuel
  | fuel + 1, h, self, rev =>
    if self.last ≠ none then do
      let (h1, self1, node) ← unlink_after_node h self self.last
      let (h2, rev1, _) ← insert_after_node h1 rev rev.last node
      reverse_loop fuel h2 self1 rev1
    else
      pure (h, rev)

/-- Function `_cx_memb(_reverse)`. -/
def reverse (fuel : Nat) (h : Heap α) (self : CList) : Except Fault (Heap α × CList) :=
  reverse_loop fuel h self ⟨none⟩

/-- The call `cmp(p, q)` of a comparator on two nodes: it reads the two values
(as `_cx_memb(_sort_cmp_)` does) and compares them. -/
def cmpNodes (cmp : α → α → Int) (h : Heap α) (p q : Ptr) : Except Fault Int := do
  let pn ← load h p
  let qn ← load h q
  pure (cmp pn.value qn.value)

/-- The step `x = x->next; if (x == oldhead) x = NULL;` of `_clist_mergesort`, which the `for`
loop writes as `q = (q->next == oldhead ? NULL : q->next)`. -/
def mergesort_step (h : Heap α) (oldhead : Ptr) (x : Ptr) : Except Fault Ptr := do
  let xn ← load h x
  pure (if xn.next = oldhead then none else xn.next)

/-- The loop `for (i = 0; i < insize; ++i) { ++psize; q = ...; if (!q) break; }` of
`_clist_mergesort`, which steps `q` past the left run.  The first argument is the number of
iterations that are left, `insize - i` (none when `insize <= 0`); `i` stays below `insize`,
so `++i` cannot overflow. -/
def mergesort_skip (h : Heap α) (oldhead : Ptr) : Nat → Ptr → Int → Except Fault (Ptr × Int)
  | 0, q, psize => pure (q, psize)
  | n + 1, q, psize => do
    let q1 ← mergesort_step h oldhead q
    if q1 = none then pure (q1, wrapInt (psize + 1))
    else mergesort_skip h oldhead n q1 (wrapInt (psize + 1))

/-- The test `psize && (!(qsize && q) || cmp(p, q) <= 0)` of `_clist_mergesort`: whether the
next node is taken from the left run. -/
def mergesort_left (cmp : α → α → Int) (h : Heap α) (p q : Ptr) (psize qsize : Int) :
    Except Fault Bool :=
  if psize ≠ 0 then
    if ¬ (qsize ≠ 0 ∧ q ≠ none) then pure true
    else do
      let c ← cmpNodes cmp h p q
      pure (decide (c ≤ 0))
  else pure false

/-- The statement `if (tail) tail->next = e; else list = e;` of `_clist_mergesort`; it returns
the memory and `list`. -/
def mergesort_append (h : Heap α) (list tail e : Ptr) : Except Fault (Heap α × Ptr) :=
  match tail with
  | some t => do
    let h1 ← setNext h (some t) e
    pure (h1, list)
  | none => pure (h, e)

/-- The merge loop `while (psize || (qsize && q))` of `_clist_mergesort`; it returns the
memory, `q`, `list` and `tail`. -/
def mergesort_merge (cmp : α → α → Int) (oldhead : Ptr) :
    Nat → Heap α → Ptr → Ptr → Int → Int → Ptr → Ptr →
    Except Fault (Heap α × Ptr × Ptr × Ptr)
  | 0, _, _, _, _, _, _, _ => .error .outOfFuel
  | fuel + 1, h, p, q, psize, qsize, list, tail =>
    if psize ≠ 0 ∨ (qsize ≠ 0 ∧ q ≠ none) then do
      let left ← mergesort_left cmp h p q psize qsize
      if left then do
        let p1 ← mergesort_step h oldhead p
        let (h1, list1) ← mergesort_append h list tail p
        mergesort_merge cmp oldhead fuel h1 p1 q (wrapInt (psize - 1)) qsize list1 p
      else do
        let q1 ← mergesort_step h oldhead q
        let (h1, list1) ← mergesort_append h list tail q
        mergesort_merge cmp oldhead fuel h1 p q1 psize (wrapInt (qsize - 1)) list1 q
    else
      pure (h, q, list, tail)

/-- The loop `while (p)` of `_clist_mergesort`: one pass over the ring, merging runs of
`insize` nodes two by two; it returns the memory, `list`, `tail` and `nmerges`. -/
def mergesort_pass (cmp : α → α → Int) (oldhead : Ptr) (insize : Int) (fuel0 : Nat) :
    Nat → Heap α → Ptr → Ptr → Ptr → Int → Except Fault (Heap α × Ptr × Ptr × Int)
  | 0, _, _, _, _, _ => .error .outOfFuel
  | fuel + 1, h, p, list, tail, nmerges =>
    if p ≠ none then do
      let (q, psize) ← mergesort_skip h oldhead insize.toNat p 0
      let (h1, q1, list1, tail1) ← mergesort_merge cmp oldhead fuel0 h p q psize insize list tail
      mergesort_pass cmp oldhead insize fuel0 fuel h1 q1 list1 tail1 (wrapInt (nmerges + 1))
    else
      pure (h, list, tail, nmerges)

/-- The loop `while (1)` of `_clist_mergesort`. -/
def mergesort_outer (cmp : α → α → Int) (fuel0 : Nat) :
    Nat → Heap α → Ptr → Int → Except Fault (Heap α × Ptr)
  | 0, _, _, _ => .error .outOfFuel
  | fuel + 1, h, list, insize => do
    let (h1, list1, tail, nmerges) ← mergesort_pass cmp list insize fuel0 fuel0 h list none none 0
    let h2 ← setNext h1 tail list1
    if nmerges ≤ 1 then
      pure (h2, tail)
    else
      mergesort_outer cmp fuel0 fuel h2 list1 (wrapInt (insize * 2))

/-- Function `_clist_mergesort(list, cmp)`; every loop may take `fuel` steps. -/
def _clist_mergesort (fuel : Nat) (h : Heap α) (list : Ptr) (cmp : α → α → Int) :
    Except Fault (Heap α × Ptr) :=
  mergesort_outer cmp fuel fuel h list 1

/-- Function `_cx_memb(_sort_with)`. -/
def sort_with (fuel : Nat) (h : Heap α) (self : CList) (cmp : α → α → Int) :
    Except Fault (Heap α × CList) :=
  if self.last ≠ none then do
    let ln ← load h self.last
    let (h1, last) ← _clist_mergesort fuel h ln.next cmp
    pure (h1, ⟨last⟩)
  else
    pure (h, self)

/-- Function `_cx_memb(_sort)`: `sort_with` on the comparator `_cx_memb(_sort_cmp_)`, which is
`i_cmp` applied to the two values. -/
def sort (i_cmp : α → α → Int) (fuel : Nat) (h : Heap α) (self : CList) :
    Except Fault (Heap α × CList) :=
  sort_with fuel h self i_cmp

end clist

section Representation
variable {α : Type}

/-- The node at `a` is live and its `next` is the node at `b`. -/
def Link (h : Heap α) (a b : Nat) : Prop := (h a).map Node.next = some (some b)

instance (h : Heap α) (a b : Nat) : Decidable (Link h a b) :=
  inferInstanceAs (Decidable ((h a).map Node.next = some (some b)))

/-- Links along a sequence of addresses are checked pair by pair. -/
def decLinked (h : Heap α) : (l : List Nat) → Decidable (List.Chain' (Link h) l)
  | [] => isTrue List.chain'_nil
  | [a] => isTrue (List.chain'_singleton a)
  | a :: b :: l =>
    match (inferInstance : Decidable (Link h a b)), decLinked h (b :: l) with
    | isTrue h1, isTrue h2 => isTrue (List.chain'_cons.2 ⟨h1, h2⟩)
    | isFalse h1, _ => isFalse (fun hc => h1 (List.chain'_cons.1 hc).1)
    | _, isFalse h2 => isFalse (fun hc => h2 (List.chain'_cons.1 hc).2)

instance (h : Heap α) (l : List Nat) : Decidable (List.Chain' (Link h) l) := decLinked h l

/-- The addresses `l` form a closed ring in `h`: they are distinct, each node is live and
linked to the one after it, and the last one is linked back to the first. -/
def IsRing (h : Heap α) (l : List Nat) : Prop :=
  l.Nodup ∧ List.Chain' (Link h) l ∧ ∀ z ∈ l.getLast?, ∀ a ∈ l.head?, Link h z a

instance (h : Heap α) (l : List Nat) : Decidable (IsRing h l) :=
  inferInstanceAs (Decidable
    (l.Nodup ∧ List.Chain' (Link h) l ∧ ∀ z ∈ l.getLast?, ∀ a ∈ l.head?, Link h z a))

/-- The handle `self` is a well-formed list on the memory `h` whose nodes, from the head to
the last node, are at the addresses `l`: `last` is absent for the empty list, and otherwise
following `next` from `last` visits `l` once and returns to `last`. -/
def IsList (h : Heap α) (self : CList) (l : List Nat) : Prop :=
  IsRing h l ∧ self.last = l.getLast?

instance (h : Heap α) (self : CList) (l : List Nat) : Decidable (IsList h self l) :=
  inferInstanceAs (Decidable (IsRing h l ∧ self.last = l.getLast?))

/-- The values stored at the addresses `l`, in order. -/
def vals (h : Heap α) (l : List Nat) : List α :=
  l.filterMap (fun a => (h a).map Node.value)

/-- Walking `next` from the node `a` for `n` steps. -/
def walk (h : Heap α) : Nat → Nat → Option Nat
  | 0, a => some a
  | n + 1, a =>
    match h a with
    | some nd =>
      match nd.next with
      | some b => walk h n b
      | none => none
    | none => none

end Representation

end STC

namespace STC

/-- One pass of the bottom-up merge sort on a sequence: runs of `k` nodes are merged two by
two with the order `le`; the last argument is the number of merges made. -/
inductive PassRel (le : Nat → Nat → Bool) (k : Nat) : List Nat → List Nat → Nat → Prop
  | nil : PassRel le k [] [] 0
  | step (rest out : List Nat) (n : Nat) : rest ≠ [] →
      PassRel le k ((rest.drop k).drop k) out n →
      PassRel le k rest (List.merge (rest.take k) ((rest.drop k).take k) le ++ out) (n + 1)

/-- The sequence is made of consecutive runs that are sorted by `le`, each of `k` nodes
except for the last one. -/
inductive Runs (le : Nat → Nat → Bool) (k : Nat) : List Nat → Prop
  | last (c : List Nat) : c.Pairwise (fun a b => le a b = true) → Runs le k c
  | cons (c rest : List Nat) : c.length = k → c.Pairwise (fun a b => le a b = true) →
      Runs le k rest → Runs le k (c ++ rest)

end STC

namespace STC

/-- The sequence that the passes of the bottom-up merge sort build from `l`: a pass is made on
runs of `k` nodes, then of `2 * k`, `4 * k`, ... nodes, and the pass that makes one merge at
most is the last one. -/
inductive SortRel (le : Nat → Nat → Bool) : Nat → List Nat → List Nat → Prop
  | last (k : Nat) (l out : List Nat) (n : Nat) : PassRel le k l out n → n ≤ 1 →
      SortRel le k l out
  | next (k : Nat) (l mid out : List Nat) (n : Nat) : PassRel le k l mid n → 1 < n →
      SortRel le (k * 2) mid out → SortRel le k l out

end STC

namespace STC

/-- The state of a pass of `_clist_mergesort` on the memory `h`: `out` is the chain built so
far (from `list` to `tail`), `ps` what is left of the left run, `qs` the nodes from `q` on,
which still end at `oldhead`; `vf` gives the value of every node. -/
structure MState {α : Type} (h : Heap α) (vf : Nat → α) (oldhead : Nat)
    (out ps qs : List Nat) : Prop where
  nodup : (out ++ ps ++ qs).Nodup
  vals : ∀ a ∈ out ++ ps ++ qs, (h a).map Node.value = some (vf a)
  cout : List.Chain' (Link h) out
  cps : List.Chain' (Link h) ps
  cqs : List.Chain' (Link h) (qs ++ [oldhead])
  ohps : oldhead ∉ ps.tail
  ohqs : oldhead ∉ qs

end STC

namespace STC

/-- The order on nodes that the comparator `cmp` gives through their values: `cmp(a, b) <= 0`. -/
def leOf {α : Type} (cmp : α → α → Int) (vf : Nat → α) (a b : Nat) : Bool :=
  decide (cmp (vf a) (vf b) ≤ 0)

end STC

namespace STC

section Positions
variable {α : Type}

/-- The handle `self` is a well-formed list on the memory `h`: `last` is absent, or following
`next` from `last` returns to `last` after visiting every node exactly once. -/
def WellFormed (h : Heap α) (self : CList) : Prop := ∃ l, IsList h self l

/-- Walking `next` from `last` returns to `last` after exactly `count(list)` steps, and not
before. -/
def ReturnsAfterCount (h : Heap α) (self : CList) : Prop :=
  ∀ z, self.last = some z → ∃ n, 0 < n ∧
    (∀ fuel, n ≤ fuel → clist.count fuel h self = .ok n) ∧
    walk h n z = some z ∧ ∀ k, 0 < k → k < n → walk h k z ≠ some z

/-- The iterator `it` is a valid position of the list with nodes `l`: it designates the first
node of a suffix `suf` of `l` with the node before it in the ring as `prev`, or it is at the
end (`ref` absent, `suf` empty). -/
def ValidPos (l : List Nat) (it : Iter) : Prop :=
  ∃ pre suf, l = pre ++ suf ∧ it.ref = suf.head? ∧ (suf ≠ [] → it.prev = (suf ++ pre).getLast?)

/-- The iterator `it` designates a node of the list with nodes `l`: `ref` is that node and
`prev` the node before it in the ring. -/
def AtNode (l : List Nat) (it : Iter) : Prop :=
  ∃ pre x suf, l = pre ++ x :: suf ∧ it.ref = some x ∧ it.prev = (x :: (suf ++ pre)).getLast?

end Positions

/-- The comparison `c_default_cmp` of two integers: negative, zero or positive. -/
def c_default_cmp (x y : Int) : Int := if x < y then -1 else if y < x then 1 else 0

/-- The equality `c_default_eq` of two integers. -/
def c_default_eq (x y : Int) : Bool := x == y

/-- A memory that holds the list `[5, 3, 8]` in the nodes at the addresses 1, 2 and 3. -/
def exHeap : Heap Int :=
  Heap.ofList [(1, ⟨some 2, 5⟩), (2, ⟨some 3, 3⟩), (3, ⟨some 1, 8⟩)]

/-- The handle of the list held by `exHeap`: its last node is at the address 3. -/
def exList : CList := ⟨some 3⟩

/-- A memory that holds the list `[(1, 'a'), (1, 'b'), (0, 'c')]` at the addresses 1, 2, 3. -/
def exPairs : Heap (Int × Char) :=
  Heap.ofList [(1, ⟨some 2, (1, 'a')⟩), (2, ⟨some 3, (1, 'b')⟩), (3, ⟨some 1, (0, 'c')⟩)]

/-- Comparison of two pairs by their first component. -/
def cmpFst (x y : Int × Char) : Int := c_default_cmp x.1 y.1

/-- A memory that holds the list `[0, 1, 2]` in the nodes at the addresses 1, 2 and 3. -/
def exHeapAsc : Heap Int :=
  Heap.ofList [(1, ⟨some 2, 0⟩), (2, ⟨some 3, 1⟩), (3, ⟨some 1, 2⟩)]

/-- A comparator that is total but not transitive: 0 is before 1, 1 and 2 compare equal, and
2 is before 0; all other pairs compare equal. -/
def cmpCyclic (x y : Int) : Int :=
  if x = 0 ∧ y = 1 then -1 else if x = 1 ∧ y = 0 then 1
  else if x = 0 ∧ y = 2 then 1 else if x = 2 ∧ y = 0 then -1 else 0

/-- A comparator that is transitive but not total: 0 and 2 compare equal, every value compares
equal to itself, and for every other pair it answers 1 in both directions. -/
def cmpClasses (x y : Int) : Int :=
  if x = y then 0 else if (x = 0 ∧ y = 2) ∨ (x = 2 ∧ y = 0) then 0 else 1

/-- A memory that holds a ring of `n` nodes at the addresses `0, 1, ..., n - 1`: each node is
linked to the next address and the node at `n - 1` back to the node at 0; every value is 0. -/
def ringHeap (n : Nat) : Heap Int := fun a =>
  if a < n then some ⟨some (if a + 1 = n then 0 else a + 1), 0⟩ else none

end STC

namespace STC

/-- The memory of list handles: the handle stored at an address, `none` where there is none.
The `_last` of an iterator is such an address. -/
abbrev Handles := Nat → Option CList

/-- The read `*it->_last` of the `last` slot an iterator refers to. -/
def readLast (hs : Handles) : Option Nat → Except Fault Ptr
  | none => .error .nullDeref
  | some s =>
    match hs s with
    | none => .error .invalidAccess
    | some c => .ok c.last

/-- Write a handle at an address. -/
def setHandle (hs : Handles) (s : Nat) (c : CList) : Handles :=
  fun x => if x = s then some c else hs x

namespace clist
variable {α : Type}

/-- Function `_cx_memb(_begin)`; `sid` is the address of the handle `self`, so that `_last`
is `&self->last`. -/
def begin (h : Heap α) (sid : Nat) (self : CList) : Except Fault Iter := do
  let head ← (if self.last ≠ none then do
                let ln ← load h self.last
                valueRef ln.next
              else pure none)
  pure ⟨head, some sid, self.last⟩

/-- Function `_cx_memb(_end)`: the iterator `{NULL}`, all of whose fields are `NULL`. -/
def _end : Iter := ⟨none, none, none⟩

/-- Function `_cx_memb(_next)`: `node = it->prev = _clist_tonode(it->ref);
it->ref = (node == *it->_last ? NULL : &node->next->value)`.  The node of a `NULL` reference
is not the address of a node: it differs from every `last`, and reading its `next` is an
invalid access. -/
def next (hs : Handles) (h : Heap α) (it : Iter) : Except Fault Iter := do
  let last ← readLast hs it._last
  match it.ref with
  | none => .error .invalidAccess
  | some a =>
    if some a = last then
      pure ⟨none, it._last, some a⟩
    else do
      let nd ← load h (some a)
      let r ← valueRef nd.next
      pure ⟨r, it._last, some a⟩

/-- The `do ... while (it1.prev->next != end)` loop of `_cx_memb(_erase_range)`. -/
def erase_range_loop (endp : Ptr) (prev : Ptr) :
    Nat → Heap α → CList → Except Fault (Heap α × CList)
  | 0, _, _ => .error .outOfFuel
  | fuel + 1, h, self => do
    let (h1, self1) ← erase_after_node h self prev
    if self1.last = none then
      pure (h1, self1)
    else do
      let pn ← load h1 prev
      if pn.next ≠ endp then erase_range_loop endp prev fuel h1 self1
      else pure (h1, self1)

/-- Function `_cx_memb(_erase_range)`. -/
def erase_range (fuel : Nat) (h : Heap α) (self : CList) (it1 it2 : Iter) :
    Except Fault (Heap α × CList × Iter) := do
  let endp ← (if it2.ref ≠ none then pure it2.ref
              else do
                let ln ← load h self.last
                pure ln.next)
  if it1.ref ≠ it2.ref then do
    let (h1, self1) ← erase_range_loop endp it1.prev fuel h self
    pure (h1, self1, it2)
  else
    pure (h, self, it2)

/-- Modelled from the spec: the loop macro `c_foreach (it, C, start, finish)` of `ccommon.h`,
which is not part of the sources: the iterator starts at `start` and is advanced with `next`
until its `ref` is the `ref` of `finish` (the equality-to-end check of the iterator protocol).
This is that loop with the body of `_cx_memb(_find_in)`: it returns the iterator at the first
value equal to `val`, or nothing when the loop runs to its end. -/
def find_in_loop (i_eq : α → α → Bool) (hs : Handles) (h : Heap α) (endref : Ptr) (val : α) :
    Nat → Iter → Except Fault (Option Iter)
  | 0, _ => .error .outOfFuel
  | fuel + 1, it =>
    if it.ref ≠ endref then do
      let nd ← load h it.ref
      if i_eq nd.value val then
        pure (some it)
      else do
        let it1 ← next hs h it
        find_in_loop i_eq hs h endref val fuel it1
    else
      pure none

/-- Function `_cx_memb(_find_in)`: after the loop, `it2.ref = NULL; return it2;`. -/
def find_in (i_eq : α → α → Bool) (fuel : Nat) (hs : Handles) (h : Heap α) (it1 it2 : Iter)
    (val : α) : Except Fault Iter := do
  let r ← find_in_loop i_eq hs h it2.ref val fuel it1
  match r with
  | some it => pure it
  | none => pure ⟨none, it2._last, it2.prev⟩

/-- Function `_cx_memb(_find)`: `find_in(begin(self), end(self), val)`. -/
def find (i_eq : α → α → Bool) (fuel : Nat) (hs : Handles) (h : Heap α) (sid : Nat)
    (self : CList) (val : α) : Except Fault Iter := do
  let b ← begin h sid self
  find_in i_eq fuel hs h b _end val

/-- Function `_cx_memb(_splice)`; it returns the memory, `self`, `other` and the iterator. -/
def splice (h : Heap α) (self : CList) (it : Iter) (other : CList) :
    Except Fault (Heap α × CList × CList × Iter) :=
  if self.last = none then
    pure (h, ⟨other.last⟩, ⟨none⟩, it)
  else if other.last ≠ none then do
    let p := if it.ref ≠ none then it.prev else self.last
    let pn ← load h p
    let ol ← load h other.last
    let h1 ← setNext h p ol.next
    let h2 ← setNext h1 other.last pn.next
    let self1 : CList := if it.ref = none then ⟨other.last⟩ else self
    pure (h2, self1, ⟨none⟩, ⟨it.ref, it._last, other.last⟩)
  else
    pure (h, self, ⟨none⟩, it)

/-- Function `_cx_memb(_split_off)`; it returns the memory, `self` and the list split off. -/
def split_off (h : Heap α) (self : CList) (it1 it2 : Iter) :
    Except Fault (Heap α × CList × CList) :=
  if it1.ref = it2.ref then
    pure (h, self, ⟨none⟩)
  else do
    let p1 := it1.prev
    let p2 := if it2.ref ≠ none then it2.prev else self.last
    let n2 ← load h p2
    let h1 ← setNext h p1 n2.next
    let h2 ← setNext h1 p2 it1.ref
    let self1 : CList := if self.last = p2 then (if p1 = p2 then ⟨none⟩ else ⟨p1⟩) else self
    pure (h2, self1, ⟨p2⟩)

end clist

/-! ## The older header `src/stc/clist.h`

Its functions take the address `self` of the handle, because its iterators are advanced by
`clist_X_next` after the handle has been changed: the handles are part of the state. -/

section Old
variable {α : Type}

/-- The iterator `clist_X_iter_t` of the older header: `{_last, item, state}`. -/
structure clist_X_iter_t where
  _last : Option Nat
  item : Ptr
  state : Int
deriving DecidableEq, Repr

/-- The read of the handle at the address `self` (`self->last`). -/
def readHandle (hs : Handles) (self : Nat) : Except Fault CList :=
  match hs self with
  | none => .error .invalidAccess
  | some c => .ok c

/-- Function `clist_X_before_begin`: `{&self->last, self->last, -1}`. -/
def clist_X_before_begin (hs : Handles) (self : Nat) : Except Fault clist_X_iter_t := do
  let c ← readHandle hs self
  pure ⟨some self, c.last, -1⟩

/-- Function `clist_X_end`: `{NULL}`. -/
def clist_X_end : clist_X_iter_t := ⟨none, none, 0⟩

/-- Function `clist_X_next`:
`it->item = ((it->state += it->item == *it->_last) == 1) ? NULL : it->item->next`. -/
def clist_X_next (hs : Handles) (h : Heap α) (it : clist_X_iter_t) :
    Except Fault clist_X_iter_t := do
  let last ← readLast hs it._last
  let state := it.state + (if it.item = last then 1 else 0)
  if state = 1 then
    pure ⟨it._last, none, state⟩
  else do
    let nd ← load h it.item
    pure ⟨it._last, nd.next, state⟩

/-- The macro `_clist_erase_after(self, X, node, valueDestroy)`. -/
def _clist_erase_after (hs : Handles) (h : Heap α) (self : Nat) (node : Ptr) :
    Except Fault (Handles × Heap α) := do
  let nn ← load h node
  let del := nn.next
  let dn ← load h del
  let next := dn.next
  let h1 ← setNext h node next
  let c ← readHandle hs self
  let c1 : CList := if del = next then ⟨none⟩ else if c.last = del then ⟨node⟩ else c
  pure (setHandle hs self c1, i_free h1 del)

/-- Function `clist_X_erase_after`. -/
def clist_X_erase_after (hs : Handles) (h : Heap α) (self : Nat) (pos : clist_X_iter_t) :
    Except Fault (Handles × Heap α × clist_X_iter_t) := do
  let (hs1, h1) ← _clist_erase_after hs h self pos.item
  let pos1 ← clist_X_next hs1 h1 pos
  pure (hs1, h1, pos1)

/-- The `for` loop of `clist_X_find_before`, entered after the first `clist_X_next(&i)`;
`cmp` is `valueCompareRaw` on the values.  It returns `first` when a value equal to `val`
is found after it, and nothing when `i` arrives at `last`. -/
def clist_X_find_before_loop (cmp : α → α → Int) (hs : Handles) (h : Heap α) (lastItem : Ptr)
    (val : α) : Nat → clist_X_iter_t → clist_X_iter_t → Except Fault (Option clist_X_iter_t)
  | 0, _, _ => .error .outOfFuel
  | fuel + 1, first, i =>
    if i.item ≠ lastItem then do
      let nd ← load h i.item
      if cmp nd.value val = 0 then
        pure (some first)
      else do
        let i1 ← clist_X_next hs h i
        clist_X_find_before_loop cmp hs h lastItem val fuel i i1
    else
      pure none

/-- Function `clist_X_find_before`. -/
def clist_X_find_before (cmp : α → α → Int) (fuel : Nat) (hs : Handles) (h : Heap α)
    (first last : clist_X_iter_t) (val : α) : Except Fault clist_X_iter_t := do
  let i ← clist_X_next hs h first
  let r ← clist_X_find_before_loop cmp hs h last.item val fuel first i
  match r with
  | some it => pure it
  | none => pure clist_X_end

/-- The loop of `clist_X_remove`:
`while ((it = find_before(self, it, end, val)).item != end.item) erase_after(self, it), ++n;`. -/
def clist_X_remove_loop (cmp : α → α → Int) (fuel0 : Nat) (self : Nat) (val : α) :
    Nat → Handles → Heap α → clist_X_iter_t → Nat → Except Fault (Handles × Heap α × Nat)
  | 0, _, _, _, _ => .error .outOfFuel
  | fuel + 1, hs, h, it, n => do
    let it1 ← clist_X_find_before cmp fuel0 hs h it clist_X_end val
    if it1.item ≠ clist_X_end.item then do
      let (hs1, h1, _) ← clist_X_erase_after hs h self it1
      clist_X_remove_loop cmp fuel0 self val fuel hs1 h1 it1 (n + 1)
    else
      pure (hs, h, n)

/-- Function `clist_X_remove`; every loop may take `fuel` steps. -/
def clist_X_remove (cmp : α → α → Int) (fuel : Nat) (hs : Handles) (h : Heap α) (self : Nat)
    (val : α) : Except Fault (Handles × Heap α × Nat) := do
  let it ← clist_X_before_begin hs self
  clist_X_remove_loop cmp fuel self val fuel hs h it 0

/-- The handle memory with one handle, the handle `c` at the address 0. -/
def oneHandle (c : CList) : Handles := fun x => if x = 0 then some c else none

/-- A memory that holds the list `[10, 20, 30, 40, 30, 50]` at the addresses 1 to 6. -/
def exHeap6 : Heap Int :=
  Heap.ofList [(1, ⟨some 2, 10⟩), (2, ⟨some 3, 20⟩), (3, ⟨some 4, 30⟩), (4, ⟨some 5, 40⟩),
    (5, ⟨some 6, 30⟩), (6, ⟨some 1, 50⟩)]

/-- A memory that holds the list `[30]` in one node at the address 1. -/
def exHeap1 : Heap Int := Heap.ofList [(1, ⟨some 1, 30⟩)]

/-- The memory `exHeap` together with a second list `[1, 2]` at the addresses 11 and 12. -/
def exTwo : Heap Int :=
  Heap.ofList [(1, ⟨some 2, 5⟩), (2, ⟨some 3, 3⟩), (3, ⟨some 1, 8⟩),
    (11, ⟨some 12, 1⟩), (12, ⟨some 11, 2⟩)]

end Old

end STC

namespace STC

namespace clist
variable {α : Type}

/-- Function `_cx_memb(_advance)`: `while (n-- && it.ref) _cx_memb(_next)(&it); return it;`. -/
def advance (hs : Handles) (h : Heap α) : Iter → Nat → Except Fault Iter
  | it, 0 => pure it
  | it, n + 1 =>
    if it.ref ≠ none then do
      let it1 ← next hs h it
      advance hs h it1 n
    else
      pure it

end clist

section Old2
variable {α : Type}

/-- Function `clist_X_begin`: `{&self->last, head}` with `head = self->last ? self->last->next
: NULL`; the `state` that is not named is 0. -/
def clist_X_begin (hs : Handles) (h : Heap α) (self : Nat) : Except Fault clist_X_iter_t := do
  let c ← readHandle hs self
  let head ← (if c.last ≠ none then do
                let ln ← load h c.last
                pure ln.next
              else pure none)
  pure ⟨some self, head, 0⟩

/-- The macro `_clist_insert_after(self, X, node, val)`: a node is allocated at `entry`,
`next = self->last ? node->next : entry`, the new node gets `val` and `next`, and
`if (node) node->next = entry`.  Setting `self->last` is left to the caller. -/
def _clist_insert_after (hs : Handles) (h : Heap α) (self : Nat) (node : Ptr) (entry : Nat)
    (val : α) : Except Fault (Heap α) := do
  let c ← readHandle hs self
  let h0 := store h entry ⟨none, val⟩
  let next ← (if c.last ≠ none then do
                let nn ← load h0 node
                pure nn.next
              else pure (some entry))
  let h1 ← setNext h0 (some entry) next
  if node ≠ none then setNext h1 node (some entry) else pure h1

/-- Function `clist_X_push_back`. -/
def clist_X_push_back (hs : Handles) (h : Heap α) (self : Nat) (entry : Nat) (value : α) :
    Except Fault (Handles × Heap α) := do
  let c ← readHandle hs self
  let h1 ← _clist_insert_after hs h self c.last entry value
  pure (setHandle hs self ⟨some entry⟩, h1)

/-- Function `clist_X_push_front`. -/
def clist_X_push_front (hs : Handles) (h : Heap α) (self : Nat) (entry : Nat) (value : α) :
    Except Fault (Handles × Heap α) := do
  let c ← readHandle hs self
  let h1 ← _clist_insert_after hs h self c.last entry value
  let c1 : CList := if c.last = none then ⟨some entry⟩ else c
  pure (setHandle hs self c1, h1)

/-- Function `clist_X_insert_after`: after the macro,
`if (pos.item == self->last && pos.state == 0) self->last = entry; pos.item = entry;`. -/
def clist_X_insert_after (hs : Handles) (h : Heap α) (self : Nat) (pos : clist_X_iter_t)
    (entry : Nat) (value : α) : Except Fault (Handles × Heap α × clist_X_iter_t) := do
  let h1 ← _clist_insert_after hs h self pos.item entry value
  let c ← readHandle hs self
  let c1 : CList := if pos.item = c.last ∧ pos.state = 0 then ⟨some entry⟩ else c
  pure (setHandle hs self c1, h1, ⟨pos._last, some entry, pos.state⟩)

/-- Function `clist_X_erase_range_after`:
`while (pos.item != last.item) pos = clist_X_erase_after(self, pos); return pos;`. -/
def clist_X_erase_range_after (self : Nat) (last : clist_X_iter_t) :
    Nat → Handles → Heap α → clist_X_iter_t → Except Fault (Handles × Heap α × clist_X_iter_t)
  | 0, _, _, _ => .error .outOfFuel
  | fuel + 1, hs, h, pos =>
    if pos.item ≠ last.item then do
      let (hs1, h1, pos1) ← clist_X_erase_after hs h self pos
      clist_X_erase_range_after self last fuel hs1 h1 pos1
    else
      pure (hs, h, pos)

namespace clist_void

/-- The merge loop `while (psize > 0 || (qsize > 0 && q))` of the `_clist_mergesort` of the
older header, with its four branches; it returns the memory, `q`, `list` and `tail`. -/
def mergesort_merge (cmp : α → α → Int) (oldhead : Ptr) :
    Nat → Heap α → Ptr → Ptr → Int → Int → Ptr → Ptr →
    Except Fault (Heap α × Ptr × Ptr × Ptr)
  | 0, _, _, _, _, _, _, _ => .error .outOfFuel
  | fuel + 1, h, p, q, psize, qsize, list, tail =>
    if 0 < psize ∨ (0 < qsize ∧ q ≠ none) then
      if psize = 0 then do
        let q1 ← clist.mergesort_step h oldhead q
        let (h1, list1) ← clist.mergesort_append h list tail q
        mergesort_merge cmp oldhead fuel h1 p q1 psize (wrapInt (qsize - 1)) list1 q
      else if qsize = 0 ∨ q = none then do
        let p1 ← clist.mergesort_step h oldhead p
        let (h1, list1) ← clist.mergesort_append h list tail p
        mergesort_merge cmp oldhead fuel h1 p1 q (wrapInt (psize - 1)) qsize list1 p
      else do
        let c ← clist.cmpNodes cmp h p q
        if c ≤ 0 then do
          let p1 ← clist.mergesort_step h oldhead p
          let (h1, list1) ← clist.mergesort_append h list tail p
          mergesort_merge cmp oldhead fuel h1 p1 q (wrapInt (psize - 1)) qsize list1 p
        else do
          let q1 ← clist.mergesort_step h oldhead q
          let (h1, list1) ← clist.mergesort_append h list tail q
          mergesort_merge cmp oldhead fuel h1 p q1 psize (wrapInt (qsize - 1)) list1 q
    else
      pure (h, q, list, tail)

/-- The loop `while (p)` of the `_clist_mergesort` of the older header; its `for` loop is that
of the current header. -/
def mergesort_pass (cmp : α → α → Int) (oldhead : Ptr) (insize : Int) (fuel0 : Nat) :
    Nat → Heap α → Ptr → Ptr → Ptr → Int → Except Fault (Heap α × Ptr × Ptr × Int)
  | 0, _, _, _, _, _ => .error .outOfFuel
  | fuel + 1, h, p, list, tail, nmerges =>
    if p ≠ none then do
      let (q, psize) ← clist.mergesort_skip h oldhead insize.toNat p 0
      let (h1, q1, list1, tail1) ← mergesort_merge cmp oldhead fuel0 h p q psize insize list tail
      mergesort_pass cmp oldhead insize fuel0 fuel h1 q1 list1 tail1 (wrapInt (nmerges + 1))
    else
      pure (h, list, tail, nmerges)

/-- The loop `while (1)` of the `_clist_mergesort` of the older header. -/
def mergesort_outer (cmp : α → α → Int) (fuel0 : Nat) :
    Nat → Heap α → Ptr → Int → Except Fault (Heap α × Ptr)
  | 0, _, _, _ => .error .outOfFuel
  | fuel + 1, h, list, insize => do
    let (h1, list1, tail, nmerges) ← mergesort_pass cmp list insize fuel0 fuel0 h list none none 0
    let h2 ← setNext h1 tail list1
    if nmerges ≤ 1 then
      pure (h2, tail)
    else
      mergesort_outer cmp fuel0 fuel h2 list1 (wrapInt (insize * 2))

/-- Function `_clist_mergesort(list, cmp)` of the older header, which starts with
`if (!list) return NULL;`; every loop may take `fuel` steps. -/
def _clist_mergesort (fuel : Nat) (h : Heap α) (list : Ptr) (cmp : α → α → Int) :
    Except Fault (Heap α × Ptr) :=
  if list = none then pure (h, none)
  else mergesort_outer cmp fuel fuel h list 1

end clist_void

/-- Function `clist_X_sort`:
`last = _clist_mergesort(self->last->next, clist_X_sort_compare); self->last = last;`. -/
def clist_X_sort (cmp : α → α → Int) (fuel : Nat) (hs : Handles) (h : Heap α) (self : Nat) :
    Except Fault (Handles × Heap α) := do
  let c ← readHandle hs self
  let ln ← load h c.last
  let (h1, last) ← clist_void._clist_mergesort fuel h ln.next cmp
  pure (setHandle hs self ⟨last⟩, h1)

end Old2

end STC

namespace STC
open clist

section Basics
variable {α : Type}

@[simp] theorem store_same (h : Heap α) (a : Nat) (n : Node α) : store h a n a = some n := by
  simp [store]

theorem store_other (h : Heap α) {a x : Nat} (n : Node α) (hx : x ≠ a) :
    store h a n x = h x := by
  simp [store, hx]

theorem load_ok {h : Heap α} {a : Nat} {n : Node α} (ha : h a = some n) :
    load h (some a) = .ok n := by
  simp [load, ha]

theorem setNext_ok {h : Heap α} {a : Nat} {n : Node α} (ha : h a = some n) (nx : Ptr) :
    setNext h (some a) nx = .ok (store h a ⟨nx, n.value⟩) := by
  simp [setNext, ha]

theorem Link_iff {h : Heap α} {a b : Nat} :
    Link h a b ↔ ∃ v, h a = some ⟨some b, v⟩ := by
  unfold Link
  constructor
  · intro hl
    cases hn : h a with
    | none => simp [hn] at hl
    | some n =>
      obtain ⟨nx, v⟩ := n
      simp [hn] at hl
      exact ⟨v, by simp [hl]⟩
  · rintro ⟨v, hv⟩
    simp [hv]

theorem Link_store_same (h : Heap α) (a b : Nat) (v : α) :
    Link (store h a ⟨some b, v⟩) a b := by
  simp [Link]

theorem Link_congr {h h1 : Heap α} {a b : Nat} (he : h1 a = h a) :
    Link h1 a b ↔ Link h a b := by
  simp [Link, he]

/-- A chain of links only depends on the memory at its sources. -/
theorem chain_frame {h h1 : Heap α} :
    ∀ (l : List Nat) (b : Nat), List.Chain' (Link h) (l ++ [b]) →
      (∀ x ∈ l, h1 x = h x) → List.Chain' (Link h1) (l ++ [b])
  | [], _, _, _ => by simp
  | [a], b, hc, hs => by
    simp only [List.singleton_append, List.chain'_cons, List.chain'_singleton, and_true] at hc ⊢
    exact (Link_congr (hs a (by simp))).2 hc
  | a :: a1 :: l, b, hc, hs => by
    simp only [List.cons_append, List.chain'_cons] at hc ⊢
    refine ⟨(Link_congr (hs a (by simp))).2 hc.1, ?_⟩
    have := chain_frame (a1 :: l) b (by simpa using hc.2) (fun x hx => hs x (by simp at hx ⊢; tauto))
    simpa using this

theorem chain_frame' {h h1 : Heap α} (l : List Nat) (hc : List.Chain' (Link h) l)
    (hs : ∀ x ∈ l, h1 x = h x) : List.Chain' (Link h1) l := by
  rcases List.eq_nil_or_concat l with rfl | ⟨l0, b, rfl⟩
  · simp
  · rw [List.concat_eq_append] at hc hs ⊢
    exact chain_frame l0 b hc (fun x hx => hs x (by simp [hx]))

/-- Every source of a chain is a live node. -/
theorem chain_live {h : Heap α} :
    ∀ (l : List Nat) (b : Nat), List.Chain' (Link h) (l ++ [b]) → ∀ x ∈ l, ∃ n, h x = some n
  | [], _, _, x, hx => by simp at hx
  | [a], b, hc, x, hx => by
    simp only [List.singleton_append, List.chain'_cons, List.chain'_singleton, and_true] at hc
    simp at hx
    subst hx
    obtain ⟨v, hv⟩ := Link_iff.1 hc
    exact ⟨_, hv⟩
  | a :: a1 :: l, b, hc, x, hx => by
    simp only [List.cons_append, List.chain'_cons] at hc
    rcases List.mem_cons.1 hx with rfl | hx
    · obtain ⟨v, hv⟩ := Link_iff.1 hc.1
      exact ⟨_, hv⟩
    · exact chain_live (a1 :: l) b (by simpa using hc.2) x hx

theorem IsRing.nodup {h : Heap α} {l : List Nat} (hr : IsRing h l) : l.Nodup := hr.1

theorem IsRing_nil (h : Heap α) : IsRing h [] := by simp [IsRing]

theorem IsRing_cons_iff {h : Heap α} {a : Nat} {t : List Nat} :
    IsRing h (a :: t) ↔ (a :: t).Nodup ∧ List.Chain' (Link h) (a :: t ++ [a]) := by
  unfold IsRing
  rw [List.chain'_append]
  simp

theorem IsRing_snoc_iff {h : Heap α} {p : Nat} {l : List Nat} :
    IsRing h (l ++ [p]) ↔
      (l ++ [p]).Nodup ∧ List.Chain' (Link h) (l ++ [p]) ∧ ∀ a ∈ (l ++ [p]).head?, Link h p a := by
  unfold IsRing
  simp

theorem IsRing.last_link {h : Heap α} {l : List Nat} {p : Nat} (hr : IsRing h (l ++ [p])) :
    ∃ a, (l ++ [p]).head? = some a ∧ Link h p a := by
  have h3 := (IsRing_snoc_iff.1 hr).2.2
  cases l with
  | nil => exact ⟨p, rfl, h3 p rfl⟩
  | cons a t => exact ⟨a, rfl, h3 a rfl⟩

theorem IsRing.live {h : Heap α} {l : List Nat} (hr : IsRing h l) {x : Nat} (hx : x ∈ l) :
    ∃ n, h x = some n := by
  rcases List.eq_nil_or_concat l with rfl | ⟨l0, p, rfl⟩
  · simp at hx
  · rw [List.concat_eq_append] at hr hx
    obtain ⟨a, -, hpa⟩ := hr.last_link
    rcases List.mem_append.1 hx with hx | hx
    · exact chain_live l0 p hr.2.1 x hx
    · simp at hx
      subst hx
      obtain ⟨v, hv⟩ := Link_iff.1 hpa
      exact ⟨_, hv⟩

/-- A ring may be read from any of its nodes. -/
theorem IsRing.rotate {h : Heap α} {l1 l2 : List Nat} (hr : IsRing h (l1 ++ l2)) :
    IsRing h (l2 ++ l1) := by
  cases l1 with
  | nil => simpa using hr
  | cons a t1 =>
    cases l2 with
    | nil => simpa using hr
    | cons b t2 =>
      rw [List.cons_append, IsRing_cons_iff] at hr ⊢
      obtain ⟨hn, hc⟩ := hr
      refine ⟨?_, ?_⟩
      · have : (a :: t1 ++ b :: t2).Nodup := hn
        exact (List.perm_append_comm.nodup_iff).1 this
      · have e1 : a :: (t1 ++ b :: t2) ++ [a] = (a :: t1) ++ b :: (t2 ++ [a]) := by simp
        have e2 : b :: (t2 ++ a :: t1) ++ [b] = (b :: t2) ++ a :: (t1 ++ [b]) := by simp
        rw [e1, List.chain'_split] at hc
        rw [e2, List.chain'_split]
        exact ⟨by simpa using hc.2, by simpa using hc.1⟩

end Basics
end STC

namespace STC
open clist

section Insert
variable {α : Type}

theorem vals_congr {h h1 : Heap α} {l : List Nat}
    (hv : ∀ x ∈ l, (h1 x).map Node.value = (h x).map Node.value) : vals h1 l = vals h l := by
  unfold vals
  induction l with
  | nil => rfl
  | cons a t ih =>
    simp only [List.filterMap_cons, hv a (by simp)]
    rw [ih (fun x hx => hv x (by simp [hx]))]

theorem vals_append (h : Heap α) (l1 l2 : List Nat) :
    vals h (l1 ++ l2) = vals h l1 ++ vals h l2 := by
  simp [vals]

theorem vals_cons_of {h : Heap α} {a : Nat} {v : α} (l : List Nat)
    (ha : (h a).map Node.value = some v) : vals h (a :: l) = v :: vals h l := by
  simp [vals, List.filterMap_cons, ha]

theorem vals_nil (h : Heap α) : vals h [] = [] := rfl

/-- Linking a fresh node after the last node `p` of a ring. -/
theorem insert_entry_after_last {h : Heap α} {l : List Nat} {p entry : Nat} (v : α)
    (hr : IsRing h (l ++ [p])) (hf : h entry = none) :
    ∃ h1, _c_clist_insert_entry_after h (some p) entry v = .ok h1 ∧
      IsRing h1 (l ++ [p] ++ [entry]) ∧
      (h1 entry).map Node.value = some v ∧
      (∀ x, x ≠ entry → (h1 x).map Node.value = (h x).map Node.value) ∧
      (∀ x, x ≠ entry → x ≠ p → h1 x = h x) ∧ Link h1 p entry := by
  obtain ⟨a0, ha0, hpa⟩ := hr.last_link
  obtain ⟨vp, hp⟩ := Link_iff.1 hpa
  have hpe : p ≠ entry := by
    rintro rfl
    simp [hf] at hp
  have hnl : ∀ x ∈ l ++ [p], x ≠ entry := by
    intro x hx hxe
    obtain ⟨n, hn⟩ := hr.live hx
    simp [hxe, hf] at hn
  refine ⟨store (store (store h entry ⟨none, v⟩) entry ⟨some a0, v⟩) p ⟨some entry, vp⟩,
    ?_, ?_, ?_, ?_, ?_, ?_⟩
  · simp [_c_clist_insert_entry_after, _c_clist_insert_after_node, load, setNext, store, hpe, hp,
      bind, Except.bind]
  · rw [IsRing_snoc_iff]
    refine ⟨?_, ?_, ?_⟩
    · rw [List.nodup_append]
      refine ⟨hr.nodup, by simp, ?_⟩
      intro x hx hx2
      simp at hx2
      exact hnl x hx hx2
    · rw [List.chain'_append]
      refine ⟨?_, by simp, ?_⟩
      · apply chain_frame l p hr.2.1
        intro x hx
        have h1 : x ≠ entry := hnl x (by simp [hx])
        have h2 : x ≠ p := by
          rintro rfl
          have := hr.nodup
          rw [List.nodup_append] at this
          exact this.2.2 hx (by simp)
        simp [store, h1, h2]
      · intro x hx y hy
        simp at hx hy
        subst hx hy
        simp [Link, store]
    · intro a ha
      rw [List.head?_append_of_ne_nil _ (by simp), ha0] at ha
      simp at ha
      subst ha
      simp [Link, store, hpe.symm]
  · simp [store, hpe.symm]
  · intro x hxe
    by_cases hxp : x = p
    · subst hxp
      simp [store, hp]
    · simp [store, hxe, hxp]
  · intro x hxe hxp
    simp [store, hxe, hxp]
  · simp [Link, store]

/-- Linking a fresh node into an empty list. -/
theorem insert_entry_after_null (h : Heap α) (entry : Nat) (v : α) :
    ∃ h1, _c_clist_insert_entry_after h none entry v = .ok h1 ∧
      IsRing h1 [entry] ∧ Link h1 entry entry ∧
      (h1 entry).map Node.value = some v ∧
      (∀ x, x ≠ entry → h1 x = h x) := by
  refine ⟨store (store h entry ⟨none, v⟩) entry ⟨some entry, v⟩, ?_, ?_, ?_, ?_, ?_⟩
  · simp [_c_clist_insert_entry_after, _c_clist_insert_after_node, setNext, store]
  · simp [IsRing, Link, store]
  · simp [Link, store]
  · simp [store]
  · intro x hx
    simp [store, hx]

theorem IsList_nil_iff {h : Heap α} {self : CList} : IsList h self [] ↔ self.last = none := by
  simp [IsList, IsRing_nil]

theorem IsList_snoc_iff {h : Heap α} {self : CList} {l : List Nat} {p : Nat} :
    IsList h self (l ++ [p]) ↔ IsRing h (l ++ [p]) ∧ self.last = some p := by
  simp [IsList]

theorem IsRing.not_mem_of_fresh {h : Heap α} {l : List Nat} (hr : IsRing h l) {e : Nat}
    (hf : h e = none) : e ∉ l := by
  intro he
  obtain ⟨n, hn⟩ := hr.live he
  simp [hf] at hn

theorem push_back_aux (h : Heap α) (self : CList) (l : List Nat) (entry : Nat) (v : α)
    (hl : IsList h self l) (hf : h entry = none) :
    ∃ h1, push_back h self entry v = .ok (h1, ⟨some entry⟩, some entry) ∧
      IsList h1 ⟨some entry⟩ (l ++ [entry]) ∧
      vals h1 (l ++ [entry]) = vals h l ++ [v] ∧
      (h1 entry).map Node.value = some v ∧
      (l = [] → Link h1 entry entry) := by
  rcases List.eq_nil_or_concat l with rfl | ⟨l0, p, rfl⟩
  · have hs : self.last = none := IsList_nil_iff.1 hl
    obtain ⟨h1, hi, hr1, hlk, hv, -⟩ := insert_entry_after_null h entry v
    refine ⟨h1, ?_, ?_, ?_, hv, fun _ => hlk⟩
    · simp [push_back, hs, hi, bind, Except.bind, pure, Except.pure]
    · exact ⟨hr1, by simp⟩
    · simp [vals, hv]
  · rw [List.concat_eq_append] at hl ⊢
    obtain ⟨hr, hs⟩ := IsList_snoc_iff.1 hl
    obtain ⟨h1, hi, hr1, hv, hvs, -, -⟩ := insert_entry_after_last v hr hf
    refine ⟨h1, ?_, ?_, ?_, hv, by simp⟩
    · simp [push_back, hs, hi, bind, Except.bind, pure, Except.pure]
    · exact ⟨hr1, by simp⟩
    · have hc : vals h1 (l0 ++ [p]) = vals h (l0 ++ [p]) :=
        vals_congr (fun x hx => hvs x (fun hxe => hr.not_mem_of_fresh hf (hxe ▸ hx)))
      rw [vals_append, hc]
      simp [vals, hv]

theorem push_front_aux (h : Heap α) (self : CList) (l : List Nat) (entry : Nat) (v : α)
    (hl : IsList h self l) (hf : h entry = none) :
    ∃ h1 self1, push_front h self entry v = .ok (h1, self1, some entry) ∧
      IsList h1 self1 (entry :: l) ∧
      vals h1 (entry :: l) = v :: vals h l ∧
      (h1 entry).map Node.value = some v ∧
      front h1 self1 = .ok (some entry) ∧
      (l ≠ [] → self1 = self) ∧ (l = [] → self1.last = some entry) := by
  rcases List.eq_nil_or_concat l with rfl | ⟨l0, p, rfl⟩
  · have hs : self.last = none := IsList_nil_iff.1 hl
    obtain ⟨h1, hi, hr1, hlk, hv, -⟩ := insert_entry_after_null h entry v
    obtain ⟨w, hw⟩ := Link_iff.1 hlk
    refine ⟨h1, ⟨some entry⟩, ?_, ?_, ?_, hv, ?_, by simp, by simp⟩
    · simp [push_front, hs, hi, bind, Except.bind, pure, Except.pure]
    · exact ⟨hr1, by simp⟩
    · simp [vals, hv]
    · simp [front, load, hw, valueRef, bind, Except.bind]
  · rw [List.concat_eq_append] at hl ⊢
    obtain ⟨hr, hs⟩ := IsList_snoc_iff.1 hl
    obtain ⟨h1, hi, hr1, hv, hvs, -, hlk⟩ := insert_entry_after_last v hr hf
    obtain ⟨w, hw⟩ := Link_iff.1 hlk
    refine ⟨h1, self, ?_, ?_, ?_, hv, ?_, by simp, by simp⟩
    · simp [push_front, hs, hi, bind, Except.bind, pure, Except.pure]
    · refine ⟨hr1.rotate, ?_⟩
      rw [hs, ← List.cons_append, List.getLast?_concat]
    · rw [vals_cons_of _ hv, vals_congr (l := l0 ++ [p])]
      intro x hx
      exact hvs x (fun hxe => hr.not_mem_of_fresh hf (hxe ▸ hx))
    · simp [front, hs, load, hw, valueRef, bind, Except.bind]

end Insert
end STC

namespace STC
open clist

section Count
variable {α : Type}

/-- The counting loop, started on the node `x` of a chain `x :: rest` that ends at `z`. -/
theorem count_loop_chain {h : Heap α} {z : Nat} :
    ∀ (rest : List Nat) (x n fuel : Nat), List.Chain' (Link h) (x :: rest ++ [z]) →
      z ∉ rest → rest.length + 1 ≤ fuel →
      count_loop h (some z) fuel (some x) n = .ok (n + rest.length)
  | [], x, n, fuel, hc, _, hf => by
    obtain ⟨f, rfl⟩ : ∃ f, fuel = f + 1 := ⟨fuel - 1, by simp at hf; omega⟩
    simp only [List.cons_append, List.nil_append, List.chain'_cons, List.chain'_singleton,
      and_true] at hc
    obtain ⟨v, hv⟩ := Link_iff.1 hc
    simp [count_loop, load, hv, bind, Except.bind, pure, Except.pure]
  | y :: r, x, n, fuel, hc, hz, hf => by
    obtain ⟨f, rfl⟩ : ∃ f, fuel = f + 1 := ⟨fuel - 1, by simp at hf; omega⟩
    simp only [List.cons_append, List.chain'_cons] at hc
    obtain ⟨v, hv⟩ := Link_iff.1 hc.1
    have hyz : y ≠ z := fun e => hz (by simp [e])
    have ih := count_loop_chain r y (n + 1) f (by simpa using hc.2)
      (fun hm => hz (by simp [hm])) (by simp at hf; omega)
    simp [count_loop, load, hv, bind, Except.bind, hyz, ih]
    omega

theorem count_of_IsList {h : Heap α} {self : CList} {l : List Nat} (hl : IsList h self l)
    (fuel : Nat) (hf : l.length ≤ fuel) : count fuel h self = .ok l.length := by
  rcases List.eq_nil_or_concat l with rfl | ⟨l0, z, rfl⟩
  · have hs : self.last = none := IsList_nil_iff.1 hl
    simp [count, hs, pure, Except.pure]
  · rw [List.concat_eq_append] at hl hf ⊢
    obtain ⟨hr, hs⟩ := IsList_snoc_iff.1 hl
    have hr2 : IsRing h ([z] ++ l0) := hr.rotate
    have hc := (IsRing_cons_iff.1 hr2).2
    have hz : z ∉ l0 := by
      have := hr2.nodup
      simp at this
      exact this.1
    have := count_loop_chain l0 z 1 fuel hc hz (by simpa using hf)
    simp [count, hs, this]
    omega

end Count
end STC

namespace STC
open clist

section Unlink
variable {α : Type}

theorem IsRing.frame {h h1 : Heap α} {l : List Nat} (hr : IsRing h l)
    (hs : ∀ a ∈ l, h1 a = h a) : IsRing h1 l := by
  refine ⟨hr.1, chain_frame' l hr.2.1 hs, ?_⟩
  intro z hz a ha
  have hzl : z ∈ l := List.mem_of_mem_getLast? hz
  exact (Link_congr (hs z hzl)).2 (hr.2.2 z hz a ha)

theorem i_free_other (h : Heap α) {a x : Nat} (hx : x ≠ a) : i_free h (some a) x = h x := by
  simp [i_free, hx]

@[simp] theorem i_free_same (h : Heap α) (a : Nat) : i_free h (some a) a = none := by
  simp [i_free]

theorem unlink_single {h : Heap α} {x : Nat} (hr : IsRing h [x]) (self : CList) :
    ∃ h1, unlink_after_node h self (some x) = .ok (h1, ⟨none⟩, some x) ∧
      (∀ a, a ≠ x → h1 a = h a) ∧
      (∀ a, (h1 a).map Node.value = (h a).map Node.value) := by
  have hl : Link h x x := by
    have := hr.2.2
    simpa using this
  obtain ⟨v, hv⟩ := Link_iff.1 hl
  refine ⟨store h x ⟨some x, v⟩, ?_, ?_, ?_⟩
  · simp [unlink_after_node, load, hv, setNext, bind, Except.bind, pure, Except.pure]
  · intro a ha
    simp [store, ha]
  · intro a
    by_cases ha : a = x
    · subst ha
      simp [store, hv]
    · simp [store, ha]

theorem unlink_after_last {h : Heap α} {x p : Nat} {l0 : List Nat}
    (hr : IsRing h (x :: l0 ++ [p])) (self : CList) :
    ∃ h1, unlink_after_node h self (some p) =
        .ok (h1, (if some x = self.last then ⟨some p⟩ else self), some x) ∧
      IsRing h1 (l0 ++ [p]) ∧
      (∀ a, a ≠ p → h1 a = h a) ∧
      (∀ a, (h1 a).map Node.value = (h a).map Node.value) := by
  obtain ⟨x', hx', hpx⟩ := hr.last_link (l := x :: l0)
  simp at hx'
  subst hx'
  obtain ⟨vp, hp⟩ := Link_iff.1 hpx
  have hc := hr.2.1
  obtain ⟨y, hy⟩ : ∃ y, (l0 ++ [p]).head? = some y := by
    cases l0 with
    | nil => exact ⟨p, rfl⟩
    | cons b t => exact ⟨b, rfl⟩
  obtain ⟨t, ht⟩ : ∃ t, l0 ++ [p] = y :: t := by
    cases l0 with
    | nil => exact ⟨[], by simp at hy; simp [hy]⟩
    | cons b t => exact ⟨t ++ [p], by simp at hy; simp [hy]⟩
  have hn := hr.nodup
  rw [List.cons_append, ht] at hc hn
  have hxy : Link h x y := by
    simp only [List.chain'_cons] at hc
    exact hc.1
  obtain ⟨vx, hx⟩ := Link_iff.1 hxy
  have hne : x ≠ y := by
    intro e
    simp [e] at hn
  have hxp : x ≠ p := by
    intro e
    have := hr.nodup
    simp [e] at this
  have hpl : p ∉ l0 := by
    have := hr.nodup
    rw [List.cons_append, List.nodup_cons, List.nodup_append] at this
    exact fun hm => this.2.2.2 hm (by simp)
  refine ⟨store h p ⟨some y, vp⟩, ?_, ?_, ?_, ?_⟩
  · by_cases hs : some x = self.last
    · rw [if_pos hs]
      simp [unlink_after_node, load, hp, hx, setNext, bind, Except.bind, pure, Except.pure,
        hne, hs.symm]
    · have hs' : ¬ (self.last = some x) := fun e => hs e.symm
      simp [unlink_after_node, load, hp, hx, setNext, bind, Except.bind, pure, Except.pure,
        hne, hs, hs']
  · rw [IsRing_snoc_iff]
    have hn0 := hr.nodup
    rw [List.cons_append, List.nodup_cons] at hn0
    refine ⟨hn0.2, ?_, ?_⟩
    · have hc0 := hr.2.1
      rw [List.cons_append] at hc0
      have hc1 : List.Chain' (Link h) (l0 ++ [p]) := hc0.tail
      apply chain_frame l0 p hc1
      intro a ha
      have : a ≠ p := fun e => hpl (e ▸ ha)
      simp [store, this]
    · intro a ha
      rw [hy] at ha
      simp at ha
      subst ha
      simp [Link, store]
  · intro a ha
    simp [store, ha]
  · intro a
    by_cases ha : a = p
    · subst ha
      simp [store, hp]
    · simp [store, ha]

/-- Unlinking the head `x` of the ring `x :: m` through the node before it, the last one. -/
theorem unlink_head {h : Heap α} {x : Nat} {m : List Nat} (hr : IsRing h (x :: m))
    (self : CList) :
    ∃ h1, unlink_after_node h self ((x :: m).getLast?) =
        .ok (h1, (if m = [] then ⟨none⟩ else if some x = self.last then ⟨m.getLast?⟩ else self),
          some x) ∧
      IsRing h1 m ∧
      (∀ a, a ∉ m → h1 a = h a) ∧
      (∀ a, (h1 a).map Node.value = (h a).map Node.value) := by
  rcases List.eq_nil_or_concat m with rfl | ⟨l0, p, rfl⟩
  · obtain ⟨h1, h2, h3, h4⟩ := unlink_single hr self
    refine ⟨h1, by simpa using h2, IsRing_nil _, ?_, h4⟩
    intro a _
    by_cases ha : a = x
    · subst ha
      have hx := h4 a
      have hl : Link h a a := by
        have := hr.2.2
        simpa using this
      obtain ⟨v, hv⟩ := Link_iff.1 hl
      -- the only write stores the same node back
      simp only [unlink_after_node, load, hv, setNext, bind, Except.bind, pure, Except.pure,
        if_true] at h2
      simp at h2
      rw [← h2, hv]
      simp [store]
    · exact h3 a ha
  · rw [List.concat_eq_append] at hr ⊢
    have hr0 : IsRing h (x :: l0 ++ [p]) := by simpa using hr
    obtain ⟨h1, h2, h3, h4, h5⟩ := unlink_after_last hr0 self
    have e1 : (x :: (l0 ++ [p])).getLast? = some p := by
      rw [← List.cons_append, List.getLast?_concat]
    refine ⟨h1, ?_, h3, ?_, h5⟩
    · rw [e1, h2]
      simp
    · intro a ha
      exact h4 a (fun e => ha (by simp [e]))

end Unlink
end STC

namespace STC
open clist

section Erase
variable {α : Type}

theorem getLast?_cons_of_ne_nil {β : Type} (x : β) {l : List β} (hl : l ≠ []) :
    (x :: l).getLast? = l.getLast? := by
  cases l with
  | nil => exact absurd rfl hl
  | cons b t => rw [List.getLast?_cons_cons]

theorem getLast?_mem_of_ne_nil {β : Type} {l : List β} (hl : l ≠ []) :
    ∃ z, l.getLast? = some z ∧ z ∈ l := by
  rcases List.eq_nil_or_concat l with rfl | ⟨l0, z, rfl⟩
  · exact absurd rfl hl
  · exact ⟨z, by simp, by simp⟩

/-- Erasing the node `x` of a list through the node before it in the ring. -/
theorem erase_after_pred {h : Heap α} {self : CList} {pre suf : List Nat} {x : Nat}
    (hl : IsList h self (pre ++ x :: suf)) :
    ∃ h1 self1, erase_after_node h self ((x :: (suf ++ pre)).getLast?) = .ok (h1, self1) ∧
      IsList h1 self1 (pre ++ suf) ∧ h1 x = none ∧
      (∀ a, a ≠ x → (h1 a).map Node.value = (h a).map Node.value) ∧
      (∀ a, a ∉ pre ++ x :: suf → h1 a = h a) ∧
      (suf ≠ [] → self1 = self) := by
  obtain ⟨hr, hs⟩ := hl
  have hr2 : IsRing h (x :: suf ++ pre) := hr.rotate
  obtain ⟨h1, hu, hr1, hfr, hvs⟩ := unlink_head (m := suf ++ pre) (by simpa using hr2) self
  have hn := hr.nodup
  have hx1 : x ∉ pre ++ suf := by
    rw [List.nodup_append] at hn
    intro hm
    rcases List.mem_append.1 hm with hm | hm
    · exact hn.2.2 hm (by simp)
    · have := hn.2.1
      simp at this
      exact this.1 hm
  have hlast : self.last = (x :: suf).getLast? := by
    rw [hs, List.getLast?_append_cons]
  refine ⟨i_free h1 (some x),
    (if suf ++ pre = [] then ⟨none⟩
     else if some x = self.last then ⟨(suf ++ pre).getLast?⟩ else self),
    ?_, ⟨?_, ?_⟩, by simp, ?_, ?_, ?_⟩
  · simp only [erase_after_node, hu, bind, Except.bind, pure, Except.pure]
  · apply IsRing.frame (hr1.rotate)
    intro a ha
    exact i_free_other _ (fun e => hx1 (e ▸ ha))
  · by_cases hm : suf ++ pre = []
    · have h1' : suf = [] := (List.append_eq_nil.1 hm).1
      have h2' : pre = [] := (List.append_eq_nil.1 hm).2
      simp [h1', h2']
    · rw [if_neg hm]
      by_cases hsuf : suf = []
      · subst hsuf
        have : some x = self.last := by rw [hlast]; rfl
        rw [if_pos this]
        simp
      · have hne : ¬ (some x = self.last) := by
          rw [hlast, getLast?_cons_of_ne_nil x hsuf]
          obtain ⟨z, hz, hzm⟩ := getLast?_mem_of_ne_nil hsuf
          rw [hz]
          intro e
          simp at e
          subst e
          exact hx1 (by simp [hzm])
        rw [if_neg hne, hlast, getLast?_cons_of_ne_nil x hsuf,
          List.getLast?_append_of_ne_nil _ hsuf]
  · intro a ha
    rw [i_free_other _ ha]
    exact hvs a
  · intro a ha
    have hax : a ≠ x := fun e => ha (by simp [e])
    rw [i_free_other _ hax]
    apply hfr
    intro hm
    apply ha
    simp at hm ⊢
    tauto
  · intro hsuf
    have hm : suf ++ pre ≠ [] := by simp [hsuf]
    have hne : ¬ (some x = self.last) := by
      rw [hlast, getLast?_cons_of_ne_nil x hsuf]
      obtain ⟨z, hz, hzm⟩ := getLast?_mem_of_ne_nil hsuf
      rw [hz]
      intro e
      simp at e
      subst e
      exact hx1 (by simp [hzm])
    rw [if_neg hm, if_neg hne]

theorem pop_front_aux {h : Heap α} {self : CList} {x : Nat} {xs : List Nat}
    (hl : IsList h self (x :: xs)) :
    ∃ h1 self1, pop_front h self = .ok (h1, self1) ∧
      IsList h1 self1 xs ∧ h1 x = none ∧
      (∀ a, a ≠ x → (h1 a).map Node.value = (h a).map Node.value) ∧
      (∀ a, a ∉ x :: xs → h1 a = h a) ∧
      (xs ≠ [] → self1 = self) := by
  have hl0 : IsList h self ([] ++ x :: xs) := hl
  obtain ⟨h1, self1, he, hl1, hx, hv, hfr, hs⟩ := erase_after_pred hl0
  have hlast : self.last = (x :: xs).getLast? := hl.2
  refine ⟨h1, self1, ?_, by simpa using hl1, hx, hv, by simpa using hfr, hs⟩
  have hne : empty self = false := by
    simp [empty, hlast, List.getLast?_cons]
  simp only [pop_front, hne]
  simp only [List.append_nil] at he
  rw [hlast]
  simpa using he

end Erase
end STC

namespace STC
open clist

section InsertAt
variable {α : Type}

theorem insert_at_aux {h : Heap α} {self : CList} {pre suf : List Nat} {it : Iter}
    (entry : Nat) (v : α)
    (hl : IsList h self (pre ++ suf)) (href : it.ref = suf.head?)
    (hprev : suf ≠ [] → it.prev = (suf ++ pre).getLast?) (hf : h entry = none) :
    ∃ h1 self1, insert_at h self it entry v =
        .ok (h1, self1, ⟨some entry, it._last, (entry :: (suf ++ pre)).getLast?⟩) ∧
      IsList h1 self1 (pre ++ entry :: suf) ∧
      vals h1 (pre ++ entry :: suf) = vals h pre ++ v :: vals h suf ∧
      (h1 entry).map Node.value = some v ∧
      (suf = [] → self1.last = some entry) ∧ (suf ≠ [] → self1 = self) ∧
      (∀ a, a ∉ entry :: (pre ++ suf) → h1 a = h a) := by
  obtain ⟨hr, hs⟩ := hl
  have hfresh : entry ∉ pre ++ suf := hr.not_mem_of_fresh hf
  have hvals : ∀ {h1 : Heap α},
      (∀ x, x ≠ entry → (h1 x).map Node.value = (h x).map Node.value) →
      (h1 entry).map Node.value = some v →
      vals h1 (pre ++ entry :: suf) = vals h pre ++ v :: vals h suf := by
    intro h1 hvs hv
    have e1 : vals h1 pre = vals h pre :=
      vals_congr (fun x hx => hvs x (fun e => hfresh (by simp [← e, hx])))
    have e2 : vals h1 suf = vals h suf :=
      vals_congr (fun x hx => hvs x (fun e => hfresh (by simp [← e, hx])))
    rw [vals_append, vals_cons_of _ hv, e1, e2]
  by_cases hsuf : suf = []
  · subst hsuf
    simp only [List.append_nil] at hr hs hfresh
    have hir : it.ref = none := by simpa using href
    rcases List.eq_nil_or_concat pre with rfl | ⟨l0, p, rfl⟩
    · have hs0 : self.last = none := by simpa using hs
      obtain ⟨h1, hi, hr1, -, hv, hfr⟩ := insert_entry_after_null h entry v
      refine ⟨h1, ⟨some entry⟩, ?_, ⟨by simpa using hr1, by simp⟩, ?_, hv, by simp, by simp, ?_⟩
      · simp [insert_at, hir, hs0, hi, bind, Except.bind, pure, Except.pure]
      · exact hvals (fun x hx => by rw [hfr x hx]) hv
      · intro a ha
        exact hfr a (fun e => ha (by simp [e]))
    · simp only [List.concat_eq_append] at hr hs hfresh hvals ⊢
      have hs0 : self.last = some p := by simpa using hs
      obtain ⟨h1, hi, hr1, hv, hvs, hfr, -⟩ := insert_entry_after_last v hr hf
      refine ⟨h1, ⟨some entry⟩, ?_, ⟨hr1, by simp⟩, hvals hvs hv, hv, by simp, by simp, ?_⟩
      · simp only [insert_at, hir, hs0, bind, Except.bind, pure, Except.pure]
        simp [hi, List.getLast?_cons]
      · intro a ha
        simp at ha
        exact hfr a (by tauto) (by tauto)
  · obtain ⟨x, s, rfl⟩ : ∃ x s, suf = x :: s := by
      cases suf with
      | nil => exact absurd rfl hsuf
      | cons x s => exact ⟨x, s, rfl⟩
    have hir : it.ref = some x := by simpa using href
    have hip := hprev hsuf
    have hr2 : IsRing h (x :: s ++ pre) := hr.rotate
    obtain ⟨l0, q, hq⟩ : ∃ l0 q, x :: s ++ pre = l0 ++ [q] := by
      rcases List.eq_nil_or_concat (x :: s ++ pre) with e | ⟨l0, q, e⟩
      · simp at e
      · exact ⟨l0, q, by rw [e, List.concat_eq_append]⟩
    rw [hq] at hr2 hip
    have hip' : it.prev = some q := by simpa using hip
    obtain ⟨h1, hi, hr1, hv, hvs, hfr, -⟩ := insert_entry_after_last v hr2 hf
    have hsl : self.last = (x :: s).getLast? := by
      rw [hs, List.getLast?_append_cons]
    obtain ⟨z, hz, -⟩ := getLast?_mem_of_ne_nil hsuf
    have hsn : self.last ≠ none := by rw [hsl, hz]; simp
    refine ⟨h1, self, ?_, ⟨?_, ?_⟩, hvals hvs hv, hv, by simp, by simp, ?_⟩
    · simp only [insert_at, hir, hip', bind, Except.bind, pure, Except.pure]
      have e : (entry :: (x :: s ++ pre)).getLast? = some q := by
        rw [hq, ← List.cons_append, List.getLast?_concat]
      have e2 : (x :: (s ++ pre)).getLast? = some q := by
        have := congrArg List.getLast? hq
        rw [List.getLast?_concat] at this
        simpa using this
      simp [hi, hsn, e2]
    · rw [← hq] at hr1
      have : IsRing h1 ((x :: s) ++ (pre ++ [entry])) := by simpa using hr1
      simpa using this.rotate
    · rw [hsl]
      have e : pre ++ entry :: x :: s = (pre ++ [entry]) ++ x :: s := by simp
      rw [e, List.getLast?_append_cons]
    · intro a ha
      simp at ha
      apply hfr a (by tauto)
      intro e
      have : q ∈ x :: s ++ pre := by rw [hq]; simp
      subst e
      simp at this
      tauto

end InsertAt
end STC

namespace STC
open clist

section EraseAt
variable {α : Type}

theorem IsRing.link_next {h : Heap α} {pre suf : List Nat} {x y : Nat}
    (hr : IsRing h (pre ++ x :: y :: suf)) : Link h x y := by
  have hc := hr.2.1
  rw [List.chain'_split] at hc
  have := hc.2
  simp only [List.chain'_cons] at this
  exact this.1

/-- In a list the last node is the only one equal to `self.last`. -/
theorem IsList.last_eq_iff {h : Heap α} {self : CList} {pre suf : List Nat} {x : Nat}
    (hl : IsList h self (pre ++ x :: suf)) : some x = self.last ↔ suf = [] := by
  have hsl : self.last = (x :: suf).getLast? := by
    rw [hl.2, List.getLast?_append_cons]
  constructor
  · intro e
    by_contra hsuf
    rw [hsl, getLast?_cons_of_ne_nil x hsuf] at e
    obtain ⟨z, hz, hzm⟩ := getLast?_mem_of_ne_nil hsuf
    rw [hz] at e
    simp at e
    subst e
    have hn := hl.1.nodup
    rw [List.nodup_append] at hn
    have := hn.2.1
    simp at this
    exact this.1 hzm
  · rintro rfl
    rw [hsl]
    rfl

theorem erase_at_aux {h : Heap α} {self : CList} {pre suf : List Nat} {x : Nat} {it : Iter}
    (hl : IsList h self (pre ++ x :: suf)) (href : it.ref = some x)
    (hprev : it.prev = (x :: (suf ++ pre)).getLast?) :
    ∃ h1 self1, erase_at h self it = .ok (h1, self1, ⟨suf.head?, it._last, it.prev⟩) ∧
      IsList h1 self1 (pre ++ suf) ∧ h1 x = none ∧
      (∀ a, a ≠ x → (h1 a).map Node.value = (h a).map Node.value) ∧
      (∀ a, a ∉ pre ++ x :: suf → h1 a = h a) ∧
      (suf ≠ [] → self1 = self) := by
  obtain ⟨h1, self1, he, hl1, hx, hv, hfr, hs⟩ := erase_after_pred hl
  refine ⟨h1, self1, ?_, hl1, hx, hv, hfr, hs⟩
  rw [← hprev] at he
  cases suf with
  | nil =>
    have e : self.last = some x := (hl.last_eq_iff.2 rfl).symm
    simp [erase_at, href, e, he, bind, Except.bind, pure, Except.pure]
  | cons y s =>
    have e : ¬ (self.last = some x) := fun e => by
      have := hl.last_eq_iff.1 e.symm
      simp at this
    have e' : ¬ (some x = self.last) := fun e1 => e e1.symm
    obtain ⟨w, hw⟩ := Link_iff.1 hl.1.link_next
    simp [erase_at, href, e, he, bind, Except.bind, pure, Except.pure, load, hw, valueRef, e']

end EraseAt

section Remove
variable {α : Type}

/-- The second lap of the loop of `remove`: over nodes that are kept, it changes nothing. -/
theorem remove_loop_kept (i_eq : α → α → Bool) (val : α) {h : Heap α} {self : CList}
    (vf : Nat → α) :
    ∀ (S P : List Nat) (n fuel : Nat), IsList h self (P ++ S) → S ≠ [] →
      (∀ a ∈ S, (h a).map Node.value = some (vf a) ∧ i_eq (vf a) val = false) →
      S.length ≤ fuel →
      remove_loop i_eq val fuel h self ((S ++ P).getLast?) n = .ok (h, self, n)
  | [], _, _, _, _, hS, _, _ => absurd rfl hS
  | x :: S', P, n, fuel, hl, _, hv, hf => by
    obtain ⟨f, rfl⟩ : ∃ f, fuel = f + 1 := ⟨fuel - 1, by simp at hf; omega⟩
    have hr2 : IsRing h (x :: S' ++ P) := hl.1.rotate
    obtain ⟨l0, q, hq⟩ : ∃ l0 q, x :: S' ++ P = l0 ++ [q] := by
      rcases List.eq_nil_or_concat (x :: S' ++ P) with e | ⟨l0, q, e⟩
      · simp at e
      · exact ⟨l0, q, by rw [e, List.concat_eq_append]⟩
    have hqx : Link h q x := by
      rw [hq] at hr2
      obtain ⟨a, ha, hl'⟩ := hr2.last_link
      rw [← hq] at ha
      simp at ha
      exact ha ▸ hl'
    obtain ⟨vq, hvq⟩ := Link_iff.1 hqx
    obtain ⟨nx, hnx⟩ := hl.1.live (x := x) (by simp)
    have hvx := hv x (by simp)
    rw [hnx] at hvx
    simp at hvx
    have hprev : (x :: S' ++ P).getLast? = some q := by rw [hq, List.getLast?_concat]
    rw [hprev]
    by_cases hS' : S' = []
    · subst hS'
      have e : some x = self.last := hl.last_eq_iff.2 rfl
      simp [remove_loop, load, hvq, hnx, hvx.1, hvx.2, bind, Except.bind, pure, Except.pure,
        e.symm]
    · have e : ¬ (self.last = some x) := fun e => hS' (hl.last_eq_iff.1 e.symm)
      have ih := remove_loop_kept i_eq val vf S' (P ++ [x]) n f (by simpa using hl) hS'
        (fun a ha => hv a (by simp [ha])) (by simp at hf; omega)
      have e2 : (S' ++ (P ++ [x])).getLast? = some x := by
        rw [← List.append_assoc, List.getLast?_concat]
      rw [e2] at ih
      simp [remove_loop, load, hvq, hnx, hvx.1, hvx.2, bind, Except.bind, pure, Except.pure,
        e, ih]

end Remove
end STC

namespace STC
open clist

section Remove2
variable {α : Type}

/-- The first lap of the loop of `remove`: `K` holds the nodes already kept, `R` the nodes
still to be examined, and the loop stands on the node before the head of `R`. -/
theorem remove_loop_main (i_eq : α → α → Bool) (val : α) (vf : Nat → α) :
    ∀ (R K : List Nat) (h : Heap α) (self : CList) (n fuel : Nat),
      IsList h self (K ++ R) → R ≠ [] →
      (∀ a ∈ K ++ R, (h a).map Node.value = some (vf a)) →
      (∀ a ∈ K, i_eq (vf a) val = false) →
      K.length + 2 * R.length ≤ fuel →
      ∃ h1 self1, remove_loop i_eq val fuel h self ((R ++ K).getLast?) n =
          .ok (h1, self1, n + R.countP (fun a => i_eq (vf a) val)) ∧
        IsList h1 self1 (K ++ R.filter (fun a => !(i_eq (vf a) val))) ∧
        (∀ a ∈ K ++ R.filter (fun a => !(i_eq (vf a) val)),
          (h1 a).map Node.value = some (vf a)) ∧
        (∀ a ∈ R, i_eq (vf a) val = true → h1 a = none) ∧
        (∀ a, a ∉ K ++ R → h1 a = h a)
  | [], _, _, _, _, _, _, hR, _, _, _ => absurd rfl hR
  | x :: R', K, h, self, n, fuel, hl, _, hv, hK, hf => by
    obtain ⟨f, rfl⟩ : ∃ f, fuel = f + 1 := ⟨fuel - 1, by simp at hf; omega⟩
    have hr2 : IsRing h (x :: R' ++ K) := hl.1.rotate
    obtain ⟨l0, q, hq⟩ : ∃ l0 q, x :: R' ++ K = l0 ++ [q] := by
      rcases List.eq_nil_or_concat (x :: R' ++ K) with e | ⟨l0, q, e⟩
      · simp at e
      · exact ⟨l0, q, by rw [e, List.concat_eq_append]⟩
    have hqx : Link h q x := by
      rw [hq] at hr2
      obtain ⟨a, ha, hl'⟩ := hr2.last_link
      rw [← hq] at ha
      simp at ha
      exact ha ▸ hl'
    obtain ⟨vq, hvq⟩ := Link_iff.1 hqx
    obtain ⟨nx, hnx⟩ := hl.1.live (x := x) (by simp)
    have hvx := hv x (by simp)
    rw [hnx] at hvx
    simp at hvx
    have hprev : (x :: R' ++ K).getLast? = some q := by rw [hq, List.getLast?_concat]
    have hprev2 : (x :: (R' ++ K)).getLast? = some q := by simpa using hprev
    have hn := hl.1.nodup
    have hxK : x ∉ K ++ R' := by
      rw [List.nodup_append] at hn
      intro hm
      rcases List.mem_append.1 hm with hm | hm
      · exact hn.2.2 hm (by simp)
      · have := hn.2.1
        simp at this
        exact this.1 hm
    rw [hprev]
    by_cases hm : i_eq (vf x) val = true
    · -- the node is erased
      obtain ⟨h1, self1, he, hl1, hx1, hv1, hfr1, hs1⟩ := erase_after_pred hl
      rw [hprev2] at he
      have hv1' : ∀ a ∈ K ++ R', (h1 a).map Node.value = some (vf a) := by
        intro a ha
        rw [hv1 a (fun e => hxK (e ▸ ha))]
        exact hv a (by simp at ha ⊢; tauto)
      by_cases hemp : K ++ R' = []
      · have hK0 : K = [] := (List.append_eq_nil.1 hemp).1
        have hR0 : R' = [] := (List.append_eq_nil.1 hemp).2
        subst hK0 hR0
        have hs0 : self1.last = none := by simpa using hl1.2
        refine ⟨h1, self1, ?_, by simpa [hm] using hl1, by simp [hm], ?_, hfr1⟩
        · simp [remove_loop, load, hvq, hnx, hvx, hm, he, hs0, bind, Except.bind, pure,
            Except.pure]
        · intro a ha _
          simp at ha
          subst ha
          exact hx1
      · obtain ⟨z, hz, hzm⟩ := getLast?_mem_of_ne_nil hemp
        have hs0 : self1.last = some z := by rw [hl1.2, hz]
        have hxz : x ≠ z := fun e => hxK (e ▸ hzm)
        by_cases hR' : R' = []
        · subst hR'
          have hKne : K ≠ [] := by simpa using hemp
          have hl1' : IsList h1 self1 ([] ++ K) := by simpa using hl1
          have hkept := remove_loop_kept i_eq val vf K [] (n + 1) f hl1' hKne
            (fun a ha => ⟨hv1' a (by simp [ha]), hK a ha⟩) (by simp at hf; omega)
          have e3 : (K ++ []).getLast? = some q := by
            have := hprev2
            rw [List.nil_append, getLast?_cons_of_ne_nil x hKne] at this
            simpa using this
          rw [e3] at hkept
          refine ⟨h1, self1, ?_, by simpa [hm] using hl1, ?_, ?_, hfr1⟩
          · simp [remove_loop, load, hvq, hnx, hvx, hm, he, hs0, hxz, hkept, bind,
              Except.bind, pure, Except.pure]
          · intro a ha
            exact hv1' a (by simpa [hm] using ha)
          · intro a ha _
            simp at ha
            subst ha
            exact hx1
        · have e3 : (R' ++ K).getLast? = some q := by
            have := hprev2
            rwa [getLast?_cons_of_ne_nil x (by simp [hR'])] at this
          obtain ⟨h2, self2, hrec, hl2, hv2, hx2, hfr2⟩ :=
            remove_loop_main i_eq val vf R' K h1 self1 (n + 1) f hl1 hR' hv1' hK
              (by simp at hf; omega)
          rw [e3] at hrec
          refine ⟨h2, self2, ?_, by simpa [hm] using hl2, ?_, ?_, ?_⟩
          · simp [remove_loop, load, hvq, hnx, hvx, hm, he, hs0, hxz, hrec, bind,
              Except.bind, pure, Except.pure]
            omega
          · intro a ha
            exact hv2 a (by simpa [hm] using ha)
          · intro a ha hma
            rcases List.mem_cons.1 ha with rfl | ha
            · rw [hfr2 a hxK, hx1]
            · exact hx2 a ha hma
          · intro a ha
            rw [hfr2 a (fun hm' => ha (by simp at hm' ⊢; tauto)), hfr1 a ha]
    · -- the node is kept
      have hm' : i_eq (vf x) val = false := by simpa using hm
      by_cases hR' : R' = []
      · subst hR'
        have e : self.last = some x := (hl.last_eq_iff.2 rfl).symm
        refine ⟨h, self, ?_, by simpa [hm'] using hl, ?_, ?_, fun a _ => rfl⟩
        · simp [remove_loop, load, hvq, hnx, hvx, hm', e, bind, Except.bind, pure,
            Except.pure]
        · intro a ha
          exact hv a (by simpa [hm'] using ha)
        · intro a ha hma
          simp at ha
          subst ha
          simp [hm'] at hma
      · have e : ¬ (self.last = some x) := fun e => hR' (hl.last_eq_iff.1 e.symm)
        have e' : ¬ (some x = self.last) := fun e1 => e e1.symm
        obtain ⟨h2, self2, hrec, hl2, hv2, hx2, hfr2⟩ :=
          remove_loop_main i_eq val vf R' (K ++ [x]) h self n f (by simpa using hl) hR'
            (fun a ha => hv a (by simpa using ha))
            (fun a ha => by
              rcases List.mem_append.1 ha with ha | ha
              · exact hK a ha
              · simp at ha
                subst ha
                exact hm')
            (by simp at hf ⊢; omega)
        have e3 : (R' ++ (K ++ [x])).getLast? = some x := by
          rw [← List.append_assoc, List.getLast?_concat]
        rw [e3] at hrec
        refine ⟨h2, self2, ?_, by simpa [hm'] using hl2, ?_, ?_, ?_⟩
        · simp [remove_loop, load, hvq, hnx, hvx, hm', e, e', hrec, bind, Except.bind, pure,
            Except.pure]
        · intro a ha
          exact hv2 a (by simpa [hm'] using ha)
        · intro a ha hma
          rcases List.mem_cons.1 ha with rfl | ha
          · simp [hm'] at hma
          · exact hx2 a ha hma
        · intro a ha
          exact hfr2 a (fun hm2 => ha (by simpa using hm2))

end Remove2
end STC

namespace STC
open clist

section Reverse
variable {α : Type}

theorem exists_vf {h : Heap α} {l : List Nat} (hr : IsRing h l) (hne : l ≠ []) :
    ∃ vf : Nat → α, ∀ a ∈ l, (h a).map Node.value = some (vf a) := by
  obtain ⟨x, t, rfl⟩ : ∃ x t, l = x :: t := by
    cases l with
    | nil => exact absurd rfl hne
    | cons x t => exact ⟨x, t, rfl⟩
  obtain ⟨nx, -⟩ := hr.live (x := x) (by simp)
  refine ⟨fun a => ((h a).map Node.value).getD nx.value, ?_⟩
  intro a ha
  obtain ⟨na, hna⟩ := hr.live ha
  simp [hna]

theorem vals_eq_map {h : Heap α} {l : List Nat} {vf : Nat → α}
    (hv : ∀ a ∈ l, (h a).map Node.value = some (vf a)) : vals h l = l.map vf := by
  induction l with
  | nil => rfl
  | cons a t ih =>
    rw [vals_cons_of _ (hv a (by simp)), ih (fun x hx => hv x (by simp [hx]))]
    rfl

theorem remove_aux (i_eq : α → α → Bool) (val : α) {h : Heap α} {self : CList} {l : List Nat}
    (hl : IsList h self l) {fuel : Nat} (hf : 2 * l.length ≤ fuel) :
    ∃ h1 self1 l1, remove i_eq fuel h self val =
        .ok (h1, self1, (vals h l).countP (fun x => i_eq x val)) ∧
      IsList h1 self1 l1 ∧ l1.Sublist l ∧
      vals h1 l1 = (vals h l).filter (fun x => !(i_eq x val)) ∧
      (∀ a, a ∉ l → h1 a = h a) := by
  by_cases hne : l = []
  · subst hne
    have hs : self.last = none := IsList_nil_iff.1 hl
    exact ⟨h, self, [], by simp [remove, hs, vals, pure, Except.pure], hl, by simp,
      by simp [vals], fun _ _ => rfl⟩
  · obtain ⟨vf, hvf⟩ := exists_vf hl.1 hne
    obtain ⟨h1, self1, hrec, hl1, hv1, -, hfr⟩ :=
      remove_loop_main i_eq val vf l [] h self 0 fuel (by simpa using hl) hne
        (by simpa using hvf) (by simp) (by simpa using hf)
    obtain ⟨z, hz, -⟩ := getLast?_mem_of_ne_nil hne
    have hs : self.last = some z := by rw [hl.2, hz]
    refine ⟨h1, self1, l.filter (fun a => !(i_eq (vf a) val)), ?_, by simpa using hl1,
      List.filter_sublist l, ?_, by simpa using hfr⟩
    · simp only [List.append_nil, hz] at hrec
      rw [vals_eq_map hvf, List.countP_map]
      simpa [remove, hs, Function.comp_def] using hrec
    · rw [vals_eq_map (by simpa using hv1), vals_eq_map hvf, List.filter_map]
      rfl

/-- Linking a live node `x` after the last node `p` of a ring that does not hold it. -/
theorem insert_node_after_last {h : Heap α} {l : List Nat} {p x : Nat} {nx : Node α}
    (hr : IsRing h (l ++ [p])) (hx : h x = some nx) (hxl : x ∉ l ++ [p]) :
    ∃ h1, _c_clist_insert_after_node h (some p) (some x) = .ok h1 ∧
      IsRing h1 (l ++ [p] ++ [x]) ∧
      (∀ a, (h1 a).map Node.value = (h a).map Node.value) ∧
      (∀ a, a ≠ x → a ≠ p → h1 a = h a) := by
  obtain ⟨a0, ha0, hpa⟩ := hr.last_link
  obtain ⟨vp, hp⟩ := Link_iff.1 hpa
  have hpx : p ≠ x := fun e => hxl (by simp [e])
  refine ⟨store (store h x ⟨some a0, nx.value⟩) p ⟨some x, vp⟩, ?_, ?_, ?_, ?_⟩
  · simp [_c_clist_insert_after_node, load, setNext, store, hpx, hp, hx, bind, Except.bind]
  · rw [IsRing_snoc_iff]
    refine ⟨?_, ?_, ?_⟩
    · rw [List.nodup_append]
      refine ⟨hr.nodup, by simp, ?_⟩
      intro y hy hy2
      simp at hy2
      exact hxl (hy2 ▸ hy)
    · rw [List.chain'_append]
      refine ⟨?_, by simp, ?_⟩
      · apply chain_frame l p hr.2.1
        intro y hy
        have h1 : y ≠ x := fun e => hxl (by simp [← e, hy])
        have h2 : y ≠ p := by
          rintro rfl
          have := hr.nodup
          rw [List.nodup_append] at this
          exact this.2.2 hy (by simp)
        simp [store, h1, h2]
      · intro y hy z hz
        simp at hy hz
        subst hy hz
        simp [Link, store]
    · intro a ha
      rw [List.head?_append_of_ne_nil _ (by simp), ha0] at ha
      simp at ha
      subst ha
      simp [Link, store, hpx.symm]
  · intro a
    by_cases hap : a = p
    · subst hap
      simp [store, hp]
    · by_cases hax : a = x
      · subst hax
        simp [store, hap, hx]
      · simp [store, hap, hax]
  · intro a hax hap
    simp [store, hax, hap]

theorem insert_node_after_null {h : Heap α} {x : Nat} {nx : Node α} (hx : h x = some nx) :
    ∃ h1, _c_clist_insert_after_node h none (some x) = .ok h1 ∧
      IsRing h1 [x] ∧
      (∀ a, (h1 a).map Node.value = (h a).map Node.value) ∧
      (∀ a, a ≠ x → h1 a = h a) := by
  refine ⟨store h x ⟨some x, nx.value⟩, ?_, ?_, ?_, ?_⟩
  · simp [_c_clist_insert_after_node, setNext, hx]
  · simp [IsRing, Link, store]
  · intro a
    by_cases hax : a = x
    · subst hax
      simp [store, hx]
    · simp [store, hax]
  · intro a hax
    simp [store, hax]

theorem reverse_loop_spec :
    ∀ (R A : List Nat) (h : Heap α) (self rev : CList) (fuel : Nat),
      IsList h self R → IsList h rev A → (∀ a ∈ R, a ∉ A) → R.length + 1 ≤ fuel →
      ∃ h1 rev1, reverse_loop fuel h self rev = .ok (h1, rev1) ∧
        IsList h1 rev1 (R.reverse ++ A) ∧
        (∀ a, (h1 a).map Node.value = (h a).map Node.value) ∧
        (∀ a, a ∉ R ++ A → h1 a = h a)
  | [], A, h, self, rev, fuel, hl, hrev, _, hf => by
    obtain ⟨f, rfl⟩ : ∃ f, fuel = f + 1 := ⟨fuel - 1, by simp at hf; omega⟩
    have hs : self.last = none := IsList_nil_iff.1 hl
    exact ⟨h, rev, by simp [reverse_loop, hs, pure, Except.pure], by simpa using hrev,
      fun _ => rfl, fun _ _ => rfl⟩
  | x :: R', A, h, self, rev, fuel, hl, hrev, hd, hf => by
    obtain ⟨f, rfl⟩ : ∃ f, fuel = f + 1 := ⟨fuel - 1, by simp at hf; omega⟩
    obtain ⟨h1, hu, hr1, hfr1, hv1⟩ := unlink_head hl.1 self
    rw [← hl.2] at hu
    have hn := hl.1.nodup
    have hxR : x ∉ R' := (List.nodup_cons.1 hn).1
    have hsn : self.last ≠ none := by
      rw [hl.2]
      simp [List.getLast?_cons]
    -- the list that is left
    have hl1 : IsList h1
        (if R' = [] then ⟨none⟩ else if some x = self.last then ⟨R'.getLast?⟩ else self) R' := by
      refine ⟨hr1, ?_⟩
      by_cases hR' : R' = []
      · simp [hR']
      · rw [if_neg hR']
        have hl0 : IsList h self ([] ++ x :: R') := hl
        have : ¬ (some x = self.last) := fun e => hR' (hl0.last_eq_iff.1 e)
        rw [if_neg this, hl.2, getLast?_cons_of_ne_nil x hR']
    obtain ⟨nx, hnx⟩ := hl.1.live (x := x) (by simp)
    have hx1 : h1 x = some nx := by rw [hfr1 x hxR, hnx]
    have hxA : x ∉ A := hd x (by simp)
    have hrev1 : IsList h1 rev A := by
      refine ⟨hrev.1.frame ?_, hrev.2⟩
      intro a ha
      exact hfr1 a (fun hm => hd a (by simp [hm]) ha)
    -- the node is linked at the head of the accumulator
    have hins : ∃ h2 rev1, insert_after_node h1 rev rev.last (some x) = .ok (h2, rev1, some x) ∧
        IsList h2 rev1 (x :: A) ∧
        (∀ a, (h2 a).map Node.value = (h1 a).map Node.value) ∧
        (∀ a, a ∉ x :: A → h2 a = h1 a) := by
      rcases List.eq_nil_or_concat A with rfl | ⟨l0, p, rfl⟩
      · have hs : rev.last = none := IsList_nil_iff.1 hrev1
        obtain ⟨h2, hi, hr2, hv2, hfr2⟩ := insert_node_after_null hx1
        refine ⟨h2, ⟨some x⟩, ?_, ⟨hr2, by simp⟩, hv2, ?_⟩
        · simp [insert_after_node, hs, hi, bind, Except.bind, pure, Except.pure]
        · intro a ha
          exact hfr2 a (by simpa using ha)
      · rw [List.concat_eq_append] at hrev1 hxA ⊢
        obtain ⟨hrr, hs⟩ := IsList_snoc_iff.1 hrev1
        obtain ⟨h2, hi, hr2, hv2, hfr2⟩ := insert_node_after_last hrr hx1 hxA
        refine ⟨h2, rev, ?_, ⟨?_, ?_⟩, hv2, ?_⟩
        · simp [insert_after_node, hs, hi, bind, Except.bind, pure, Except.pure]
        · have := hr2.rotate
          simpa using this
        · rw [hs, ← List.cons_append, List.getLast?_concat]
        · intro a ha
          simp at ha
          exact hfr2 a (by tauto) (by tauto)
    obtain ⟨h2, rev1, hi, hrev2, hv2, hfr2⟩ := hins
    have hl2 : IsList h2
        (if R' = [] then ⟨none⟩ else if some x = self.last then ⟨R'.getLast?⟩ else self) R' := by
      refine ⟨hl1.1.frame ?_, hl1.2⟩
      intro a ha
      apply hfr2
      intro hm
      rcases List.mem_cons.1 hm with e | hm
      · exact hxR (e ▸ ha)
      · exact hd a (by simp [ha]) hm
    obtain ⟨h3, rev3, hrec, hl3, hv3, hfr3⟩ :=
      reverse_loop_spec R' (x :: A) h2 _ rev1 f hl2 hrev2
        (fun a ha hm => by
          rcases List.mem_cons.1 hm with e | hm
          · exact hxR (e ▸ ha)
          · exact hd a (by simp [ha]) hm)
        (by simp at hf; omega)
    refine ⟨h3, rev3, ?_, by simpa using hl3, ?_, ?_⟩
    · simp only [reverse_loop, hsn, ne_eq, not_false_eq_true, if_true, hu, bind, Except.bind,
        hi, hrec]
    · intro a
      rw [hv3, hv2, hv1]
    · intro a ha
      simp at ha
      rw [hfr3 a (by simp; tauto), hfr2 a (by simp; tauto), hfr1 a (by tauto)]

theorem reverse_aux {h : Heap α} {self : CList} {l : List Nat} (hl : IsList h self l)
    {fuel : Nat} (hf : l.length + 1 ≤ fuel) :
    ∃ h1 self1, reverse fuel h self = .ok (h1, self1) ∧ IsList h1 self1 l.reverse ∧
      vals h1 l.reverse = (vals h l).reverse ∧
      (∀ a, (h1 a).map Node.value = (h a).map Node.value) ∧
      (∀ a, a ∉ l → h1 a = h a) := by
  obtain ⟨h1, rev1, hrec, hl1, hv1, hfr1⟩ :=
    reverse_loop_spec l [] h self ⟨none⟩ fuel hl (IsList_nil_iff.2 rfl) (by simp) hf
  refine ⟨h1, rev1, hrec, by simpa using hl1, ?_, hv1, by simpa using hfr1⟩
  rw [vals_congr (fun x _ => hv1 x)]
  simp [vals, List.filterMap_reverse]

end Reverse
end STC

namespace STC

section PureSort
variable {le : Nat → Nat → Bool}

theorem Runs.one (le : Nat → Nat → Bool) : ∀ l : List Nat, Runs le 1 l
  | [] => Runs.last [] List.Pairwise.nil
  | a :: l => Runs.cons [a] l rfl (List.pairwise_singleton _ _) (Runs.one le l)

theorem Runs.take {k : Nat} {l : List Nat} (hr : Runs le k l) :
    (l.take k).Pairwise (fun a b => le a b = true) := by
  cases hr with
  | last c hc => exact hc.sublist (List.take_sublist _ _)
  | cons c rest hk hc _ =>
    rw [List.take_left' hk]
    exact hc

theorem Runs.drop {k : Nat} {l : List Nat} (hr : Runs le k l) : Runs le k (l.drop k) := by
  cases hr with
  | last c hc => exact Runs.last _ (hc.sublist (List.drop_sublist _ _))
  | cons c rest hk _ hrest =>
    rw [List.drop_left' hk]
    exact hrest

theorem PassRel.of_nil {k : Nat} {out : List Nat} {n : Nat} (hp : PassRel le k [] out n) :
    out = [] ∧ n = 0 := by
  cases hp with
  | nil => exact ⟨rfl, rfl⟩
  | step _ _ _ hne _ => exact absurd rfl hne

theorem PassRel.perm {k : Nat} {l out : List Nat} {n : Nat} (hp : PassRel le k l out n) :
    out.Perm l := by
  induction hp with
  | nil => exact List.Perm.refl _
  | step rest out n _ _ ih =>
    have h1 : (List.merge (rest.take k) ((rest.drop k).take k) le).Perm
        (rest.take k ++ (rest.drop k).take k) := List.merge_perm_append le
    have h2 : rest = rest.take k ++ ((rest.drop k).take k ++ (rest.drop k).drop k) := by
      rw [List.take_append_drop, List.take_append_drop]
    refine (h1.append ih).trans (List.Perm.of_eq ?_)
    rw [List.append_assoc, ← h2]

theorem PassRel.inv {k : Nat} {l out : List Nat} {n : Nat} (hp : PassRel le k l out n) :
    (l = [] ∧ out = [] ∧ n = 0) ∨
    (l ≠ [] ∧ ∃ out1 n1, PassRel le k ((l.drop k).drop k) out1 n1 ∧
      out = List.merge (l.take k) ((l.drop k).take k) le ++ out1 ∧ n = n1 + 1) := by
  cases hp with
  | nil => exact Or.inl ⟨rfl, rfl, rfl⟩
  | step _ out1 n1 hne hp1 => exact Or.inr ⟨hne, out1, n1, hp1, rfl, rfl⟩

/-- The pass makes one merge at most exactly when the sequence has `2 * k` nodes at most. -/
theorem PassRel.le_one_iff {k : Nat} {l out : List Nat} {n : Nat} (hp : PassRel le k l out n) :
    n ≤ 1 ↔ l.length ≤ 2 * k := by
  rcases hp.inv with ⟨rfl, -, rfl⟩ | ⟨-, out1, n1, hp1, -, rfl⟩
  · simp
  · rcases hp1.inv with ⟨hd, -, rfl⟩ | ⟨hne, out2, n2, -, -, rfl⟩
    · simp only [List.drop_drop, List.drop_eq_nil_iff] at hd
      constructor
      · intro _
        omega
      · intro _
        omega
    · simp only [List.drop_drop, ne_eq, List.drop_eq_nil_iff, not_le] at hne
      constructor
      · intro hle
        omega
      · intro hle
        omega

/-- Sorted runs of `k` nodes become sorted runs of `2 * k` nodes. -/
theorem PassRel.runs
    (trans : ∀ a b c : Nat, le a b = true → le b c = true → le a c = true)
    (total : ∀ a b : Nat, (le a b || le b a) = true)
    {k : Nat} {l out : List Nat} {n : Nat} (hp : PassRel le k l out n) (hr : Runs le k l) :
    Runs le (2 * k) out := by
  induction hp with
  | nil => exact Runs.last [] List.Pairwise.nil
  | step rest out n _ hp' ih =>
    have hs : (List.merge (rest.take k) ((rest.drop k).take k) le).Pairwise
        (fun a b => le a b = true) :=
      List.sorted_merge trans total _ _ hr.take hr.drop.take
    by_cases hlen : 2 * k ≤ rest.length
    · refine Runs.cons _ _ ?_ hs (ih hr.drop.drop)
      rw [List.length_merge]
      simp only [List.length_take, List.length_drop]
      omega
    · have hd : (rest.drop k).drop k = [] := by
        simp only [List.drop_drop, List.drop_eq_nil_iff]
        omega
      rw [hd] at hp'
      rw [hp'.of_nil.1, List.append_nil]
      exact Runs.last _ hs

/-- A pass that makes one merge leaves the sequence sorted. -/
theorem PassRel.sorted
    (trans : ∀ a b c : Nat, le a b = true → le b c = true → le a c = true)
    (total : ∀ a b : Nat, (le a b || le b a) = true)
    {k : Nat} {l out : List Nat} {n : Nat} (hp : PassRel le k l out n) (hr : Runs le k l)
    (hn : n ≤ 1) : out.Pairwise (fun a b => le a b = true) := by
  rcases hp.inv with ⟨-, rfl, -⟩ | ⟨-, out1, n1, hp1, rfl, rfl⟩
  · exact List.Pairwise.nil
  · rcases hp1.inv with ⟨-, rfl, -⟩ | ⟨-, out2, n2, -, -, rfl⟩
    · rw [List.append_nil]
      exact List.sorted_merge trans total _ _ hr.take hr.drop.take
    · omega

/-- Merging keeps a node of the left run before every node that is not smaller. -/
theorem merge_pair_sublist
    (trans : ∀ a b c : Nat, le a b = true → le b c = true → le a c = true) (a b : Nat)
    (hab : le a b = true) :
    ∀ (l r : List Nat), l.Pairwise (fun a b => le a b = true) →
      List.Sublist [a, b] (l ++ r) → List.Sublist [a, b] (List.merge l r le)
  | [], r, _, hs => by simpa using hs
  | x :: l, [], _, hs => by simpa using hs
  | x :: l, y :: r, hl, hs => by
    rw [List.cons_merge_cons]
    split
    · -- the head of the left run goes first
      rw [List.cons_append] at hs
      cases hs with
      | cons _ hs' =>
        exact List.Sublist.cons _ (merge_pair_sublist trans a b hab l (y :: r) hl.tail hs')
      | cons₂ _ hs' =>
        apply List.Sublist.cons₂
        rw [List.singleton_sublist] at hs' ⊢
        rw [List.mem_merge]
        exact List.mem_append.1 hs'
    · -- the head of the right run goes first
      rename_i hxy
      have key : List.Sublist [a, b] (y :: List.merge (x :: l) r le) := by
        obtain ⟨c1, c2, hc, h1, h2⟩ := List.sublist_append_iff.1 hs
        match c1, c2, hc with
        | [], c2, hc =>
          simp only [List.nil_append] at hc
          subst hc
          cases h2 with
          | cons _ h2' =>
            apply List.Sublist.cons
            apply merge_pair_sublist trans a b hab (x :: l) r hl
            exact h2'.trans (List.sublist_append_right _ _)
          | cons₂ _ h2' =>
            apply List.Sublist.cons₂
            rw [List.singleton_sublist] at h2' ⊢
            exact List.mem_merge.2 (Or.inr h2')
        | [a'], c2, hc =>
          simp only [List.singleton_append, List.cons.injEq] at hc
          obtain ⟨rfl, rfl⟩ := hc
          rw [List.singleton_sublist] at h1 h2
          have hxa : le x a = true ∨ x = a := by
            rcases List.mem_cons.1 h1 with e | hm
            · exact Or.inr e.symm
            · exact Or.inl (List.rel_of_pairwise_cons hl hm)
          rcases List.mem_cons.1 h2 with e | hm
          · subst e
            exfalso
            apply hxy
            rcases hxa with hxa | hxa
            · exact trans _ _ _ hxa hab
            · exact hxa ▸ hab
          · apply List.Sublist.cons
            apply merge_pair_sublist trans a b hab (x :: l) r hl
            have : List.Sublist ([a] ++ [b]) ((x :: l) ++ r) :=
              List.Sublist.append (List.singleton_sublist.2 h1) (List.singleton_sublist.2 hm)
            simpa using this
        | [a', b'], c2, hc =>
          simp only [List.cons_append, List.nil_append, List.cons.injEq] at hc
          obtain ⟨rfl, rfl, -⟩ := hc
          apply List.Sublist.cons
          apply merge_pair_sublist trans a b hab (x :: l) r hl
          exact h1.trans (List.sublist_append_left _ _)
        | _ :: _ :: _ :: _, c2, hc =>
          simp at hc
      exact key
termination_by l r => l.length + r.length

theorem PassRel.stable
    (trans : ∀ a b c : Nat, le a b = true → le b c = true → le a c = true)
    {k : Nat} {l out : List Nat} {n : Nat} (hp : PassRel le k l out n) (hr : Runs le k l)
    (a b : Nat) (hab : le a b = true) (hs : List.Sublist [a, b] l) :
    List.Sublist [a, b] out := by
  induction hp with
  | nil => exact hs
  | step rest out n _ hp' ih =>
    have h2 : rest = (rest.take k ++ (rest.drop k).take k) ++ (rest.drop k).drop k := by
      rw [List.append_assoc, List.take_append_drop, List.take_append_drop]
    rw [h2] at hs
    obtain ⟨c1, c2, hc, h1, h2'⟩ := List.sublist_append_iff.1 hs
    have hmem : ∀ x, x ∈ (rest.drop k).drop k → x ∈ out := fun x hx => hp'.perm.mem_iff.2 hx
    match c1, c2, hc with
    | [], c2, hc =>
      simp only [List.nil_append] at hc
      subst hc
      exact (ih hr.drop.drop h2').trans (List.sublist_append_right _ _)
    | [a'], c2, hc =>
      simp only [List.singleton_append, List.cons.injEq] at hc
      obtain ⟨rfl, rfl⟩ := hc
      rw [List.singleton_sublist] at h1 h2'
      have : List.Sublist ([a] ++ [b])
          (List.merge (rest.take k) ((rest.drop k).take k) le ++ out) :=
        List.Sublist.append
          (List.singleton_sublist.2 (List.mem_merge.2 (List.mem_append.1 h1)))
          (List.singleton_sublist.2 (hmem _ h2'))
      simpa using this
    | [a', b'], c2, hc =>
      simp only [List.cons_append, List.nil_append, List.cons.injEq] at hc
      obtain ⟨rfl, rfl, -⟩ := hc
      exact (merge_pair_sublist trans a b hab _ _ hr.take h1).trans
        (List.sublist_append_left _ _)
    | _ :: _ :: _ :: _, c2, hc =>
      simp at hc

end PureSort
end STC

namespace STC
open clist

section MergeSteps
variable {α : Type}

theorem mergesort_step_link {h : Heap α} {x y oh : Nat} (hl : Link h x y) (hne : y ≠ oh) :
    mergesort_step h (some oh) (some x) = .ok (some y) := by
  obtain ⟨v, hv⟩ := Link_iff.1 hl
  simp [mergesort_step, load, hv, bind, Except.bind, pure, Except.pure, hne]

theorem mergesort_step_end {h : Heap α} {x oh : Nat} (hl : Link h x oh) :
    mergesort_step h (some oh) (some x) = .ok none := by
  obtain ⟨v, hv⟩ := Link_iff.1 hl
  simp [mergesort_step, load, hv, bind, Except.bind, pure, Except.pure]

theorem mergesort_step_live {h : Heap α} {x : Nat} {n : Node α} (oh : Ptr) (hx : h x = some n) :
    ∃ p1, mergesort_step h oh (some x) = .ok p1 := by
  simp [mergesort_step, load, hx, bind, Except.bind, pure, Except.pure]

/-- Stepping from the head of a chain that ends at `oldhead`. -/
theorem mergesort_step_chain {h : Heap α} {x oh : Nat} {r : List Nat}
    (hc : List.Chain' (Link h) (x :: r ++ [oh])) (hoh : oh ∉ r) :
    mergesort_step h (some oh) (some x) = .ok r.head? := by
  cases r with
  | nil =>
    simp only [List.cons_append, List.nil_append, List.chain'_cons, List.chain'_singleton,
      and_true] at hc
    exact mergesort_step_end hc
  | cons y r' =>
    simp only [List.cons_append, List.chain'_cons] at hc
    exact mergesort_step_link hc.1 (fun e => hoh (by simp [e]))

theorem mergesort_append_spec {h : Heap α} {out : List Nat} {e : Nat}
    (hc : List.Chain' (Link h) out) (hn : (out ++ [e]).Nodup)
    (hlive : ∀ a ∈ out, ∃ n, h a = some n) :
    ∃ h1, mergesort_append h out.head? out.getLast? (some e) = .ok (h1, (out ++ [e]).head?) ∧
      List.Chain' (Link h1) (out ++ [e]) ∧
      (∀ a, (h1 a).map Node.value = (h a).map Node.value) ∧
      (∀ a, a ∉ out → h1 a = h a) := by
  rcases List.eq_nil_or_concat out with rfl | ⟨l0, t, rfl⟩
  · exact ⟨h, by simp [mergesort_append, pure, Except.pure], by simp, fun _ => rfl,
      fun _ _ => rfl⟩
  · rw [List.concat_eq_append] at hc hn hlive ⊢
    obtain ⟨nt, hnt⟩ := hlive t (by simp)
    have htl : t ∉ l0 := by
      have := hn.sublist (List.sublist_append_left _ _)
      rw [List.nodup_append] at this
      exact fun hm => this.2.2 hm (by simp)
    refine ⟨store h t ⟨some e, nt.value⟩, ?_, ?_, ?_, ?_⟩
    · rw [List.getLast?_concat, List.head?_append_of_ne_nil (l0 ++ [t]) (by simp)]
      simp [mergesort_append, setNext, hnt, bind, Except.bind, pure, Except.pure]
    · rw [List.chain'_append]
      refine ⟨?_, by simp, ?_⟩
      · apply chain_frame l0 t hc
        intro a ha
        have : a ≠ t := fun e => htl (e ▸ ha)
        simp [store, this]
      · intro x hx y hy
        simp at hx hy
        subst hx hy
        simp [Link, store]
    · intro a
      by_cases hat : a = t
      · subst hat
        simp [store, hnt]
      · simp [store, hat]
    · intro a ha
      have : a ≠ t := fun e => ha (by simp [e])
      simp [store, this]

theorem MState.node_live {h : Heap α} {vf : Nat → α} {oh : Nat} {out ps qs : List Nat}
    (hm : MState h vf oh out ps qs) {a : Nat} (ha : a ∈ out ++ ps ++ qs) :
    ∃ n, h a = some n ∧ n.value = vf a := by
  have := hm.vals a ha
  cases hn : h a with
  | none => simp [hn] at this
  | some n =>
    simp [hn] at this
    exact ⟨n, rfl, this⟩

/-- The node at the head of the left run is moved to the end of the chain built so far. -/
theorem MState.takeP {h : Heap α} {vf : Nat → α} {oh : Nat} {out ps qs : List Nat} {x : Nat}
    (hm : MState h vf oh out (x :: ps) qs) :
    ∃ h1 p1, mergesort_step h (some oh) (some x) = .ok p1 ∧ (ps ≠ [] → p1 = ps.head?) ∧
      mergesort_append h out.head? out.getLast? (some x) = .ok (h1, (out ++ [x]).head?) ∧
      MState h1 vf oh (out ++ [x]) ps qs ∧
      (∀ a, (h1 a).map Node.value = (h a).map Node.value) ∧
      (∀ a, a ∉ out → h1 a = h a) := by
  have hnd := hm.nodup
  have hn1 : (out ++ [x]).Nodup := by
    have : (out ++ [x] ++ (ps ++ qs)).Nodup := by simpa using hnd
    exact this.sublist (List.sublist_append_left _ _)
  obtain ⟨h1, ha, hc1, hv1, hfr1⟩ := mergesort_append_spec hm.cout hn1
    (fun a ha => by
      obtain ⟨n, hn, -⟩ := hm.node_live (a := a) (by simp [ha])
      exact ⟨n, hn⟩)
  have hdisj : ∀ a, a ∈ ps ++ qs → a ∉ out := by
    intro a ha hao
    have : (out ++ (x :: ps ++ qs)).Nodup := by simpa using hnd
    rw [List.nodup_append] at this
    exact this.2.2 hao (by simp at ha ⊢; tauto)
  obtain ⟨p1, hp1, hp1'⟩ : ∃ p1, mergesort_step h (some oh) (some x) = .ok p1 ∧
      (ps ≠ [] → p1 = ps.head?) := by
    cases ps with
    | nil =>
      obtain ⟨n, hn, -⟩ := hm.node_live (a := x) (by simp)
      obtain ⟨p1, hp1⟩ := mergesort_step_live (some oh) hn
      exact ⟨p1, hp1, fun hne => absurd rfl hne⟩
    | cons y ps' =>
      have hc := hm.cps
      simp only [List.chain'_cons] at hc
      have hoh := hm.ohps
      simp only [List.tail_cons] at hoh
      exact ⟨some y, mergesort_step_link hc.1 (fun e => hoh (by simp [e])), fun _ => rfl⟩
  refine ⟨h1, p1, hp1, hp1', ha, ⟨?_, ?_, hc1, ?_, ?_, ?_, hm.ohqs⟩, hv1, hfr1⟩
  · simpa using hnd
  · intro a ha
    rw [hv1]
    exact hm.vals a (by simp at ha ⊢; tauto)
  · apply chain_frame' ps hm.cps.tail
    intro a ha
    exact hfr1 a (hdisj a (by simp [ha]))
  · apply chain_frame qs oh hm.cqs
    intro a ha
    exact hfr1 a (hdisj a (by simp [ha]))
  · intro hmem
    exact hm.ohps (by
      simp only [List.tail_cons]
      exact List.mem_of_mem_tail hmem)

/-- The node at `q` is moved to the end of the chain built so far. -/
theorem MState.takeQ {h : Heap α} {vf : Nat → α} {oh : Nat} {out ps qs : List Nat} {y : Nat}
    (hm : MState h vf oh out ps (y :: qs)) :
    ∃ h1, mergesort_step h (some oh) (some y) = .ok qs.head? ∧
      mergesort_append h out.head? out.getLast? (some y) = .ok (h1, (out ++ [y]).head?) ∧
      MState h1 vf oh (out ++ [y]) ps qs ∧
      (∀ a, (h1 a).map Node.value = (h a).map Node.value) ∧
      (∀ a, a ∉ out → h1 a = h a) := by
  have hnd := hm.nodup
  have hnd2 : (out ++ [y] ++ ps ++ qs).Nodup := by
    have : (out ++ ps ++ y :: qs).Perm (out ++ [y] ++ ps ++ qs) := by
      simp only [List.append_assoc, List.singleton_append]
      exact List.Perm.append_left out List.perm_middle
    exact this.nodup_iff.1 hnd
  have hn1 : (out ++ [y]).Nodup := by
    have : (out ++ [y] ++ (ps ++ qs)).Nodup := by simpa using hnd2
    exact this.sublist (List.sublist_append_left _ _)
  obtain ⟨h1, ha, hc1, hv1, hfr1⟩ := mergesort_append_spec hm.cout hn1
    (fun a ha => by
      obtain ⟨n, hn, -⟩ := hm.node_live (a := a) (by simp [ha])
      exact ⟨n, hn⟩)
  have hdisj : ∀ a, a ∈ ps ++ qs → a ∉ out := by
    intro a ha hao
    have : (out ++ (ps ++ y :: qs)).Nodup := by simpa using hnd
    rw [List.nodup_append] at this
    exact this.2.2 hao (by simp at ha ⊢; tauto)
  have hoh : oh ∉ qs := fun hmem => hm.ohqs (by simp [hmem])
  refine ⟨h1, mergesort_step_chain hm.cqs hoh, ha, ⟨hnd2, ?_, hc1, ?_, ?_, hm.ohps, hoh⟩,
    hv1, hfr1⟩
  · intro a ha
    rw [hv1]
    exact hm.vals a (by simp at ha ⊢; tauto)
  · apply chain_frame' ps hm.cps
    intro a ha
    exact hfr1 a (hdisj a (by simp [ha]))
  · have hcq : List.Chain' (Link h) (qs ++ [oh]) := by
      have := hm.cqs
      rw [List.cons_append] at this
      exact this.tail
    apply chain_frame qs oh hcq
    intro a ha
    exact hfr1 a (hdisj a (by simp [ha]))

end MergeSteps
end STC

namespace STC
open clist

section MergeLoop
variable {α : Type}

theorem wrapInt_of_range {x : Int} (h1 : -2147483648 ≤ x) (h2 : x < 2147483648) :
    wrapInt x = x := by
  unfold wrapInt
  omega

theorem wrapInt_natCast {n : Nat} (hn : n < 2147483648) : wrapInt (n : Int) = (n : Int) :=
  wrapInt_of_range (by omega) (by omega)

/-- The increment `++c` of a counter below `INT_MAX`. -/
theorem wrapInt_succ {n : Nat} (hn : n + 1 < 2147483648) :
    wrapInt ((n : Int) + 1) = ((n + 1 : Nat) : Int) := by
  rw [wrapInt_of_range (by omega) (by omega)]
  push_cast
  rfl

/-- The decrement `--c` of a positive counter. -/
theorem wrapInt_pred {n : Nat} (hn : n < 2147483648) :
    wrapInt (((n + 1 : Nat) : Int) - 1) = (n : Int) := by
  rw [wrapInt_of_range (by push_cast; omega) (by push_cast; omega)]
  push_cast
  omega

theorem mergesort_left_zero (cmp : α → α → Int) (h : Heap α) (p q : Ptr) (qsize : Int) :
    mergesort_left cmp h p q 0 qsize = .ok false := by
  simp [mergesort_left, pure, Except.pure]

theorem mergesort_left_alone (cmp : α → α → Int) (h : Heap α) (p q : Ptr) (psize qsize : Int)
    (hp : psize ≠ 0) (hq : qsize = 0 ∨ q = none) :
    mergesort_left cmp h p q psize qsize = .ok true := by
  have : ¬ (¬ qsize = 0 ∧ ¬ q = none) := by tauto
  simp [mergesort_left, pure, Except.pure, hp, this]

theorem mergesort_left_cmp (cmp : α → α → Int) {h : Heap α} {x y : Nat} {nx ny : Node α}
    (psize qsize : Int) (hp : psize ≠ 0) (hq : qsize ≠ 0) (hx : h x = some nx)
    (hy : h y = some ny) :
    mergesort_left cmp h (some x) (some y) psize qsize =
      .ok (decide (cmp nx.value ny.value ≤ 0)) := by
  simp [mergesort_left, cmpNodes, load, hx, hy, hp, hq, bind, Except.bind, pure, Except.pure]

theorem merge_spec (cmp : α → α → Int) (vf : Nat → α) (oh : Nat) :
    ∀ (fuel : Nat) (ps qs out : List Nat) (h : Heap α) (p : Ptr) (qsize : Nat),
      MState h vf oh out ps qs → (ps ≠ [] → p = ps.head?) →
      ps.length + (qs.take qsize).length < fuel →
      ps.length < 2147483648 → qsize < 2147483648 →
      ∃ h1, mergesort_merge cmp (some oh) fuel h p qs.head? (ps.length : Int) (qsize : Int)
            out.head? out.getLast? =
          .ok (h1, (qs.drop qsize).head?,
            (out ++ List.merge ps (qs.take qsize) (leOf cmp vf)).head?,
            (out ++ List.merge ps (qs.take qsize) (leOf cmp vf)).getLast?) ∧
        MState h1 vf oh (out ++ List.merge ps (qs.take qsize) (leOf cmp vf)) []
          (qs.drop qsize) ∧
        (∀ a, (h1 a).map Node.value = (h a).map Node.value) ∧
        (∀ a, a ∉ out ++ ps ++ qs → h1 a = h a)
  | 0, _, _, _, _, _, _, _, _, hf, _, _ => by omega
  | f + 1, [], qs, out, h, p, qsize, hm, _, hf, hbp, hbq => by
    rw [mergesort_merge]
    by_cases hq : qsize = 0 ∨ qs = []
    · have ht : qs.take qsize = [] := by
        rcases hq with hq | hq
        · simp [hq]
        · simp [hq]
      have hd : (qs.drop qsize).head? = qs.head? := by
        rcases hq with hq | hq
        · simp [hq]
        · simp [hq]
      have hd2 : qs.drop qsize = qs := by
        rcases hq with hq | hq
        · simp [hq]
        · simp [hq]
      have hc : ¬ ((((([] : List Nat).length : Nat) : Int) ≠ 0) ∨
          ((qsize : Int) ≠ 0 ∧ qs.head? ≠ none)) := by
        rcases hq with hq | hq
        · simp [hq]
        · simp [hq]
      rw [if_neg hc, ht, hd, hd2]
      simp only [List.merge_right, List.append_nil]
      exact ⟨h, rfl, hm, fun _ => rfl, fun _ _ => rfl⟩
    · obtain ⟨k, rfl⟩ : ∃ k, qsize = k + 1 := ⟨qsize - 1, by omega⟩
      obtain ⟨y, qs', rfl⟩ : ∃ y qs', qs = y :: qs' := by
        cases qs with
        | nil => exact absurd (Or.inr rfl) hq
        | cons y qs' => exact ⟨y, qs', rfl⟩
      obtain ⟨h1, hs, ha, hm1, hv1, hfr1⟩ := hm.takeQ
      obtain ⟨h2, hrec, hm2, hv2, hfr2⟩ :=
        merge_spec cmp vf oh f [] qs' (out ++ [y]) h1 p k hm1 (fun hne => absurd rfl hne)
          (by simp at hf ⊢; omega) hbp (by omega)
      have hc : (((([] : List Nat).length : Nat) : Int) ≠ 0) ∨
          (((k + 1 : Nat) : Int) ≠ 0 ∧ (y :: qs').head? ≠ none) := by
        right
        exact ⟨by omega, by simp⟩
      have e1 : out ++ List.merge [] ((y :: qs').take (k + 1)) (leOf cmp vf) =
          out ++ [y] ++ List.merge [] (qs'.take k) (leOf cmp vf) := by
        simp
      rw [if_pos hc, e1]
      simp only [List.length_nil, Nat.cast_zero, mergesort_left_zero, bind, Except.bind,
        List.head?_cons, Bool.false_eq_true, if_false, hs, ha, wrapInt_pred (by omega : k < 2147483648),
        List.drop_succ_cons]
      simp only [List.getLast?_concat, List.length_nil, Nat.cast_zero] at hrec
      refine ⟨h2, hrec, hm2, fun a => by rw [hv2, hv1], ?_⟩
      intro a ha'
      rw [hfr2 a (by simp at ha' ⊢; tauto), hfr1 a (by simp at ha' ⊢; tauto)]
  | f + 1, x :: ps', qs, out, h, p, qsize, hm, hp, hf, hbp, hbq => by
    rw [mergesort_merge]
    have hpx : p = some x := by simpa using hp (by simp)
    subst hpx
    have hlen : (((x :: ps').length : Nat) : Int) ≠ 0 := by
      simp only [List.length_cons]
      omega
    have hbp' : ps'.length < 2147483648 := by
      simp only [List.length_cons] at hbp
      omega
    have hpred : wrapInt ((((x :: ps').length : Nat) : Int) - 1) = (ps'.length : Int) := by
      simp only [List.length_cons]
      exact wrapInt_pred hbp'
    have hc : ((((x :: ps').length : Nat) : Int) ≠ 0) ∨
        ((qsize : Int) ≠ 0 ∧ qs.head? ≠ none) := Or.inl hlen
    rw [if_pos hc]
    by_cases hq : qsize = 0 ∨ qs = []
    · have ht : qs.take qsize = [] := by
        rcases hq with hq | hq
        · simp [hq]
        · simp [hq]
      have hq' : (qsize : Int) = 0 ∨ qs.head? = none := by
        rcases hq with hq | hq
        · exact Or.inl (by simp [hq])
        · exact Or.inr (by simp [hq])
      obtain ⟨h1, p1, hs, hp1, ha, hm1, hv1, hfr1⟩ := hm.takeP
      obtain ⟨h2, hrec, hm2, hv2, hfr2⟩ :=
        merge_spec cmp vf oh f ps' qs (out ++ [x]) h1 p1 qsize hm1 hp1
          (by simp at hf ⊢; omega) hbp' hbq
      have e1 : out ++ List.merge (x :: ps') (qs.take qsize) (leOf cmp vf) =
          out ++ [x] ++ List.merge ps' (qs.take qsize) (leOf cmp vf) := by
        simp [ht]
      rw [e1, mergesort_left_alone cmp h (some x) qs.head? _ qsize hlen hq']
      simp only [bind, Except.bind, if_true, hs, ha, hpred]
      simp only [List.getLast?_concat] at hrec
      refine ⟨h2, hrec, hm2, fun a => by rw [hv2, hv1], ?_⟩
      intro a ha'
      rw [hfr2 a (by simp at ha' ⊢; tauto), hfr1 a (by simp at ha' ⊢; tauto)]
    · obtain ⟨k, rfl⟩ : ∃ k, qsize = k + 1 := ⟨qsize - 1, by omega⟩
      obtain ⟨y, qs', rfl⟩ : ∃ y qs', qs = y :: qs' := by
        cases qs with
        | nil => exact absurd (Or.inr rfl) hq
        | cons y qs' => exact ⟨y, qs', rfl⟩
      obtain ⟨nx, hnx, hvx⟩ := hm.node_live (a := x) (by simp)
      obtain ⟨ny, hny, hvy⟩ := hm.node_live (a := y) (by simp)
      have hk0 : (((k + 1 : Nat) : Int)) ≠ 0 := by omega
      rw [List.head?_cons,
        mergesort_left_cmp cmp _ _ hlen hk0 hnx hny, hvx, hvy]
      by_cases hle : leOf cmp vf x y = true
      · have hle' : decide (cmp (vf x) (vf y) ≤ 0) = true := hle
        obtain ⟨h1, p1, hs, hp1, ha, hm1, hv1, hfr1⟩ := hm.takeP
        obtain ⟨h2, hrec, hm2, hv2, hfr2⟩ :=
          merge_spec cmp vf oh f ps' (y :: qs') (out ++ [x]) h1 p1 (k + 1) hm1 hp1
            (by simp at hf ⊢; omega) hbp' hbq
        have e1 : out ++ List.merge (x :: ps') ((y :: qs').take (k + 1)) (leOf cmp vf) =
            out ++ [x] ++ List.merge ps' ((y :: qs').take (k + 1)) (leOf cmp vf) := by
          rw [List.take_succ_cons, List.cons_merge_cons_pos _ _ _ hle]
          simp
        rw [e1]
        simp only [bind, Except.bind, hle', if_true, hs, ha, hpred]
        simp only [List.getLast?_concat, List.head?_cons] at hrec
        refine ⟨h2, hrec, hm2, fun a => by rw [hv2, hv1], ?_⟩
        intro a ha'
        rw [hfr2 a (by simp at ha' ⊢; tauto), hfr1 a (by simp at ha' ⊢; tauto)]
      · have hle' : decide (cmp (vf x) (vf y) ≤ 0) = false := by
          simpa [leOf] using hle
        obtain ⟨h1, hs, ha, hm1, hv1, hfr1⟩ := hm.takeQ
        obtain ⟨h2, hrec, hm2, hv2, hfr2⟩ :=
          merge_spec cmp vf oh f (x :: ps') qs' (out ++ [y]) h1 (some x) k hm1 (fun _ => rfl)
            (by simp at hf ⊢; omega) hbp (by omega)
        have e1 : out ++ List.merge (x :: ps') ((y :: qs').take (k + 1)) (leOf cmp vf) =
            out ++ [y] ++ List.merge (x :: ps') (qs'.take k) (leOf cmp vf) := by
          rw [List.take_succ_cons, List.cons_merge_cons_neg _ _ _ hle]
          simp
        rw [e1]
        simp only [bind, Except.bind, hle', Bool.false_eq_true, if_false, hs, ha,
          wrapInt_pred (by omega : k < 2147483648), List.drop_succ_cons]
        simp only [List.getLast?_concat] at hrec
        refine ⟨h2, hrec, hm2, fun a => by rw [hv2, hv1], ?_⟩
        intro a ha'
        rw [hfr2 a (by simp at ha' ⊢; tauto), hfr1 a (by simp at ha' ⊢; tauto)]

end MergeLoop
end STC

namespace STC
open clist

section Pass
variable {α : Type}

theorem skip_spec {h : Heap α} {oh : Nat} :
    ∀ (n x : Nat) (r : List Nat) (c : Nat), List.Chain' (Link h) (x :: r ++ [oh]) → oh ∉ r →
      c + min n (x :: r).length < 2147483648 →
      mergesort_skip h (some oh) n (some x) (c : Int) =
        .ok (((x :: r).drop n).head?, ((c + min n (x :: r).length : Nat) : Int))
  | 0, x, r, c, _, _, _ => by simp [mergesort_skip, pure, Except.pure]
  | n + 1, x, [], c, hc, hoh, hb => by
    have hb1 : c + 1 < 2147483648 := by
      simp only [List.length_cons, List.length_nil] at hb
      omega
    simp only [mergesort_skip, mergesort_step_chain hc hoh, bind, Except.bind, List.head?_nil,
      if_true, pure, Except.pure, wrapInt_succ hb1, List.drop_succ_cons, List.drop_nil,
      List.length_cons, List.length_nil]
    congr 3
    omega
  | n + 1, x, y :: r, c, hc, hoh, hb => by
    have hc' : List.Chain' (Link h) (y :: r ++ [oh]) := by
      rw [List.cons_append] at hc
      exact hc.tail
    have hb1 : c + 1 < 2147483648 := by
      simp only [List.length_cons] at hb
      omega
    have ih := skip_spec n y r (c + 1) hc' (fun hm => hoh (by simp [hm])) (by
      simp only [List.length_cons] at hb ⊢
      omega)
    simp only [mergesort_skip, mergesort_step_chain hc hoh, bind, Except.bind, List.head?_cons,
      reduceCtorEq, if_false, wrapInt_succ hb1, ih, List.drop_succ_cons, List.length_cons]
    congr 3
    omega

/-- A pass makes at most as many merges as there are nodes. -/
theorem PassRel.count_le {le : Nat → Nat → Bool} {k : Nat} {l out : List Nat} {n : Nat}
    (hk : 0 < k) (hp : PassRel le k l out n) : n ≤ l.length := by
  induction hp with
  | nil => exact le_refl _
  | step rest out n hne _ ih =>
    have h1 : 0 < rest.length := List.length_pos.2 hne
    simp only [List.length_drop] at ih
    omega

theorem pass_spec (cmp : α → α → Int) (vf : Nat → α) (oh k fuel0 : Nat) (hk : 0 < k)
    (hkb : k < 2147483648) :
    ∀ (fuel : Nat) (rest out : List Nat) (h : Heap α) (nm : Nat),
      (out ++ rest).Nodup → (∀ a ∈ out ++ rest, (h a).map Node.value = some (vf a)) →
      List.Chain' (Link h) out → List.Chain' (Link h) (rest ++ [oh]) → oh ∉ rest.tail →
      rest.length < fuel → rest.length < fuel0 → nm + (rest.length + 1) / 2 < 2147483648 →
      ∃ h1 o n, mergesort_pass cmp (some oh) (k : Int) fuel0 fuel h rest.head? out.head?
            out.getLast? (nm : Int) =
          .ok (h1, (out ++ o).head?, (out ++ o).getLast?, ((nm + n : Nat) : Int)) ∧
        PassRel (leOf cmp vf) k rest o n ∧
        List.Chain' (Link h1) (out ++ o) ∧
        (∀ a, (h1 a).map Node.value = (h a).map Node.value) ∧
        (∀ a, a ∉ out ++ rest → h1 a = h a)
  | 0, _, _, _, _, _, _, _, _, _, hf, _, _ => by omega
  | f + 1, [], out, h, nm, _, _, hco, _, _, _, _, _ => by
    refine ⟨h, [], 0, ?_, PassRel.nil, by simpa using hco, fun _ => rfl, fun _ _ => rfl⟩
    simp [mergesort_pass, pure, Except.pure]
  | f + 1, x :: r, out, h, nm, hnd, hv, hco, hcr, hoh, hf, hf0, hnb => by
    have hoh' : oh ∉ r := by simpa using hoh
    have hsk := skip_spec k x r 0 hcr hoh' (by
      have : min k (x :: r).length ≤ k := Nat.min_le_left _ _
      omega)
    obtain ⟨k', rfl⟩ : ∃ k', k = k' + 1 := ⟨k - 1, by omega⟩
    have htk : (x :: r).take (k' + 1) = x :: r.take k' := rfl
    have hdk : (x :: r).drop (k' + 1) = r.drop k' := rfl
    have hsplit : x :: r = (x :: r.take k') ++ r.drop k' := by
      rw [List.cons_append, List.take_append_drop]
    have hm : MState h vf oh out (x :: r.take k') (r.drop k') := by
      refine ⟨?_, ?_, hco, ?_, ?_, ?_, ?_⟩
      · rw [List.append_assoc, ← hsplit]
        exact hnd
      · intro a ha
        apply hv
        rw [List.append_assoc, ← hsplit] at ha
        exact ha
      · have : List.Chain' (Link h) ((x :: r.take k') ++ (r.drop k' ++ [oh])) := by
          rw [← List.append_assoc, ← hsplit]
          exact hcr
        exact this.left_of_append
      · have : List.Chain' (Link h) ((x :: r.take k') ++ (r.drop k' ++ [oh])) := by
          rw [← List.append_assoc, ← hsplit]
          exact hcr
        exact this.right_of_append
      · intro hmem
        exact hoh' (List.mem_of_mem_take hmem)
      · intro hmem
        exact hoh' (List.mem_of_mem_drop hmem)
    have hlen : (x :: r.take k').length = min (k' + 1) (x :: r).length := by
      simp only [List.length_cons, List.length_take]
      omega
    obtain ⟨h1, hmg, hm1, hv1, hfr1⟩ :=
      merge_spec cmp vf oh fuel0 (x :: r.take k') (r.drop k') out h (some x) (k' + 1) hm
        (fun _ => rfl)
        (by
          simp only [List.length_cons, List.length_take, List.length_drop] at hf0 ⊢
          omega)
        (by
          simp only [List.length_cons, List.length_take]
          omega)
        hkb
    have hrl : ((r.drop k').drop (k' + 1)).length < (x :: r).length := by
      simp only [List.length_drop, List.length_cons]
      omega
    obtain ⟨h2, o, n, hrec, hpr, hc2, hv2, hfr2⟩ :=
      pass_spec cmp vf oh (k' + 1) fuel0 hk hkb f ((r.drop k').drop (k' + 1))
        (out ++ List.merge (x :: r.take k') ((r.drop k').take (k' + 1)) (leOf cmp vf)) h1
        (nm + 1)
        (by simpa using hm1.nodup) (by simpa using hm1.vals) hm1.cout hm1.cqs
        (fun hmem => hm1.ohqs (List.mem_of_mem_tail hmem))
        (by omega) (by omega)
        (by
          simp only [List.length_cons, List.length_drop] at hnb hrl ⊢
          omega)
    refine ⟨h2, List.merge (x :: r.take k') ((r.drop k').take (k' + 1)) (leOf cmp vf) ++ o,
      n + 1, ?_, ?_, ?_, fun a => by rw [hv2, hv1], ?_⟩
    · rw [hlen] at hmg
      simp only [Nat.zero_add, Nat.cast_zero] at hsk
      have hnm : wrapInt ((nm : Int) + 1) = ((nm + 1 : Nat) : Int) := wrapInt_succ (by
        simp only [List.length_cons] at hnb
        omega)
      simp only [mergesort_pass, List.head?_cons, ne_eq, reduceCtorEq, not_false_eq_true,
        if_true, Int.toNat_ofNat, hsk, bind, Except.bind, hdk, hmg, hnm, hrec]
      rw [List.append_assoc, Nat.add_assoc, Nat.add_comm 1 n]
    · have := @PassRel.step (leOf cmp vf) (k' + 1) (x :: r) o n (by simp)
        (by rw [hdk]; exact hpr)
      rw [htk, hdk] at this
      exact this
    · rw [← List.append_assoc]
      exact hc2
    · intro a ha
      rw [hfr2 a, hfr1 a]
      · rw [List.append_assoc, ← hsplit]
        exact ha
      · intro hmem
        apply ha
        rcases List.mem_append.1 hmem with hmem | hmem
        · rcases List.mem_append.1 hmem with hmem | hmem
          · exact List.mem_append_left _ hmem
          · apply List.mem_append_right
            rw [List.mem_merge] at hmem
            rw [hsplit]
            rcases hmem with hmem | hmem
            · exact List.mem_append_left _ hmem
            · exact List.mem_append_right _ (List.mem_of_mem_take hmem)
        · apply List.mem_append_right
          rw [hsplit]
          exact List.mem_append_right _ (List.mem_of_mem_drop hmem)

end Pass
end STC

namespace STC
open clist

section OldNew
variable {α : Type}

/-- The `for` loop leaves in `psize` the number of its iterations: a count between the count
it started from and that count plus `insize`. -/
theorem skip_range (h : Heap α) (oh : Ptr) :
    ∀ (n : Nat) (q : Ptr) (c : Nat) (q1 : Ptr) (s : Int), c + n < 2147483648 →
      mergesort_skip h oh n q (c : Int) = .ok (q1, s) → ∃ m : Nat, s = (m : Int) ∧ m ≤ c + n
  | 0, q, c, q1, s, _, he => by
    simp only [mergesort_skip, pure, Except.pure, Except.ok.injEq, Prod.mk.injEq] at he
    exact ⟨c, he.2.symm, by omega⟩
  | n + 1, q, c, q1, s, hb, he => by
    simp only [mergesort_skip, bind, Except.bind] at he
    cases e1 : mergesort_step h oh q with
    | error e => simp [e1] at he
    | ok q2 =>
      simp only [e1, wrapInt_succ (by omega : c + 1 < 2147483648)] at he
      by_cases hq2 : q2 = none
      · simp only [hq2, if_true, pure, Except.pure, Except.ok.injEq, Prod.mk.injEq] at he
        exact ⟨c + 1, he.2.symm, by omega⟩
      · simp only [hq2, if_false] at he
        obtain ⟨m, hm, hle⟩ := skip_range h oh n q2 (c + 1) q1 s (by omega) he
        exact ⟨m, hm, by omega⟩

/-- While `psize` and `qsize` are not negative, the four-branch merge loop of the older
header takes the same steps as the combined-condition merge loop of the current header. -/
theorem clist_void_merge_eq (cmp : α → α → Int) (oldhead : Ptr) :
    ∀ (fuel : Nat) (h : Heap α) (p q : Ptr) (psize qsize : Nat) (list tail : Ptr),
      psize < 2147483648 → qsize < 2147483648 →
      clist_void.mergesort_merge cmp oldhead fuel h p q (psize : Int) (qsize : Int) list tail =
        clist.mergesort_merge cmp oldhead fuel h p q (psize : Int) (qsize : Int) list tail
  | 0, _, _, _, _, _, _, _, _, _ => rfl
  | fuel + 1, h, p, q, psize, qsize, list, tail, hbp, hbq => by
    have ih := clist_void_merge_eq cmp oldhead fuel
    rw [clist_void.mergesort_merge, clist.mergesort_merge]
    have hpp : wrapInt ((psize : Int) - 1) = ((psize - 1 : Nat) : Int) ∨ psize = 0 := by
      rcases Nat.eq_zero_or_pos psize with e | e
      · exact Or.inr e
      · left
        rw [wrapInt_of_range (by omega) (by omega)]
        omega
    have hqq : wrapInt ((qsize : Int) - 1) = ((qsize - 1 : Nat) : Int) ∨ qsize = 0 := by
      rcases Nat.eq_zero_or_pos qsize with e | e
      · exact Or.inr e
      · left
        rw [wrapInt_of_range (by omega) (by omega)]
        omega
    by_cases hp : psize = 0
    · subst hp
      by_cases hq : qsize = 0
      · simp [hq]
      · cases q with
        | none => simp
        | some b =>
          have hq' : (0 : Int) < (qsize : Int) := by omega
          have hq'' : (qsize : Int) ≠ 0 := by omega
          have e := hqq.resolve_right hq
          simp only [Nat.cast_zero, lt_self_iff_false, hq', ne_eq, reduceCtorEq,
            not_false_eq_true, and_self, or_true, if_true, hq'', not_true_eq_false, false_or,
            mergesort_left_zero, bind, Except.bind, Bool.false_eq_true, if_false, e]
          cases mergesort_step h oldhead (some b) with
          | error e => rfl
          | ok q1 =>
            cases mergesort_append h list tail (some b) with
            | error e => rfl
            | ok r =>
              simp only
              have := ih r.1 p q1 0 (qsize - 1) r.2 (some b) (by omega) (by omega)
              simpa using this
    · have hp' : (0 : Int) < (psize : Int) := by omega
      have hp'' : (psize : Int) ≠ 0 := by omega
      have ep := hpp.resolve_right hp
      by_cases hq : qsize = 0 ∨ q = none
      · have hq1 : (qsize : Int) = 0 ∨ q = none := by
          rcases hq with hq | hq
          · exact Or.inl (by omega)
          · exact Or.inr hq
        have hq2 : ¬ ((qsize : Int) ≠ 0 ∧ q ≠ none) := by
          rcases hq1 with hq1 | hq1
          · exact fun hc => hc.1 hq1
          · exact fun hc => hc.2 hq1
        simp only [hp', true_or, if_true, hp'', if_false, hq1, mergesort_left, ne_eq,
          not_false_eq_true, hq2, bind, Except.bind, pure, Except.pure, ep]
        cases mergesort_step h oldhead p with
        | error e => rfl
        | ok p1 =>
          cases mergesort_append h list tail p with
          | error e => rfl
          | ok r =>
            exact ih r.1 p1 q (psize - 1) qsize r.2 p (by omega) hbq
      · have hq0 : qsize ≠ 0 := fun e => hq (Or.inl e)
        have hq1 : ¬ ((qsize : Int) = 0 ∨ q = none) := by
          intro hc
          rcases hc with hc | hc
          · exact hq (Or.inl (by omega))
          · exact hq (Or.inr hc)
        have hq2 : (qsize : Int) ≠ 0 ∧ q ≠ none := by
          constructor
          · omega
          · exact fun e => hq (Or.inr e)
        have eq := hqq.resolve_right hq0
        simp only [hp', true_or, if_true, hp'', if_false, hq1, mergesort_left, ne_eq,
          not_false_eq_true, hq2, and_self, not_true_eq_false, bind, Except.bind, pure,
          Except.pure, ep, eq]
        cases hc : cmpNodes cmp h p q with
        | error e => rfl
        | ok c =>
          by_cases hle : c ≤ 0
          · simp only [hle, if_true, decide_True]
            cases mergesort_step h oldhead p with
            | error e => rfl
            | ok p1 =>
              cases mergesort_append h list tail p with
              | error e => rfl
              | ok r =>
                exact ih r.1 p1 q (psize - 1) qsize r.2 p (by omega) hbq
          · simp only [hle, if_false, decide_False, Bool.false_eq_true]
            cases mergesort_step h oldhead q with
            | error e => rfl
            | ok q1 =>
              cases mergesort_append h list tail q with
              | error e => rfl
              | ok r =>
                exact ih r.1 p q1 psize (qsize - 1) r.2 q hbp (by omega)

/-- For a run length `insize` between 0 and `INT_MAX`, the passes of the two headers are the
same function of the memory. -/
theorem clist_void_pass_eq (cmp : α → α → Int) (oldhead : Ptr) (k fuel0 : Nat)
    (hk : k < 2147483648) :
    ∀ (fuel : Nat) (h : Heap α) (p list tail : Ptr) (nmerges : Int),
      clist_void.mergesort_pass cmp oldhead (k : Int) fuel0 fuel h p list tail nmerges =
        clist.mergesort_pass cmp oldhead (k : Int) fuel0 fuel h p list tail nmerges
  | 0, _, _, _, _, _ => rfl
  | fuel + 1, h, p, list, tail, nmerges => by
    have ih := clist_void_pass_eq cmp oldhead k fuel0 hk fuel
    rw [clist_void.mergesort_pass, clist.mergesort_pass]
    by_cases hp : p = none
    · simp [hp]
    · simp only [ne_eq, hp, not_false_eq_true, if_true, bind, Except.bind, Int.toNat_ofNat]
      cases e1 : mergesort_skip h oldhead k p 0 with
      | error e => rfl
      | ok r =>
        obtain ⟨q1, s⟩ := r
        have e1' : mergesort_skip h oldhead k p ((0 : Nat) : Int) = .ok (q1, s) := by
          simpa using e1
        obtain ⟨m, rfl, hm⟩ := skip_range h oldhead k p 0 q1 s (by omega) e1'
        simp only [clist_void_merge_eq cmp oldhead fuel0 h p q1 m k list tail (by omega) hk, ih]

end OldNew
end STC

namespace STC
open clist

section Budget
variable {α : Type}

/-- A merge loop that ends within a step budget ends in the same way within a larger one. -/
theorem merge_budget_succ (cmp : α → α → Int) (oldhead : Ptr) :
    ∀ (fuel : Nat) (h : Heap α) (p q : Ptr) (psize qsize : Int) (list tail : Ptr)
      (r : Heap α × Ptr × Ptr × Ptr),
      mergesort_merge cmp oldhead fuel h p q psize qsize list tail = .ok r →
      mergesort_merge cmp oldhead (fuel + 1) h p q psize qsize list tail = .ok r
  | 0, _, _, _, _, _, _, _, _, he => by simp [mergesort_merge] at he
  | fuel + 1, h, p, q, psize, qsize, list, tail, r, he => by
    rw [mergesort_merge] at he ⊢
    by_cases hc : psize ≠ 0 ∨ (qsize ≠ 0 ∧ q ≠ none)
    · simp only [hc, if_true, bind, Except.bind] at he ⊢
      cases e1 : mergesort_left cmp h p q psize qsize with
      | error e => simp [e1] at he
      | ok left =>
        simp only [e1] at he ⊢
        cases left with
        | true =>
          simp only [if_true] at he ⊢
          cases e2 : mergesort_step h oldhead p with
          | error e => simp [e2] at he
          | ok p1 =>
            simp only [e2] at he ⊢
            cases e3 : mergesort_append h list tail p with
            | error e => simp [e3] at he
            | ok x =>
              simp only [e3] at he ⊢
              exact merge_budget_succ cmp oldhead fuel _ _ _ _ _ _ _ r he
        | false =>
          simp only [Bool.false_eq_true, if_false] at he ⊢
          cases e2 : mergesort_step h oldhead q with
          | error e => simp [e2] at he
          | ok q1 =>
            simp only [e2] at he ⊢
            cases e3 : mergesort_append h list tail q with
            | error e => simp [e3] at he
            | ok x =>
              simp only [e3] at he ⊢
              exact merge_budget_succ cmp oldhead fuel _ _ _ _ _ _ _ r he
    · simp only [hc, if_false] at he ⊢
      exact he

theorem merge_budget (cmp : α → α → Int) (oldhead : Ptr) {fuel fuel1 : Nat}
    (hle : fuel ≤ fuel1) {h : Heap α} {p q : Ptr} {psize qsize : Int} {list tail : Ptr}
    {r : Heap α × Ptr × Ptr × Ptr}
    (he : mergesort_merge cmp oldhead fuel h p q psize qsize list tail = .ok r) :
    mergesort_merge cmp oldhead fuel1 h p q psize qsize list tail = .ok r := by
  induction hle with
  | refl => exact he
  | step _ ih => exact merge_budget_succ cmp oldhead _ _ _ _ _ _ _ _ r ih

/-- A pass that ends within its step budgets ends in the same way within larger ones. -/
theorem pass_budget (cmp : α → α → Int) (oldhead : Ptr) (insize : Int) {fuel0 fuel2 : Nat}
    (hle0 : fuel0 ≤ fuel2) :
    ∀ (fuel fuel1 : Nat) (h : Heap α) (p list tail : Ptr) (nmerges : Int)
      (r : Heap α × Ptr × Ptr × Int), fuel ≤ fuel1 →
      mergesort_pass cmp oldhead insize fuel0 fuel h p list tail nmerges = .ok r →
      mergesort_pass cmp oldhead insize fuel2 fuel1 h p list tail nmerges = .ok r
  | 0, _, _, _, _, _, _, _, _, he => by simp [mergesort_pass] at he
  | fuel + 1, 0, _, _, _, _, _, _, hle, _ => by omega
  | fuel + 1, fuel1 + 1, h, p, list, tail, nmerges, r, hle, he => by
    rw [mergesort_pass] at he ⊢
    by_cases hp : p = none
    · simp only [hp, ne_eq, not_true_eq_false, if_false] at he ⊢
      exact he
    · simp only [ne_eq, hp, not_false_eq_true, if_true, bind, Except.bind] at he ⊢
      cases e1 : mergesort_skip h oldhead insize.toNat p 0 with
      | error e => simp [e1] at he
      | ok x =>
        obtain ⟨q, psize⟩ := x
        simp only [e1] at he ⊢
        cases e2 : mergesort_merge cmp oldhead fuel0 h p q psize insize list tail with
        | error e => simp [e2] at he
        | ok y =>
          obtain ⟨h1, q1, list1, tail1⟩ := y
          simp only [e2, merge_budget cmp oldhead hle0 e2] at he ⊢
          exact pass_budget cmp oldhead insize hle0 fuel fuel1 _ _ _ _ _ r (by omega) he

end Budget
end STC

namespace STC
open clist

section PureSort2
variable {le : Nat → Nat → Bool}

theorem exists_snoc_of_ne_nil {β : Type} {l : List β} (hl : l ≠ []) :
    ∃ l0 z, l = l0 ++ [z] := by
  rcases List.eq_nil_or_concat l with e | ⟨l0, z, e⟩
  · exact absurd e hl
  · exact ⟨l0, z, by rw [e, List.concat_eq_append]⟩


/-- A pass is determined by the sequence it starts from. -/
theorem PassRel.out_unique {k : Nat} {l out : List Nat} {n : Nat} (hp : PassRel le k l out n) :
    ∀ {out1 : List Nat} {n1 : Nat}, PassRel le k l out1 n1 → out = out1 ∧ n = n1 := by
  induction hp with
  | nil =>
    intro out1 n1 h1
    obtain ⟨e1, e2⟩ := h1.of_nil
    exact ⟨e1.symm, e2.symm⟩
  | step rest out n hne _ ih =>
    intro out1 n1 h1
    rcases h1.inv with ⟨e, -, -⟩ | ⟨-, out2, n2, hp2, e1, e2⟩
    · exact absurd e hne
    · obtain ⟨e3, e4⟩ := ih hp2
      rw [e1, e2, e3, e4]
      exact ⟨rfl, rfl⟩

/-- The sequence of passes is determined by the sequence it starts from. -/
theorem SortRel.result_unique {k : Nat} {l out : List Nat} (hs : SortRel le k l out) :
    ∀ {out1 : List Nat}, SortRel le k l out1 → out = out1 := by
  induction hs with
  | last k l out n hp hn =>
    intro out1 h1
    cases h1 with
    | last _ _ _ n1 hp1 _ => exact (hp.out_unique hp1).1
    | next _ _ mid _ n1 hp1 hn1 _ =>
      have := (hp.out_unique hp1).2
      omega
  | next k l mid out n hp hn _ ih =>
    intro out1 h1
    cases h1 with
    | last _ _ _ n1 hp1 hn1 =>
      have := (hp.out_unique hp1).2
      omega
    | next _ _ mid1 _ n1 hp1 _ hs1 =>
      have e := (hp.out_unique hp1).1
      subst e
      exact ih hs1

theorem SortRel.perm_nodes {k : Nat} {l out : List Nat} (hs : SortRel le k l out) :
    out.Perm l := by
  induction hs with
  | last k l out n hp _ => exact hp.perm
  | next k l mid out n hp _ _ ih => exact ih.trans hp.perm

/-- Sorting runs that are sorted gives a sorted sequence, for an order that is transitive and
total. -/
theorem SortRel.sorted_nodes
    (trans : ∀ a b c : Nat, le a b = true → le b c = true → le a c = true)
    (total : ∀ a b : Nat, (le a b || le b a) = true)
    {k : Nat} {l out : List Nat} (hs : SortRel le k l out) (hr : Runs le k l) :
    out.Pairwise (fun a b => le a b = true) := by
  induction hs with
  | last k l out n hp hn => exact hp.sorted trans total hr hn
  | next k l mid out n hp _ _ ih =>
    apply ih
    rw [Nat.mul_comm]
    exact hp.runs trans total hr

/-- The passes keep a node before every later node that is not smaller. -/
theorem SortRel.stable_nodes
    (trans : ∀ a b c : Nat, le a b = true → le b c = true → le a c = true)
    (total : ∀ a b : Nat, (le a b || le b a) = true)
    {k : Nat} {l out : List Nat} (hs : SortRel le k l out) (hr : Runs le k l)
    (a b : Nat) (hab : le a b = true) (hsub : List.Sublist [a, b] l) :
    List.Sublist [a, b] out := by
  induction hs with
  | last k l out n hp _ => exact hp.stable trans hr a b hab hsub
  | next k l mid out n hp _ _ ih =>
    apply ih
    · rw [Nat.mul_comm]
      exact hp.runs trans total hr
    · exact hp.stable trans hr a b hab hsub

end PureSort2

section Outer
variable {α : Type}

/-- The doubling `insize *= 2` of a run length below `2^30`. -/
theorem wrapInt_double {k : Nat} (hk : k * 2 < 2147483648) :
    wrapInt ((k : Int) * 2) = ((k * 2 : Nat) : Int) := by
  rw [wrapInt_of_range (by omega) (by omega)]
  push_cast
  rfl

/-- One pass of `_clist_mergesort` on a ring, with counters in range: with step budgets above
the number of nodes the pass with runs of `k` nodes returns, whatever the budgets it can
return nothing else, and `tail->next = list` closes what it built into a ring. -/
theorem pass_ring (cmp : α → α → Int) (vf : Nat → α) {L : List Nat}
    {h : Heap α} {k : Nat} (hr : IsRing h L) (hne : L ≠ [])
    (hv : ∀ a ∈ L, (h a).map Node.value = some (vf a)) (hk : 0 < k) (hkb : k < 2147483648)
    (hlb : (L.length + 1) / 2 < 2147483648) :
    ∃ h1 h2 out n, PassRel (leOf cmp vf) k L out n ∧ IsRing h2 out ∧ out ≠ [] ∧
      (∀ a, (h2 a).map Node.value = (h a).map Node.value) ∧
      (∀ a, a ∉ L → h2 a = h a) ∧
      setNext h1 out.getLast? out.head? = .ok h2 ∧
      (∀ fuel0 fuel, L.length < fuel0 → L.length < fuel →
        mergesort_pass cmp L.head? (k : Int) fuel0 fuel h L.head? none none 0 =
          .ok (h1, out.head?, out.getLast?, (n : Int))) ∧
      (∀ fuel0 fuel r,
        mergesort_pass cmp L.head? (k : Int) fuel0 fuel h L.head? none none 0 = .ok r →
          r = (h1, out.head?, out.getLast?, (n : Int))) := by
  obtain ⟨a0, L', rfl⟩ : ∃ a0 L', L = a0 :: L' := by
    cases L with
    | nil => exact absurd rfl hne
    | cons a0 L' => exact ⟨a0, L', rfl⟩
  have hring := IsRing_cons_iff.1 hr
  obtain ⟨h1, o, n, hpass, hpr, hc1, hv1, hfr1⟩ :=
    pass_spec cmp vf a0 k ((a0 :: L').length + 1) hk hkb ((a0 :: L').length + 1) (a0 :: L')
      [] h 0 (by simpa using hring.1)
      (by simpa using hv) (by simp) hring.2
      (by
        have := hring.1
        simp only [List.tail_cons]
        exact (List.nodup_cons.1 this).1)
      (by omega) (by omega) (by omega)
  simp only [List.nil_append, List.head?_nil, List.getLast?_nil, Nat.zero_add,
    List.head?_cons, Nat.cast_zero] at hpass hc1 hfr1
  have hperm := hpr.perm
  have hone : o ≠ [] := by
    intro e
    have := hperm.length_eq
    simp [e] at this
  obtain ⟨o0, t, rfl⟩ := exists_snoc_of_ne_nil hone
  obtain ⟨hd, hhd⟩ : ∃ hd, (o0 ++ [t]).head? = some hd := by
    cases o0 with
    | nil => exact ⟨t, rfl⟩
    | cons b o1 => exact ⟨b, rfl⟩
  have hnd : (o0 ++ [t]).Nodup := hperm.nodup_iff.2 hring.1
  have hmem : ∀ a, a ∈ o0 ++ [t] ↔ a ∈ a0 :: L' := fun a => hperm.mem_iff
  have hv1' : ∀ a ∈ o0 ++ [t], (h1 a).map Node.value = some (vf a) := by
    intro a ha
    rw [hv1]
    exact hv a ((hmem a).1 ha)
  obtain ⟨nt, hnt⟩ : ∃ nt, h1 t = some nt := by
    have := hv1' t (by simp)
    cases hn : h1 t with
    | none => simp [hn] at this
    | some nt => exact ⟨nt, rfl⟩
  have htl : t ∉ o0 := by
    rw [List.nodup_append] at hnd
    exact fun hm => hnd.2.2 hm (by simp)
  have hring2 : IsRing (store h1 t ⟨some hd, nt.value⟩) (o0 ++ [t]) := by
    rw [IsRing_snoc_iff]
    refine ⟨hnd, ?_, ?_⟩
    · apply chain_frame o0 t hc1
      intro a ha
      have : a ≠ t := fun e => htl (e ▸ ha)
      simp [store, this]
    · intro a ha
      rw [hhd] at ha
      simp at ha
      subst ha
      simp [Link, store]
  have hv2 : ∀ a, ((store h1 t ⟨some hd, nt.value⟩) a).map Node.value =
      (h a).map Node.value := by
    intro a
    rw [← hv1]
    by_cases hat : a = t
    · subst hat
      simp [store, hnt]
    · simp [store, hat]
  have hfr2 : ∀ a, a ∉ a0 :: L' → (store h1 t ⟨some hd, nt.value⟩) a = h a := by
    intro a ha
    have hat : a ≠ t := fun e => ha ((hmem a).1 (by simp [e]))
    simp only [store, hat, if_false]
    exact hfr1 a ha
  have huniq : ∀ fuel0 fuel r,
      mergesort_pass cmp (some a0) (k : Int) fuel0 fuel h (some a0) none none 0 = .ok r →
        r = (h1, (o0 ++ [t]).head?, (o0 ++ [t]).getLast?, (n : Int)) := by
    intro fuel0 fuel r he
    have e1 := pass_budget cmp (some a0) (k : Int)
      (le_max_left fuel0 ((a0 :: L').length + 1)) fuel
      (max fuel ((a0 :: L').length + 1)) h (some a0) none none 0 r (le_max_left _ _) he
    have e2 := pass_budget cmp (some a0) (k : Int)
      (le_max_right fuel0 ((a0 :: L').length + 1)) ((a0 :: L').length + 1)
      (max fuel ((a0 :: L').length + 1)) h (some a0) none none 0 _ (le_max_right _ _) hpass
    rw [e1] at e2
    exact Except.ok.inj e2
  refine ⟨h1, store h1 t ⟨some hd, nt.value⟩, o0 ++ [t], n, hpr, hring2, hone, hv2, hfr2,
    ?_, ?_, huniq⟩
  · simp only [List.getLast?_concat, hhd, setNext, hnt, pure, Except.pure]
  · intro fuel0 fuel hf0 hf
    exact pass_budget cmp (some a0) (k : Int) (by omega : (a0 :: L').length + 1 ≤ fuel0)
      ((a0 :: L').length + 1) fuel h (some a0) none none 0 _ (by omega) hpass

/-- One turn of the outer loop of `_clist_mergesort` on a ring, with counters in range: the
pass with runs of `k` nodes is made, the chain is closed into a ring, and the loop returns or
goes on with `insize * 2`.  The outer loop of the older header does the same. -/
theorem outer_step (cmp : α → α → Int) (vf : Nat → α) (fuel0 : Nat) {L : List Nat}
    {h : Heap α} {k : Nat} (hr : IsRing h L) (hne : L ≠ [])
    (hv : ∀ a ∈ L, (h a).map Node.value = some (vf a)) (hk : 0 < k) (hkb : k < 2147483648)
    (hf0 : L.length < fuel0) (hlb : (L.length + 1) / 2 < 2147483648) :
    ∃ h2 out n, PassRel (leOf cmp vf) k L out n ∧ IsRing h2 out ∧ out ≠ [] ∧
      (∀ a, (h2 a).map Node.value = (h a).map Node.value) ∧
      (∀ a, a ∉ L → h2 a = h a) ∧
      (∀ f, mergesort_outer cmp fuel0 (f + 1) h L.head? (k : Int) =
        (if n ≤ 1 then .ok (h2, out.getLast?)
         else mergesort_outer cmp fuel0 f h2 out.head? (wrapInt ((k : Int) * 2)))) ∧
      (∀ f, clist_void.mergesort_outer cmp fuel0 (f + 1) h L.head? (k : Int) =
        (if n ≤ 1 then .ok (h2, out.getLast?)
         else clist_void.mergesort_outer cmp fuel0 f h2 out.head?
           (wrapInt ((k : Int) * 2)))) := by
  obtain ⟨h1, h2, out, n, hpr, hr2, hone, hv2, hfr2, hset, hpass, -⟩ :=
    pass_ring cmp vf hr hne hv hk hkb hlb
  have hn : ((n : Nat) : Int) ≤ 1 ↔ n ≤ 1 := by omega
  refine ⟨h2, out, n, hpr, hr2, hone, hv2, hfr2, ?_, ?_⟩
  · intro f
    rw [mergesort_outer]
    simp only [bind, Except.bind]
    rw [hpass fuel0 fuel0 hf0 hf0]
    simp only [hset, pure, Except.pure, hn]
  · intro f
    rw [clist_void.mergesort_outer]
    simp only [bind, Except.bind]
    rw [clist_void_pass_eq cmp L.head? k fuel0 hkb, hpass fuel0 fuel0 hf0 hf0]
    simp only [hset, pure, Except.pure, hn]

/-- On a ring of `2^31` nodes at most, the outer loops of the two headers are the same function
of the memory, for all step budgets. -/
theorem clist_void_outer_eq (cmp : α → α → Int) (vf : Nat → α) (fuel0 : Nat) :
    ∀ (fuel : Nat) (L : List Nat) (h : Heap α) (k : Nat),
      IsRing h L → L ≠ [] → (∀ a ∈ L, (h a).map Node.value = some (vf a)) →
      0 < k → k < 2147483648 → L.length ≤ 2147483648 →
      clist_void.mergesort_outer cmp fuel0 fuel h L.head? (k : Int) =
        mergesort_outer cmp fuel0 fuel h L.head? (k : Int)
  | 0, _, _, _, _, _, _, _, _, _ => rfl
  | f + 1, L, h, k, hr, hne, hv, hk, hkb, hlb => by
    obtain ⟨h1, h2, out, n, hpr, hr2, hone, hv2, hfr2, hset, -, huniq⟩ :=
      pass_ring cmp vf hr hne hv hk hkb (by omega)
    have hperm := hpr.perm
    rw [clist_void.mergesort_outer, mergesort_outer]
    simp only [bind, Except.bind]
    rw [clist_void_pass_eq cmp L.head? k fuel0 hkb]
    cases e1 : mergesort_pass cmp L.head? (k : Int) fuel0 fuel0 h L.head? none none 0 with
    | error e => rfl
    | ok r =>
      rw [huniq fuel0 fuel0 r e1]
      simp only [hset, pure, Except.pure]
      by_cases hn1 : n ≤ 1
      · have hn : ((n : Nat) : Int) ≤ 1 := by omega
        simp only [hn, if_true]
      · have hn : ¬ ((n : Nat) : Int) ≤ 1 := by omega
        have hlen : ¬ (L.length ≤ 2 * k) := fun hle => hn1 (hpr.le_one_iff.2 hle)
        simp only [hn, if_false]
        rw [wrapInt_double (by omega)]
        exact clist_void_outer_eq cmp vf fuel0 f out h2 (k * 2) hr2 hone
          (fun a ha => by
            rw [hv2]
            exact hv a (hperm.mem_iff.1 ha))
          (by omega) (by omega) (by rw [hperm.length_eq]; exact hlb)

/-- The outer loop of `_clist_mergesort` on a ring of `2^31` nodes at most, for any
comparator: it returns, and what it leaves is a ring on the same nodes, in the order that the
passes of the merge sort give, which ends at the node it returns. -/
theorem outer_ring (cmp : α → α → Int) (vf : Nat → α) (fuel0 : Nat) :
    ∀ (fuel : Nat) (L : List Nat) (h : Heap α) (k : Nat),
      IsRing h L → L ≠ [] → (∀ a ∈ L, (h a).map Node.value = some (vf a)) →
      0 < k → k < 2147483648 → L.length ≤ 2147483648 → L.length < fuel0 →
      0 < fuel → L.length ≤ k * 2 ^ fuel →
      ∃ h1 out, mergesort_outer cmp fuel0 fuel h L.head? (k : Int) = .ok (h1, out.getLast?) ∧
        clist_void.mergesort_outer cmp fuel0 fuel h L.head? (k : Int) =
          .ok (h1, out.getLast?) ∧
        IsRing h1 out ∧ SortRel (leOf cmp vf) k L out ∧
        (∀ a, (h1 a).map Node.value = (h a).map Node.value) ∧
        (∀ a, a ∉ L → h1 a = h a)
  | 0, _, _, _, _, _, _, _, _, _, _, hf, _ => by omega
  | f + 1, L, h, k, hr, hne, hv, hk, hkb, hlb, hf0, _, hpow => by
    obtain ⟨h2, out, n, hpr, hr2, hone, hv2, hfr2, hstep, hstepo⟩ :=
      outer_step cmp vf fuel0 hr hne hv hk hkb hf0 (by omega)
    have hperm := hpr.perm
    have hmem : ∀ a, a ∈ out ↔ a ∈ L := fun a => hperm.mem_iff
    by_cases hn1 : n ≤ 1
    · refine ⟨h2, out, ?_, ?_, hr2, SortRel.last k L out n hpr hn1, hv2, hfr2⟩
      · rw [hstep, if_pos hn1]
      · rw [hstepo, if_pos hn1]
    · have hlen : ¬ (L.length ≤ 2 * k) := fun hle => hn1 (hpr.le_one_iff.2 hle)
      have hf1 : 0 < f := by
        rcases Nat.eq_zero_or_pos f with e | e
        · subst e
          simp at hpow
          omega
        · exact e
      obtain ⟨h3, out3, hrec, hreco, hr3, hs3, hv3, hfr3⟩ :=
        outer_ring cmp vf fuel0 f out h2 (k * 2) hr2 hone
          (fun a ha => by
            rw [hv2]
            exact hv a ((hmem a).1 ha))
          (by omega) (by omega)
          (by rw [hperm.length_eq]; exact hlb)
          (by rw [hperm.length_eq]; exact hf0) hf1
          (by
            rw [hperm.length_eq]
            calc L.length ≤ k * 2 ^ (f + 1) := hpow
              _ = k * 2 * 2 ^ f := by rw [pow_succ]; ring)
      obtain ⟨hd, hhd⟩ : ∃ hd, out.head? = some hd := by
        cases out with
        | nil => exact absurd rfl hone
        | cons b o1 => exact ⟨b, rfl⟩
      refine ⟨h3, out3, ?_, ?_, hr3, SortRel.next k L out out3 n hpr (by omega) hs3,
        fun a => by rw [hv3, hv2], ?_⟩
      · rw [hstep, if_neg hn1, wrapInt_double (by omega), hrec]
      · rw [hstepo, if_neg hn1, wrapInt_double (by omega), hreco]
      · intro a ha
        rw [hfr3 a (fun hm => ha ((hmem a).1 hm)), hfr2 a ha]

/-- The function `_clist_mergesort` on the head of a ring of `2^31` nodes at most, for any
comparator. -/
theorem mergesort_ring (cmp : α → α → Int) (vf : Nat → α) {h : Heap α} {x : Nat}
    {t : List Nat} (hr : IsRing h (x :: t))
    (hv : ∀ a ∈ x :: t, (h a).map Node.value = some (vf a))
    (hb : (x :: t).length ≤ 2147483648) {fuel : Nat} (hf : (x :: t).length < fuel) :
    ∃ h1 out tail, clist._clist_mergesort fuel h (some x) cmp = .ok (h1, some tail) ∧
      clist_void._clist_mergesort fuel h (some x) cmp = .ok (h1, some tail) ∧
      out.getLast? = some tail ∧ IsRing h1 out ∧ SortRel (leOf cmp vf) 1 (x :: t) out ∧
      (∀ a, (h1 a).map Node.value = (h a).map Node.value) ∧
      (∀ a, a ∉ x :: t → h1 a = h a) := by
  obtain ⟨h1, out, hrec, hreco, hr1, hs, hv1, hfr⟩ :=
    outer_ring cmp vf fuel fuel (x :: t) h 1 hr (by simp) hv (by decide) (by decide) hb hf
      (by omega)
      (by
        rw [Nat.one_mul]
        exact le_of_lt (lt_trans hf (Nat.lt_two_pow fuel)))
  have hone : out ≠ [] := by
    intro e
    have := hs.perm_nodes.length_eq
    simp [e] at this
  obtain ⟨o0, tl, rfl⟩ := exists_snoc_of_ne_nil hone
  refine ⟨h1, o0 ++ [tl], tl, ?_, ?_, by simp, hr1, hs, hv1, hfr⟩
  · rw [clist._clist_mergesort]
    simpa using hrec
  · rw [clist_void._clist_mergesort]
    simpa using hreco

/-- What `_cx_memb(_sort_with)` does to a well-formed list of `2^31` nodes at most, in terms
of the addresses. -/
theorem sort_with_nodes (cmp : α → α → Int)
    (htrans : ∀ x y z : α, cmp x y ≤ 0 → cmp y z ≤ 0 → cmp x z ≤ 0)
    (htotal : ∀ x y : α, cmp x y ≤ 0 ∨ cmp y x ≤ 0)
    {h : Heap α} {self : CList} {l : List Nat} (hl : IsList h self l) (vf : Nat → α)
    (hv : ∀ a ∈ l, (h a).map Node.value = some (vf a))
    (hb : l.length ≤ 2147483648) {fuel : Nat} (hf : l.length < fuel) :
    ∃ h1 self1 l1, sort_with fuel h self cmp = .ok (h1, self1) ∧ IsList h1 self1 l1 ∧
      l1.Perm l ∧ l1.Pairwise (fun a b => cmp (vf a) (vf b) ≤ 0) ∧
      (∀ a b, cmp (vf a) (vf b) ≤ 0 → List.Sublist [a, b] l → List.Sublist [a, b] l1) ∧
      (∀ a, (h1 a).map Node.value = (h a).map Node.value) ∧
      (∀ a, a ∉ l → h1 a = h a) := by
  by_cases hne : l = []
  · subst hne
    have hs : self.last = none := IsList_nil_iff.1 hl
    exact ⟨h, self, [], by simp [sort_with, hs, pure, Except.pure], hl, List.Perm.refl _,
      List.Pairwise.nil, fun _ _ _ hs => hs, fun _ => rfl, fun _ _ => rfl⟩
  · obtain ⟨l0, z, rfl⟩ := exists_snoc_of_ne_nil hne
    obtain ⟨hr, hs⟩ := IsList_snoc_iff.1 hl
    obtain ⟨a0, ha0, hza⟩ := hr.last_link
    obtain ⟨vz, hvz⟩ := Link_iff.1 hza
    have trans : ∀ a b c : Nat, leOf cmp vf a b = true → leOf cmp vf b c = true →
        leOf cmp vf a c = true := by
      intro a b c h1 h2
      simp only [leOf, decide_eq_true_eq] at h1 h2 ⊢
      exact htrans _ _ _ h1 h2
    have total : ∀ a b : Nat, (leOf cmp vf a b || leOf cmp vf b a) = true := by
      intro a b
      simp only [leOf, Bool.or_eq_true, decide_eq_true_eq]
      exact htotal _ _
    obtain ⟨h1, out, hrec, -, hr1, hsr, hv1, hfr1⟩ :=
      outer_ring cmp vf fuel fuel (l0 ++ [z]) h 1 hr hne hv (by omega) (by decide) hb hf
        (by omega)
        (by
          rw [Nat.one_mul]
          exact le_trans (Nat.le_of_lt hf) (Nat.le_of_lt (Nat.lt_two_pow fuel)))
    rw [ha0, Nat.cast_one] at hrec
    refine ⟨h1, ⟨out.getLast?⟩, out, ?_, ⟨hr1, rfl⟩, hsr.perm_nodes, ?_, ?_, hv1, hfr1⟩
    · simp [sort_with, hs, load, hvz, _clist_mergesort, hrec, bind, Except.bind, pure,
        Except.pure]
    · refine (hsr.sorted_nodes trans total (Runs.one _ _)).imp ?_
      intro a b hab
      simpa [leOf] using hab
    · intro a b hab hsub
      exact hsr.stable_nodes trans total (Runs.one _ _) a b (by simpa [leOf] using hab) hsub

end Outer
end STC

namespace STC
open clist

section Overflow
variable {α : Type}

/-- With `insize == 0` a turn of the loop `while (p)` moves nothing: `psize` and `qsize` are 0,
the merge loop is not entered and `p = q` leaves `p` where it was, so the pass never ends. -/
theorem pass_zero_stuck (cmp : α → α → Int) (oldhead : Ptr) (fuel0 : Nat) :
    ∀ (fuel : Nat) (h : Heap α) (a : Nat) (list tail : Ptr) (nmerges : Int),
      mergesort_pass cmp oldhead 0 fuel0 fuel h (some a) list tail nmerges =
        .error .outOfFuel
  | 0, _, _, _, _, _ => rfl
  | fuel + 1, h, a, list, tail, nmerges => by
    rw [mergesort_pass]
    cases fuel0 with
    | zero =>
      simp [mergesort_skip, mergesort_merge, bind, Except.bind, pure, Except.pure]
    | succ f0 =>
      simp only [ne_eq, reduceCtorEq, not_false_eq_true, if_true, Int.toNat_zero,
        mergesort_skip, mergesort_merge, bind, Except.bind, pure, Except.pure, not_true_eq_false,
        false_and, or_self, if_false]
      exact pass_zero_stuck cmp oldhead (f0 + 1) fuel h a list tail _

/-- The outer loop of `_clist_mergesort` entered with `insize == 0` never returns. -/
theorem outer_zero_stuck (cmp : α → α → Int) (fuel0 fuel : Nat) (h : Heap α) (a : Nat) :
    mergesort_outer cmp fuel0 fuel h (some a) 0 = .error .outOfFuel := by
  cases fuel with
  | zero => rfl
  | succ f =>
    rw [mergesort_outer]
    simp only [bind, Except.bind, pass_zero_stuck]

/-- In the older header, with `insize <= 0` a turn of the loop `while (p)` moves nothing:
`psize > 0` and `qsize > 0` are both false, so the pass never ends. -/
theorem clist_void_pass_stuck (cmp : α → α → Int) (oldhead : Ptr) (insize : Int)
    (hi : insize ≤ 0) (fuel0 : Nat) :
    ∀ (fuel : Nat) (h : Heap α) (a : Nat) (list tail : Ptr) (nmerges : Int),
      clist_void.mergesort_pass cmp oldhead insize fuel0 fuel h (some a) list tail nmerges =
        .error .outOfFuel
  | 0, _, _, _, _, _ => rfl
  | fuel + 1, h, a, list, tail, nmerges => by
    have ht : insize.toNat = 0 := Int.toNat_eq_zero.2 hi
    have hq : ¬ (0 < insize) := by omega
    rw [clist_void.mergesort_pass]
    cases fuel0 with
    | zero =>
      simp [ht, mergesort_skip, clist_void.mergesort_merge, bind, Except.bind, pure,
        Except.pure]
    | succ f0 =>
      simp only [ne_eq, reduceCtorEq, not_false_eq_true, if_true, ht,
        mergesort_skip, clist_void.mergesort_merge, bind, Except.bind, pure, Except.pure,
        lt_self_iff_false, hq, false_and, or_self, if_false]
      exact clist_void_pass_stuck cmp oldhead insize hi (f0 + 1) fuel h a list tail _

/-- The outer loop of the older header entered with `insize <= 0` never returns. -/
theorem clist_void_outer_stuck (cmp : α → α → Int) (fuel0 fuel : Nat) (h : Heap α) (a : Nat)
    (insize : Int) (hi : insize ≤ 0) :
    clist_void.mergesort_outer cmp fuel0 fuel h (some a) insize = .error .outOfFuel := by
  cases fuel with
  | zero => rfl
  | succ f =>
    rw [clist_void.mergesort_outer]
    simp only [bind, Except.bind, clist_void_pass_stuck cmp (some a) insize hi]


theorem wrapInt_below : wrapInt (-2147483648 - 1) = ((2147483647 : Nat) : Int) := by
  unfold wrapInt
  omega

/-- The merge loop entered with `psize == 0` and the overflowed `qsize == INT_MIN`: its first
turn takes the node at `q` and `--qsize` overflows to `INT_MAX`; it then takes nodes from `q`
until `INT_MAX` more are taken or the ring ends. -/
theorem merge_below (cmp : α → α → Int) (vf : Nat → α) (oh : Nat) (fuel : Nat)
    {h h1 : Heap α} (p : Ptr) {y : Nat} {out qs : List Nat}
    (hstep : mergesort_step h (some oh) (some y) = .ok qs.head?)
    (happ : mergesort_append h out.head? out.getLast? (some y) = .ok (h1, (out ++ [y]).head?))
    (hm : MState h1 vf oh (out ++ [y]) [] qs)
    (hf : (qs.take 2147483647).length < fuel) :
    ∃ h2, mergesort_merge cmp (some oh) (fuel + 1) h p (some y) 0 (-2147483648)
          out.head? out.getLast? =
        .ok (h2, (qs.drop 2147483647).head?, (out ++ [y] ++ qs.take 2147483647).head?,
          (out ++ [y] ++ qs.take 2147483647).getLast?) ∧
      MState h2 vf oh (out ++ [y] ++ qs.take 2147483647) [] (qs.drop 2147483647) := by
  obtain ⟨h2, hmg, hm2, -, -⟩ :=
    merge_spec cmp vf oh fuel [] qs (out ++ [y]) h1 p 2147483647 hm (by simp)
      (by simpa using hf) (by simp) (by norm_num)
  refine ⟨h2, ?_, by simpa using hm2⟩
  rw [mergesort_merge]
  simp only [List.length_nil, Nat.cast_zero, List.getLast?_concat, List.nil_merge] at hmg
  simp only [ne_eq, reduceCtorEq, not_false_eq_true, and_true, mergesort_left_zero, bind,
    Except.bind, hstep, happ, wrapInt_below, hmg]
  simp

/-- The pass of `_clist_mergesort` entered with the overflowed `insize == INT_MIN` on a ring of
more than `2^31` and at most `2^32` nodes: the `for` loop is not entered, each turn takes `2^31`
nodes from `q` in their order, and the pass ends after two turns with the ring as it was. -/
theorem pass_below (cmp : α → α → Int) (vf : Nat → α) {L : List Nat} {h : Heap α}
    (hr : IsRing h L) (hv : ∀ a ∈ L, (h a).map Node.value = some (vf a))
    (hl1 : 2147483648 < L.length) (hl2 : L.length ≤ 4294967296) :
    ∃ h1, ∀ fuel0 fuel, L.length < fuel0 → 2 < fuel →
      mergesort_pass cmp L.head? (-2147483648) fuel0 fuel h L.head? none none 0 =
        .ok (h1, L.head?, L.getLast?, 2) := by
  obtain ⟨a0, L', rfl⟩ : ∃ a0 L', L = a0 :: L' := by
    cases L with
    | nil => simp at hl1
    | cons a0 L' => exact ⟨a0, L', rfl⟩
  simp only [List.length_cons] at hl1 hl2
  have hring := IsRing_cons_iff.1 hr
  have hoh : a0 ∉ L' := (List.nodup_cons.1 hring.1).1
  have hstep1 : mergesort_step h (some a0) (some a0) = .ok L'.head? :=
    mergesort_step_chain hring.2 hoh
  have happ1 : mergesort_append h ([] : List Nat).head? ([] : List Nat).getLast? (some a0) =
      .ok (h, ([] ++ [a0]).head?) := rfl
  have hm1 : MState h vf a0 ([] ++ [a0]) [] L' := by
    refine ⟨by simpa using hring.1, by simpa using hv, by simp, by simp, ?_, by simp, hoh⟩
    have := hring.2
    rw [List.cons_append] at this
    exact this.tail
  obtain ⟨h2, hmg1, hm2⟩ := merge_below cmp vf a0 L'.length (some a0) hstep1
    happ1 hm1 (by
      simp only [List.length_take]
      omega)
  obtain ⟨y, qs2, hdrop⟩ : ∃ y qs2, L'.drop 2147483647 = y :: qs2 := by
    cases e : L'.drop 2147483647 with
    | nil =>
      have := congrArg List.length e
      simp only [List.length_drop, List.length_nil] at this
      omega
    | cons y qs2 => exact ⟨y, qs2, rfl⟩
  have hlen2 : qs2.length + 2147483648 = L'.length := by
    have := congrArg List.length hdrop
    simp only [List.length_drop, List.length_cons] at this
    omega
  rw [hdrop] at hm2 hmg1
  obtain ⟨h3, hstep2, happ2, hm3, -, -⟩ := hm2.takeQ
  obtain ⟨h4, hmg2, -⟩ := merge_below cmp vf a0 L'.length (some y) hstep2
    happ2 hm3 (by
      simp only [List.length_take]
      omega)
  have htake : qs2.take 2147483647 = qs2 := List.take_of_length_le (by omega)
  have hdrop2 : qs2.drop 2147483647 = [] := List.drop_of_length_le (by omega)
  have hall : [] ++ [a0] ++ L'.take 2147483647 ++ [y] ++ qs2 = a0 :: L' := by
    simp only [List.nil_append, List.singleton_append, List.cons_append, List.append_assoc,
      ← hdrop, List.take_append_drop]
  rw [htake, hdrop2, hall] at hmg2
  refine ⟨h4, fun fuel0 fuel hf0 hf => ?_⟩
  simp only [List.length_cons] at hf0
  obtain ⟨f, rfl⟩ : ∃ f, fuel = f + 3 := ⟨fuel - 3, by omega⟩
  have ht : (-2147483648 : Int).toNat = 0 := by decide
  have e1 := merge_budget cmp (some a0) (by omega : L'.length + 1 ≤ fuel0) hmg1
  have e2 := merge_budget cmp (some a0) (by omega : L'.length + 1 ≤ fuel0) hmg2
  simp only [List.head?_nil, List.getLast?_nil, List.head?_cons] at e1 e2
  have hw1 : wrapInt (0 + 1) = 1 := by decide
  have hw2 : wrapInt (1 + 1) = 2 := by decide
  rw [mergesort_pass]
  simp only [List.head?_cons, ne_eq, reduceCtorEq, not_false_eq_true, if_true, ht,
    mergesort_skip, bind, Except.bind, pure, Except.pure, e1]
  rw [mergesort_pass]
  simp only [List.head?_cons, ne_eq, reduceCtorEq, not_false_eq_true, if_true, ht,
    mergesort_skip, bind, Except.bind, pure, Except.pure, e2]
  rw [mergesort_pass]
  simp only [List.head?_nil, ne_eq, not_true_eq_false, if_false, pure, Except.pure, hw1, hw2]


/-- The outer loop of `_clist_mergesort` entered with the overflowed `insize == INT_MIN` on a
ring of more than `2^31` and at most `2^32` nodes never returns: the pass makes two merges,
`insize *= 2` overflows again, to 0, and the next pass never ends. -/
theorem outer_below_stuck (cmp : α → α → Int) (vf : Nat → α) {L : List Nat} {h : Heap α}
    (hr : IsRing h L) (hv : ∀ a ∈ L, (h a).map Node.value = some (vf a))
    (hl1 : 2147483648 < L.length) (hl2 : L.length ≤ 4294967296) (fuel0 fuel : Nat)
    (r : Heap α × Ptr) :
    mergesort_outer cmp fuel0 fuel h L.head? (-2147483648) ≠ .ok r := by
  obtain ⟨h1, hpass⟩ := pass_below cmp vf hr hv hl1 hl2
  obtain ⟨a0, ha0⟩ : ∃ a0, L.head? = some a0 := by
    cases L with
    | nil => simp at hl1
    | cons a0 L' => exact ⟨a0, rfl⟩
  cases fuel with
  | zero => simp [mergesort_outer]
  | succ f =>
    rw [mergesort_outer]
    simp only [bind, Except.bind]
    cases e1 : mergesort_pass cmp L.head? (-2147483648) fuel0 fuel0 h L.head? none none 0 with
    | error e => simp
    | ok x =>
      have e2 := pass_budget cmp L.head? (-2147483648)
        (le_max_left fuel0 (L.length + 3)) fuel0 (max fuel0 (L.length + 3)) h L.head? none
        none 0 x (le_max_left _ _) e1
      rw [hpass _ _ (lt_of_lt_of_le (by omega) (le_max_right fuel0 (L.length + 3)))
        (lt_of_lt_of_le (by omega) (le_max_right fuel0 (L.length + 3)))] at e2
      rw [← Except.ok.inj e2]
      simp only []
      cases setNext h1 L.getLast? L.head? with
      | error e => simp
      | ok h2 =>
        have hw : wrapInt (-2147483648 * 2) = 0 := by decide
        simp only [pure, Except.pure, hw, ha0, outer_zero_stuck]
        simp

/-- On a ring of more than `2^31` nodes (and fewer than `2^32 - 2`) the outer loop of
`_clist_mergesort` never returns, whatever the step budgets: every pass with `insize` up to
`2^30` makes more than one merge, so that `insize *= 2` overflows. -/
theorem outer_overflow (cmp : α → α → Int) (vf : Nat → α) (fuel0 : Nat) :
    ∀ (fuel : Nat) (L : List Nat) (h : Heap α) (k m : Nat),
      IsRing h L → (∀ a ∈ L, (h a).map Node.value = some (vf a)) →
      k * 2 ^ m = 1073741824 → 2147483648 < L.length → L.length < 4294967294 →
      ∀ r, mergesort_outer cmp fuel0 fuel h L.head? (k : Int) ≠ .ok r
  | 0, _, _, _, _, _, _, _, _, _, _ => by simp [mergesort_outer]
  | f + 1, L, h, k, m, hr, hv, hkm, hl1, hl2, r => by
    have hne : L ≠ [] := by
      intro e
      simp [e] at hl1
    have hk : 0 < k := by
      rcases Nat.eq_zero_or_pos k with e | e
      · simp [e] at hkm
      · exact e
    have hk30 : k ≤ 1073741824 := by
      calc k = k * 1 := (Nat.mul_one k).symm
        _ ≤ k * 2 ^ m := Nat.mul_le_mul_left k (Nat.one_le_two_pow)
        _ = 1073741824 := hkm
    obtain ⟨h1, h2, out, n, hpr, hr2, hone, hv2, -, hset, -, huniq⟩ :=
      pass_ring cmp vf hr hne hv hk (by omega) (by omega)
    have hperm := hpr.perm
    have hn1 : ¬ n ≤ 1 := fun hle => by
      have := hpr.le_one_iff.1 hle
      omega
    have hn : ¬ ((n : Nat) : Int) ≤ 1 := by omega
    have hv2' : ∀ a ∈ out, (h2 a).map Node.value = some (vf a) := fun a ha => by
      rw [hv2]
      exact hv a (hperm.mem_iff.1 ha)
    rw [mergesort_outer]
    simp only [bind, Except.bind]
    cases e1 : mergesort_pass cmp L.head? (k : Int) fuel0 fuel0 h L.head? none none 0 with
    | error e => simp
    | ok x =>
      rw [huniq fuel0 fuel0 x e1]
      simp only [hset, hn, if_false]
      cases m with
      | zero =>
        have hk1 : k = 1073741824 := by simpa using hkm
        have hw : wrapInt (((1073741824 : Nat) : Int) * 2) = -2147483648 := by decide
        rw [hk1, hw]
        exact outer_below_stuck cmp vf hr2 hv2' (by rw [hperm.length_eq]; exact hl1)
          (by rw [hperm.length_eq]; omega) fuel0 f r
      | succ m1 =>
        have hkm1 : k * 2 * 2 ^ m1 = 1073741824 := by
          rw [← hkm, pow_succ]
          ring
        have hk2 : k * 2 ≤ 1073741824 := by
          calc k * 2 = k * 2 * 1 := (Nat.mul_one _).symm
            _ ≤ k * 2 * 2 ^ m1 := Nat.mul_le_mul_left _ (Nat.one_le_two_pow)
            _ = 1073741824 := hkm1
        rw [wrapInt_double (by omega)]
        exact outer_overflow cmp vf fuel0 f out h2 (k * 2) m1 hr2 hv2' hkm1
          (by rw [hperm.length_eq]; exact hl1) (by rw [hperm.length_eq]; exact hl2) r

/-- The outer loop of the older header never returns either on such a ring: `insize` overflows
to `INT_MIN` after the pass with `insize == 2^30`, and the next pass never ends. -/
theorem clist_void_outer_overflow (cmp : α → α → Int) (vf : Nat → α) (fuel0 : Nat) :
    ∀ (fuel : Nat) (L : List Nat) (h : Heap α) (k m : Nat),
      IsRing h L → (∀ a ∈ L, (h a).map Node.value = some (vf a)) →
      k * 2 ^ m = 1073741824 → 2147483648 < L.length → L.length < 4294967294 →
      ∀ r, clist_void.mergesort_outer cmp fuel0 fuel h L.head? (k : Int) ≠ .ok r
  | 0, _, _, _, _, _, _, _, _, _, _ => by simp [clist_void.mergesort_outer]
  | f + 1, L, h, k, m, hr, hv, hkm, hl1, hl2, r => by
    have hne : L ≠ [] := by
      intro e
      simp [e] at hl1
    have hk : 0 < k := by
      rcases Nat.eq_zero_or_pos k with e | e
      · simp [e] at hkm
      · exact e
    have hk30 : k ≤ 1073741824 := by
      calc k = k * 1 := (Nat.mul_one k).symm
        _ ≤ k * 2 ^ m := Nat.mul_le_mul_left k (Nat.one_le_two_pow)
        _ = 1073741824 := hkm
    obtain ⟨h1, h2, out, n, hpr, hr2, hone, hv2, -, hset, -, huniq⟩ :=
      pass_ring cmp vf hr hne hv hk (by omega) (by omega)
    have hperm := hpr.perm
    have hn1 : ¬ n ≤ 1 := fun hle => by
      have := hpr.le_one_iff.1 hle
      omega
    have hn : ¬ ((n : Nat) : Int) ≤ 1 := by omega
    have hv2' : ∀ a ∈ out, (h2 a).map Node.value = some (vf a) := fun a ha => by
      rw [hv2]
      exact hv a (hperm.mem_iff.1 ha)
    obtain ⟨b0, hb0⟩ : ∃ b0, out.head? = some b0 := by
      cases out with
      | nil => exact absurd rfl hone
      | cons b o1 => exact ⟨b, rfl⟩
    rw [clist_void.mergesort_outer]
    simp only [bind, Except.bind]
    rw [clist_void_pass_eq cmp L.head? k fuel0 (by omega)]
    cases e1 : mergesort_pass cmp L.head? (k : Int) fuel0 fuel0 h L.head? none none 0 with
    | error e => simp
    | ok x =>
      rw [huniq fuel0 fuel0 x e1]
      simp only [hset, hn, if_false]
      cases m with
      | zero =>
        have hk1 : k = 1073741824 := by simpa using hkm
        have hw : wrapInt (((1073741824 : Nat) : Int) * 2) = -2147483648 := by decide
        rw [hk1, hw, hb0, clist_void_outer_stuck cmp fuel0 f h2 b0 _ (by decide)]
        simp
      | succ m1 =>
        have hkm1 : k * 2 * 2 ^ m1 = 1073741824 := by
          rw [← hkm, pow_succ]
          ring
        have hk2 : k * 2 ≤ 1073741824 := by
          calc k * 2 = k * 2 * 1 := (Nat.mul_one _).symm
            _ ≤ k * 2 * 2 ^ m1 := Nat.mul_le_mul_left _ (Nat.one_le_two_pow)
            _ = 1073741824 := hkm1
        rw [wrapInt_double (by omega)]
        exact clist_void_outer_overflow cmp vf fuel0 f out h2 (k * 2) m1 hr2 hv2' hkm1
          (by rw [hperm.length_eq]; exact hl1) (by rw [hperm.length_eq]; exact hl2) r

end Overflow
end STC


namespace STC
open clist

section Walk
variable {α : Type}

theorem Link.functional {h : Heap α} {a b c : Nat} (h1 : Link h a b) (h2 : Link h a c) : b = c := by
  unfold Link at h1 h2
  rw [h1] at h2
  simpa using h2

theorem chain_unique {h : Heap α} {z : Nat} :
    ∀ (r r1 : List Nat) (x : Nat), List.Chain' (Link h) (x :: r ++ [z]) →
      List.Chain' (Link h) (x :: r1 ++ [z]) → z ∉ r → z ∉ r1 → r = r1
  | [], [], _, _, _, _, _ => rfl
  | [], y :: r1, x, hc, hc1, _, hz1 => by
    simp only [List.cons_append, List.nil_append, List.chain'_cons] at hc hc1
    exact absurd (hc.1.functional hc1.1) (fun e => hz1 (by simp [e]))
  | y :: r, [], x, hc, hc1, hz, _ => by
    simp only [List.cons_append, List.nil_append, List.chain'_cons] at hc hc1
    exact absurd (hc1.1.functional hc.1) (fun e => hz (by simp [e]))
  | y :: r, y1 :: r1, x, hc, hc1, hz, hz1 => by
    simp only [List.cons_append, List.chain'_cons] at hc hc1
    have e := hc.1.functional hc1.1
    subst e
    rw [chain_unique r r1 y (by simpa using hc.2) (by simpa using hc1.2)
      (fun hm => hz (by simp [hm])) (fun hm => hz1 (by simp [hm]))]

/-- The nodes of a well-formed list are determined by the memory and the handle. -/
theorem IsList.unique {h : Heap α} {self : CList} {l l1 : List Nat} (hl : IsList h self l)
    (hl1 : IsList h self l1) : l = l1 := by
  rcases List.eq_nil_or_concat l with rfl | ⟨l0, z, rfl⟩
  · have hs : self.last = none := IsList_nil_iff.1 hl
    have := hl1.2
    rw [hs] at this
    exact (List.getLast?_eq_none_iff.1 this.symm).symm
  · rw [List.concat_eq_append] at hl ⊢
    obtain ⟨hr, hs⟩ := IsList_snoc_iff.1 hl
    rcases List.eq_nil_or_concat l1 with rfl | ⟨l2, z1, rfl⟩
    · have := IsList_nil_iff.1 hl1
      rw [hs] at this
      simp at this
    · rw [List.concat_eq_append] at hl1 ⊢
      obtain ⟨hr1, hs1⟩ := IsList_snoc_iff.1 hl1
      rw [hs] at hs1
      simp at hs1
      subst hs1
      have hrot : IsRing h ([z] ++ l0) := hr.rotate
      have hrot1 : IsRing h ([z] ++ l2) := hr1.rotate
      have c := (IsRing_cons_iff.1 hrot).2
      have c1 := (IsRing_cons_iff.1 hrot1).2
      have n := hrot.nodup
      have n1 := hrot1.nodup
      simp only [List.singleton_append, List.nodup_cons] at n n1
      rw [chain_unique l0 l2 z c c1 n.1 n1.1]

theorem walk_chain {h : Heap α} :
    ∀ (r : List Nat) (x b k : Nat), List.Chain' (Link h) (x :: r ++ [b]) → k ≤ r.length + 1 →
      walk h k x = (x :: r ++ [b])[k]?
  | _, _, _, 0, _, _ => by simp [walk]
  | [], x, b, k + 1, hc, hk => by
    obtain rfl : k = 0 := by simp at hk; omega
    simp only [List.cons_append, List.nil_append, List.chain'_cons, List.chain'_singleton,
      and_true] at hc
    obtain ⟨v, hv⟩ := Link_iff.1 hc
    simp [walk, hv]
  | y :: r, x, b, k + 1, hc, hk => by
    simp only [List.cons_append, List.chain'_cons] at hc
    obtain ⟨v, hv⟩ := Link_iff.1 hc.1
    have ih := walk_chain r y b k (by simpa using hc.2) (by simp at hk; omega)
    simp only [walk, hv, ih]
    simp

theorem IsList.returnsAfterCount {h : Heap α} {self : CList} {l : List Nat}
    (hl : IsList h self l) : ReturnsAfterCount h self := by
  intro z hz
  rcases List.eq_nil_or_concat l with rfl | ⟨l0, z1, rfl⟩
  · have := IsList_nil_iff.1 hl
    rw [hz] at this
    simp at this
  · rw [List.concat_eq_append] at hl
    obtain ⟨hr, hs⟩ := IsList_snoc_iff.1 hl
    rw [hz] at hs
    simp at hs
    subst hs
    have hrot : IsRing h ([z] ++ l0) := hr.rotate
    have c := (IsRing_cons_iff.1 hrot).2
    have n := hrot.nodup
    simp only [List.singleton_append, List.nodup_cons] at n
    refine ⟨l0.length + 1, by omega, ?_, ?_, ?_⟩
    · intro fuel hf
      have := count_of_IsList hl fuel (by simpa using hf)
      simpa using this
    · rw [walk_chain l0 z z (l0.length + 1) c (le_refl _)]
      simp only [List.singleton_append, List.cons_append]
      rw [List.getElem?_cons_succ, List.getElem?_append_right (le_refl _)]
      simp
    · intro k hk0 hk1 hw
      rw [walk_chain l0 z z k c (by omega)] at hw
      obtain ⟨j, rfl⟩ : ∃ j, k = j + 1 := ⟨k - 1, by omega⟩
      simp only [List.singleton_append, List.cons_append, List.getElem?_cons_succ] at hw
      rw [List.getElem?_append_left (by omega)] at hw
      have : z ∈ l0 := List.getElem?_mem hw
      exact n.1 this

end Walk
end STC

namespace STC
open clist

section Giant
variable {α : Type}

/-- On the head of a ring of more than `2^31` nodes (and fewer than `2^32 - 2`), neither
`_clist_mergesort` returns, whatever the step budget. -/
theorem mergesort_overflow (cmp : α → α → Int) {h : Heap α} {x : Nat} {t : List Nat}
    (hr : IsRing h (x :: t)) (hl1 : 2147483648 < (x :: t).length)
    (hl2 : (x :: t).length < 4294967294) (fuel : Nat) (r : Heap α × Ptr) :
    clist._clist_mergesort fuel h (some x) cmp ≠ .ok r ∧
      clist_void._clist_mergesort fuel h (some x) cmp ≠ .ok r := by
  obtain ⟨vf, hvf⟩ := exists_vf hr (by simp)
  constructor
  · rw [clist._clist_mergesort]
    have := outer_overflow cmp vf fuel fuel (x :: t) h 1 30 hr hvf (by norm_num) hl1 hl2 r
    simpa using this
  · rw [clist_void._clist_mergesort]
    have := clist_void_outer_overflow cmp vf fuel fuel (x :: t) h 1 30 hr hvf (by norm_num)
      hl1 hl2 r
    simpa using this

/-- On the head of a ring of `2^31` nodes at most, the `_clist_mergesort` of the two headers
are the same function of the memory, for every step budget. -/
theorem clist_void_mergesort_eq (cmp : α → α → Int) {h : Heap α} {x : Nat} {t : List Nat}
    (hr : IsRing h (x :: t)) (hb : (x :: t).length ≤ 2147483648) (fuel : Nat) :
    clist_void._clist_mergesort fuel h (some x) cmp =
      clist._clist_mergesort fuel h (some x) cmp := by
  obtain ⟨vf, hvf⟩ := exists_vf hr (by simp)
  rw [clist_void._clist_mergesort, clist._clist_mergesort]
  have := clist_void_outer_eq cmp vf fuel fuel (x :: t) h 1 hr (by simp) hvf (by decide)
    (by decide) hb
  simpa using this

/-- The head of a non-empty well-formed list is the node after its last node. -/
theorem IsList.head_ring {h : Heap α} {self : CList} {l : List Nat} (hl : IsList h self l)
    (hne : self.last ≠ none) :
    ∃ z nz a0 t, self.last = some z ∧ h z = some nz ∧ nz.next = some a0 ∧ l = a0 :: t := by
  have hl0 : l ≠ [] := by
    intro e
    subst e
    exact hne (IsList_nil_iff.1 hl)
  obtain ⟨l0, z, rfl⟩ := exists_snoc_of_ne_nil hl0
  obtain ⟨hr, hs⟩ := IsList_snoc_iff.1 hl
  obtain ⟨a0, ha0, hza⟩ := hr.last_link
  obtain ⟨vz, hvz⟩ := Link_iff.1 hza
  refine ⟨z, ⟨some a0, vz⟩, a0, ?_, hs, hvz, rfl, ?_⟩
  · exact (l0 ++ [z]).tail
  · cases l0 with
    | nil =>
      simp only [List.nil_append, List.head?_cons, Option.some.injEq] at ha0
      simp [ha0]
    | cons b l1 =>
      simp only [List.cons_append, List.head?_cons, Option.some.injEq] at ha0
      simp [ha0]

/-- On a well-formed list of more than `2^31` nodes (and fewer than `2^32 - 2`),
`_cx_memb(_sort_with)` does not return, whatever the step budget. -/
theorem sort_with_overflow (cmp : α → α → Int) {h : Heap α} {self : CList} {l : List Nat}
    (hl : IsList h self l) (hl1 : 2147483648 < l.length) (hl2 : l.length < 4294967294)
    (fuel : Nat) (r : Heap α × CList) : sort_with fuel h self cmp ≠ .ok r := by
  have hne : l ≠ [] := by
    intro e
    simp [e] at hl1
  obtain ⟨l0, z, rfl⟩ := exists_snoc_of_ne_nil hne
  obtain ⟨hr, hs⟩ := IsList_snoc_iff.1 hl
  obtain ⟨a0, ha0, hza⟩ := hr.last_link
  obtain ⟨vz, hvz⟩ := Link_iff.1 hza
  obtain ⟨t, ht⟩ : ∃ t, l0 ++ [z] = a0 :: t := by
    cases l0 with
    | nil =>
      simp only [List.nil_append, List.head?_cons, Option.some.injEq] at ha0
      exact ⟨[], by simp [ha0]⟩
    | cons b l1 =>
      simp only [List.cons_append, List.head?_cons, Option.some.injEq] at ha0
      exact ⟨l1 ++ [z], by simp [ha0]⟩
  rw [ht] at hr hl1 hl2
  simp only [sort_with, hs, ne_eq, reduceCtorEq, not_false_eq_true, if_true, load, hvz, bind,
    Except.bind, pure, Except.pure]
  cases e : clist._clist_mergesort fuel h (some a0) cmp with
  | error e1 => simp
  | ok r1 => exact absurd e (mergesort_overflow cmp hr hl1 hl2 fuel r1).1

theorem ringHeap_link {n a : Nat} (ha : a + 1 < n) : Link (ringHeap n) a (a + 1) := by
  have h1 : a < n := by omega
  have h2 : a + 1 ≠ n := by omega
  simp [Link, ringHeap, h1, h2]

theorem ringHeap_link_last (m : Nat) : Link (ringHeap (m + 1)) m 0 := by
  simp [Link, ringHeap]

theorem chain_range {h : Heap α} (e : Nat) :
    ∀ (m s : Nat), (∀ a, s ≤ a → a < s + m → Link h a (a + 1)) → Link h (s + m) e →
      List.Chain' (Link h) (List.range' s (m + 1) ++ [e])
  | 0, s, _, hlast => by
    simpa [List.range'] using hlast
  | m + 1, s, hstep, hlast => by
    have ih := chain_range e m (s + 1) (fun a h1 h2 => hstep a (by omega) (by omega))
      (by
        have : s + 1 + m = s + (m + 1) := by omega
        rw [this]
        exact hlast)
    have e1 : List.range' s (m + 1 + 1) = s :: List.range' (s + 1) (m + 1) := rfl
    have e2 : List.range' (s + 1) (m + 1) = (s + 1) :: List.range' (s + 1 + 1) m := rfl
    rw [e1, List.cons_append, List.chain'_cons']
    refine ⟨?_, ih⟩
    intro y hy
    rw [e2] at hy
    simp only [List.cons_append, List.head?_cons, Option.mem_def, Option.some.injEq] at hy
    subst hy
    exact hstep s (le_refl s) (by omega)

/-- The memory `ringHeap (m + 1)` holds a ring on the addresses `0, 1, ..., m`. -/
theorem ringHeap_isRing (m : Nat) : IsRing (ringHeap (m + 1)) (0 :: List.range' 1 m) := by
  rw [IsRing_cons_iff]
  have e1 : (0 :: List.range' 1 m) = List.range' 0 (m + 1) := rfl
  rw [e1]
  refine ⟨List.nodup_range' 0 (m + 1), ?_⟩
  apply chain_range 0 m 0
  · intro a _ ha
    exact ringHeap_link (by omega)
  · rw [Nat.zero_add]
    exact ringHeap_link_last m

/-- The handle whose last node is at the address `m` is a well-formed list on
`ringHeap (m + 1)`. -/
theorem ringHeap_isList (m : Nat) :
    IsList (ringHeap (m + 1)) ⟨some m⟩ (0 :: List.range' 1 m) := by
  refine ⟨ringHeap_isRing m, ?_⟩
  cases m with
  | zero => rfl
  | succ k =>
    have e1 : (0 :: List.range' 1 (k + 1)) = List.range' 0 (k + 1) ++ [k + 1] := by
      have : List.range' 0 (k + 1 + 1) = List.range' 0 (k + 1) ++ [0 + 1 * (k + 1)] :=
        List.range'_concat 0 (k + 1)
      simpa using this
    rw [e1, List.getLast?_concat]

end Giant
end STC

namespace STC
open clist

section Claims
variable {α : Type}

theorem exList_wf : IsList exHeap exList [1, 2, 3] := by decide

theorem exPairs_wf : IsList exPairs ⟨some 3⟩ [1, 2, 3] := by decide

theorem exHeapAsc_wf : IsList exHeapAsc ⟨some 3⟩ [1, 2, 3] := by decide

theorem c_default_cmp_trans (x y z : Int) (h1 : c_default_cmp x y ≤ 0)
    (h2 : c_default_cmp y z ≤ 0) : c_default_cmp x z ≤ 0 := by
  unfold c_default_cmp at *
  split_ifs at * <;> omega

theorem c_default_cmp_total (x y : Int) : c_default_cmp x y ≤ 0 ∨ c_default_cmp y x ≤ 0 := by
  unfold c_default_cmp
  split_ifs <;> omega

theorem cmpCyclic_total (x y : Int) : cmpCyclic x y ≤ 0 ∨ cmpCyclic y x ≤ 0 := by
  unfold cmpCyclic
  split_ifs <;> omega

theorem cmpClasses_trans (x y z : Int) (h1 : cmpClasses x y ≤ 0) (h2 : cmpClasses y z ≤ 0) :
    cmpClasses x z ≤ 0 := by
  unfold cmpClasses at *
  split_ifs at * <;> omega

/-- C1: for every well-formed list of `2^31` nodes at most (the empty one included) and every
comparator that is a total preorder, `sort` (which is `sort_with` on the comparator of the
values) returns, leaves a well-formed list, and the value sequence of that list from head to
last is non-decreasing under the comparator and a permutation of the value sequence before
the call.  On a well-formed list of more than `2^31` nodes (and fewer than `2^32 - 2`) the
counter `int insize` overflows at `insize *= 2` and `sort` does not return, whatever the
step budget: the list is not sorted. -/
theorem sort_sorted_perm (cmp : α → α → Int)
    (htrans : ∀ x y z : α, cmp x y ≤ 0 → cmp y z ≤ 0 → cmp x z ≤ 0)
    (htotal : ∀ x y : α, cmp x y ≤ 0 ∨ cmp y x ≤ 0)
    (h : Heap α) (self : CList) (l : List Nat) (hl : IsList h self l) :
    (l.length ≤ 2147483648 → ∀ fuel, l.length < fuel →
      ∃ h1 self1 l1, sort cmp fuel h self = .ok (h1, self1) ∧
        sort_with fuel h self cmp = .ok (h1, self1) ∧
        IsList h1 self1 l1 ∧
        (vals h1 l1).Pairwise (fun x y => cmp x y ≤ 0) ∧
        (vals h1 l1).Perm (vals h l)) ∧
    (2147483648 < l.length → l.length < 4294967294 →
      ∀ fuel r, sort cmp fuel h self ≠ .ok r ∧ sort_with fuel h self cmp ≠ .ok r) := by
  constructor
  · intro hb fuel hf
    by_cases hne : l = []
    · subst hne
      have hs : self.last = none := IsList_nil_iff.1 hl
      exact ⟨h, self, [], by simp [sort, sort_with, hs, pure, Except.pure],
        by simp [sort_with, hs, pure, Except.pure], hl, by simp [vals], by simp [vals]⟩
    · obtain ⟨vf, hvf⟩ := exists_vf hl.1 hne
      obtain ⟨h1, self1, l1, hs, hl1, hp, hsorted, -, hv1, -⟩ :=
        sort_with_nodes cmp htrans htotal hl vf hvf hb hf
      have hvf1 : ∀ a ∈ l1, (h1 a).map Node.value = some (vf a) := by
        intro a ha
        rw [hv1]
        exact hvf a (hp.mem_iff.1 ha)
      refine ⟨h1, self1, l1, hs, hs, hl1, ?_, ?_⟩
      · rw [vals_eq_map hvf1, List.pairwise_map]
        exact hsorted
      · rw [vals_eq_map hvf1, vals_eq_map hvf]
        exact hp.map vf
  · intro hl1 hl2 fuel r
    exact ⟨sort_with_overflow cmp hl hl1 hl2 fuel r, sort_with_overflow cmp hl hl1 hl2 fuel r⟩

theorem sort_sorted_perm_witness :
    (IsList exHeap exList [1, 2, 3] ∧
      (∃ h1 self1 l1, sort c_default_cmp 4 exHeap exList = .ok (h1, self1) ∧
        sort_with 4 exHeap exList c_default_cmp = .ok (h1, self1) ∧
        IsList h1 self1 l1 ∧
        (vals h1 l1).Pairwise (fun x y => c_default_cmp x y ≤ 0) ∧
        (vals h1 l1).Perm (vals exHeap [1, 2, 3])) ∧
      (sort c_default_cmp 4 exHeap exList).toOption.map
          (fun r => (decide (IsList r.1 r.2 [2, 1, 3]), vals r.1 [2, 1, 3])) =
        some (true, [3, 5, 8])) ∧
    (IsList (ringHeap 2147483649) ⟨some 2147483648⟩ (0 :: List.range' 1 2147483648) ∧
      (0 :: List.range' 1 2147483648).length = 2147483649 ∧
      ∀ fuel r, sort c_default_cmp fuel (ringHeap 2147483649) ⟨some 2147483648⟩ ≠ .ok r ∧
        sort_with fuel (ringHeap 2147483649) ⟨some 2147483648⟩ c_default_cmp ≠ .ok r) :=
  ⟨⟨exList_wf,
      (sort_sorted_perm c_default_cmp c_default_cmp_trans c_default_cmp_total
        exHeap exList [1, 2, 3] exList_wf).1 (by decide) 4 (by decide),
      by decide⟩,
    ringHeap_isList 2147483648,
    by rw [List.length_cons, List.length_range'],
    (sort_sorted_perm c_default_cmp c_default_cmp_trans c_default_cmp_total
      (ringHeap 2147483649) ⟨some 2147483648⟩ (0 :: List.range' 1 2147483648)
      (ringHeap_isList 2147483648)).2
      (by rw [List.length_cons, List.length_range']; decide)
      (by rw [List.length_cons, List.length_range']; decide)⟩

/-- C2 as stated, for every comparator, does not hold.  On the list `[0, 1, 2]` (nodes 1, 2,
3) with the comparator `cmpCyclic`, which is total but not transitive, the nodes 2 and 3
compare equal and `sort` returns the nodes in the order 3, 1, 2: node 3 now precedes node 2.
With `cmpClasses`, which is transitive but not total, the nodes 1 and 3 compare equal and
`sort` returns the order 3, 2, 1: node 3 now precedes node 1. -/
theorem sort_unstable_cmp :
    (IsList exHeapAsc ⟨some 3⟩ [1, 2, 3] ∧ vals exHeapAsc [1, 2, 3] = [0, 1, 2] ∧
      (∀ x y, cmpCyclic x y ≤ 0 ∨ cmpCyclic y x ≤ 0) ∧
      cmpCyclic 1 2 = 0 ∧ List.Sublist [2, 3] [1, 2, 3] ∧
      (sort cmpCyclic 4 exHeapAsc ⟨some 3⟩).toOption.map
          (fun r => (r.2.last, decide (IsList r.1 r.2 [3, 1, 2]), vals r.1 [3, 1, 2])) =
        some (some 2, true, [2, 0, 1]) ∧
      ¬ ∃ h1 self1 l1, sort cmpCyclic 4 exHeapAsc ⟨some 3⟩ = .ok (h1, self1) ∧
        IsList h1 self1 l1 ∧ List.Sublist [2, 3] l1) ∧
    (vals exHeapAsc [1, 2, 3] = [0, 1, 2] ∧
      (∀ x y z, cmpClasses x y ≤ 0 → cmpClasses y z ≤ 0 → cmpClasses x z ≤ 0) ∧
      cmpClasses 0 2 = 0 ∧ List.Sublist [1, 3] [1, 2, 3] ∧
      (sort cmpClasses 4 exHeapAsc ⟨some 3⟩).toOption.map
          (fun r => (r.2.last, decide (IsList r.1 r.2 [3, 2, 1]), vals r.1 [3, 2, 1])) =
        some (some 1, true, [2, 1, 0]) ∧
      ¬ ∃ h1 self1 l1, sort cmpClasses 4 exHeapAsc ⟨some 3⟩ = .ok (h1, self1) ∧
        IsList h1 self1 l1 ∧ List.Sublist [1, 3] l1) := by
  refine ⟨⟨exHeapAsc_wf, by decide, cmpCyclic_total, by decide, by decide, by decide, ?_⟩,
    by decide, cmpClasses_trans, by decide, by decide, by decide, ?_⟩
  · rintro ⟨h1, self1, l1, hs, hl1, hsub⟩
    have e0 : (sort cmpCyclic 4 exHeapAsc ⟨some 3⟩).toOption.map
        (fun r => decide (IsList r.1 r.2 [3, 1, 2])) = some true := by decide
    rw [hs] at e0
    simp only [Except.toOption, Option.map_some', Option.some.injEq, decide_eq_true_eq] at e0
    rw [hl1.unique e0] at hsub
    exact absurd hsub (by decide)
  · rintro ⟨h1, self1, l1, hs, hl1, hsub⟩
    have e0 : (sort cmpClasses 4 exHeapAsc ⟨some 3⟩).toOption.map
        (fun r => decide (IsList r.1 r.2 [3, 2, 1])) = some true := by decide
    rw [hs] at e0
    simp only [Except.toOption, Option.map_some', Option.some.injEq, decide_eq_true_eq] at e0
    rw [hl1.unique e0] at hsub
    exact absurd hsub (by decide)

/-- C2, as amended: for a comparator that is a total preorder, `sort` is stable on every
well-formed list of `2^31` nodes at most: it returns, and for every two nodes `a`, `b` whose
values compare equal (`cmp == 0`), if `a` precedes `b` before the call then `a` precedes `b`
in the head-to-last order after the call; the nodes keep their values. -/
theorem sort_stable (cmp : α → α → Int)
    (htrans : ∀ x y z : α, cmp x y ≤ 0 → cmp y z ≤ 0 → cmp x z ≤ 0)
    (htotal : ∀ x y : α, cmp x y ≤ 0 ∨ cmp y x ≤ 0)
    (h : Heap α) (self : CList) (l : List Nat) (hl : IsList h self l)
    (hb : l.length ≤ 2147483648) (fuel : Nat) (hf : l.length < fuel) :
    ∃ h1 self1 l1, sort cmp fuel h self = .ok (h1, self1) ∧ IsList h1 self1 l1 ∧
      l1.Perm l ∧ (∀ a, (h1 a).map Node.value = (h a).map Node.value) ∧
      ∀ a b va vb, List.Sublist [a, b] l → (h a).map Node.value = some va →
        (h b).map Node.value = some vb → cmp va vb = 0 → List.Sublist [a, b] l1 := by
  by_cases hne : l = []
  · subst hne
    have hs : self.last = none := IsList_nil_iff.1 hl
    exact ⟨h, self, [], by simp [sort, sort_with, hs, pure, Except.pure], hl,
      List.Perm.refl _, fun _ => rfl, fun _ _ _ _ hsub _ _ _ => hsub⟩
  · obtain ⟨vf, hvf⟩ := exists_vf hl.1 hne
    obtain ⟨h1, self1, l1, hs, hl1, hp, -, hst, hv1, -⟩ :=
      sort_with_nodes cmp htrans htotal hl vf hvf hb hf
    refine ⟨h1, self1, l1, hs, hl1, hp, hv1, ?_⟩
    intro a b va vb hsub ha hb hab
    have hma : a ∈ l := hsub.subset (by simp)
    have hmb : b ∈ l := hsub.subset (by simp)
    have ea : vf a = va := by
      have := hvf a hma
      rw [ha] at this
      simpa using this.symm
    have eb : vf b = vb := by
      have := hvf b hmb
      rw [hb] at this
      simpa using this.symm
    exact hst a b (by rw [ea, eb, hab]) hsub

theorem sort_stable_witness :
    IsList exPairs ⟨some 3⟩ [1, 2, 3] ∧
    (∃ h1 self1 l1, sort cmpFst 4 exPairs ⟨some 3⟩ = .ok (h1, self1) ∧ IsList h1 self1 l1 ∧
      l1.Perm [1, 2, 3] ∧ (∀ a, (h1 a).map Node.value = (exPairs a).map Node.value) ∧
      ∀ a b va vb, List.Sublist [a, b] [1, 2, 3] → (exPairs a).map Node.value = some va →
        (exPairs b).map Node.value = some vb → cmpFst va vb = 0 → List.Sublist [a, b] l1) ∧
    (sort cmpFst 4 exPairs ⟨some 3⟩).toOption.map
        (fun r => (decide (IsList r.1 r.2 [3, 1, 2]), vals r.1 [3, 1, 2])) =
      some (true, [(0, 'c'), (1, 'a'), (1, 'b')]) :=
  ⟨exPairs_wf,
    sort_stable cmpFst (fun x y z => c_default_cmp_trans x.1 y.1 z.1)
      (fun x y => c_default_cmp_total x.1 y.1) exPairs ⟨some 3⟩ [1, 2, 3] exPairs_wf
      (by decide) 4 (by decide),
    by decide⟩

end Claims
end STC

namespace STC
open clist

section Claims2
variable {α : Type}

theorem IsList.closed {h : Heap α} {self : CList} {l : List Nat} (hl : IsList h self l) :
    WellFormed h self ∧ ReturnsAfterCount h self :=
  ⟨⟨l, hl⟩, hl.returnsAfterCount⟩

/-- C3: ring closure is an invariant.  If the list is well formed (`last` absent, or `next`
from `last` returns to `last` after visiting every node once), then each of `push_back`,
`push_front`, `pop_front` (on a non-empty list), `insert_at` (at a valid position),
`erase_at` (at an iterator that designates a node), `remove` and `reverse` returns and leaves
a well-formed list, on which walking `next` from `last` returns to `last` after exactly
`count(list)` steps and not before. -/
theorem ring_closure_invariant (h : Heap α) (self : CList) (l : List Nat)
    (hl : IsList h self l) :
    ReturnsAfterCount h self ∧
    (∀ entry v, h entry = none → ∃ h1 self1 r, push_back h self entry v = .ok (h1, self1, r) ∧
      WellFormed h1 self1 ∧ ReturnsAfterCount h1 self1) ∧
    (∀ entry v, h entry = none → ∃ h1 self1 r, push_front h self entry v = .ok (h1, self1, r) ∧
      WellFormed h1 self1 ∧ ReturnsAfterCount h1 self1) ∧
    (l ≠ [] → ∃ h1 self1, pop_front h self = .ok (h1, self1) ∧
      WellFormed h1 self1 ∧ ReturnsAfterCount h1 self1) ∧
    (∀ it entry v, ValidPos l it → h entry = none →
      ∃ h1 self1 it1, insert_at h self it entry v = .ok (h1, self1, it1) ∧
        WellFormed h1 self1 ∧ ReturnsAfterCount h1 self1) ∧
    (∀ it, AtNode l it → ∃ h1 self1 it1, erase_at h self it = .ok (h1, self1, it1) ∧
      WellFormed h1 self1 ∧ ReturnsAfterCount h1 self1) ∧
    (∀ (i_eq : α → α → Bool) val fuel, 2 * l.length ≤ fuel →
      ∃ h1 self1 n, remove i_eq fuel h self val = .ok (h1, self1, n) ∧
        WellFormed h1 self1 ∧ ReturnsAfterCount h1 self1) ∧
    (∀ fuel, l.length + 1 ≤ fuel → ∃ h1 self1, reverse fuel h self = .ok (h1, self1) ∧
      WellFormed h1 self1 ∧ ReturnsAfterCount h1 self1) := by
  refine ⟨hl.returnsAfterCount, ?_, ?_, ?_, ?_, ?_, ?_, ?_⟩
  · intro entry v hf
    obtain ⟨h1, hp, hl1, -⟩ := push_back_aux h self l entry v hl hf
    exact ⟨h1, _, _, hp, hl1.closed⟩
  · intro entry v hf
    obtain ⟨h1, self1, hp, hl1, -⟩ := push_front_aux h self l entry v hl hf
    exact ⟨h1, self1, _, hp, hl1.closed⟩
  · intro hne
    obtain ⟨x, xs, rfl⟩ : ∃ x xs, l = x :: xs := by
      cases l with
      | nil => exact absurd rfl hne
      | cons x xs => exact ⟨x, xs, rfl⟩
    obtain ⟨h1, self1, hp, hl1, -⟩ := pop_front_aux hl
    exact ⟨h1, self1, hp, hl1.closed⟩
  · rintro it entry v ⟨pre, suf, rfl, href, hprev⟩ hf
    obtain ⟨h1, self1, hp, hl1, -⟩ := insert_at_aux entry v hl href hprev hf
    exact ⟨h1, self1, _, hp, hl1.closed⟩
  · rintro it ⟨pre, x, suf, rfl, href, hprev⟩
    obtain ⟨h1, self1, hp, hl1, -⟩ := erase_at_aux hl href hprev
    exact ⟨h1, self1, _, hp, hl1.closed⟩
  · intro i_eq val fuel hf
    obtain ⟨h1, self1, l1, hp, hl1, -⟩ := remove_aux i_eq val hl hf
    exact ⟨h1, self1, _, hp, hl1.closed⟩
  · intro fuel hf
    obtain ⟨h1, self1, hp, hl1, -⟩ := reverse_aux hl hf
    exact ⟨h1, self1, hp, hl1.closed⟩

theorem ring_closure_invariant_witness :
    IsList exHeap exList [1, 2, 3] ∧
    (∃ h1 self1, reverse 4 exHeap exList = .ok (h1, self1) ∧
      WellFormed h1 self1 ∧ ReturnsAfterCount h1 self1) ∧
    (∃ h1 self1 n, remove c_default_eq 6 exHeap exList 3 = .ok (h1, self1, n) ∧
      WellFormed h1 self1 ∧ ReturnsAfterCount h1 self1) :=
  ⟨exList_wf,
    (ring_closure_invariant exHeap exList [1, 2, 3] exList_wf).2.2.2.2.2.2.2 4 (by decide),
    (ring_closure_invariant exHeap exList [1, 2, 3] exList_wf).2.2.2.2.2.2.1 c_default_eq 3 6
      (by decide)⟩

/-- C4: for every well-formed list `count` returns the number of nodes of the ring (0 for
the empty list), and after `push_back(v)` and after `push_front(v)` it returns that number
plus exactly 1. -/
theorem count_spec (h : Heap α) (self : CList) (l : List Nat) (hl : IsList h self l)
    (entry : Nat) (v : α) (hf : h entry = none) :
    (∀ fuel, l.length ≤ fuel → count fuel h self = .ok l.length) ∧
    (l = [] → ∀ fuel, count fuel h self = .ok 0) ∧
    (∃ h1 self1 r, push_back h self entry v = .ok (h1, self1, r) ∧
      ∀ fuel, l.length + 1 ≤ fuel → count fuel h1 self1 = .ok (l.length + 1)) ∧
    (∃ h1 self1 r, push_front h self entry v = .ok (h1, self1, r) ∧
      ∀ fuel, l.length + 1 ≤ fuel → count fuel h1 self1 = .ok (l.length + 1)) := by
  refine ⟨fun fuel hfu => count_of_IsList hl fuel hfu, ?_, ?_, ?_⟩
  · rintro rfl fuel
    exact count_of_IsList hl fuel (Nat.zero_le _)
  · obtain ⟨h1, hp, hl1, -⟩ := push_back_aux h self l entry v hl hf
    refine ⟨h1, _, _, hp, fun fuel hfu => ?_⟩
    have := count_of_IsList hl1 fuel (by simpa using hfu)
    simpa using this
  · obtain ⟨h1, self1, hp, hl1, -⟩ := push_front_aux h self l entry v hl hf
    refine ⟨h1, self1, _, hp, fun fuel hfu => ?_⟩
    have := count_of_IsList hl1 fuel (by simpa using hfu)
    simpa using this

theorem count_spec_witness :
    IsList exHeap exList [1, 2, 3] ∧ exHeap 9 = none ∧
    (∀ fuel, 3 ≤ fuel → count fuel exHeap exList = .ok 3) ∧
    (∃ h1 self1 r, push_back exHeap exList 9 7 = .ok (h1, self1, r) ∧
      ∀ fuel, 4 ≤ fuel → count fuel h1 self1 = .ok 4) ∧
    (∃ h1 self1 r, push_front exHeap exList 9 7 = .ok (h1, self1, r) ∧
      ∀ fuel, 4 ≤ fuel → count fuel h1 self1 = .ok 4) :=
  ⟨exList_wf, rfl, (count_spec exHeap exList [1, 2, 3] exList_wf 9 7 rfl).1,
    (count_spec exHeap exList [1, 2, 3] exList_wf 9 7 rfl).2.2.1,
    (count_spec exHeap exList [1, 2, 3] exList_wf 9 7 rfl).2.2.2⟩

/-- C5: for every well-formed list with nodes `l` (value sequence `vals h l`) and every value
`v`, `push_back(v)` yields the value sequence `vals h l ++ [v]`; the new node becomes `last`,
so that `back()` is the new node, which holds `v`; and when the list was empty the `next` of
the new node is the node itself. -/
theorem push_back_spec (h : Heap α) (self : CList) (l : List Nat) (hl : IsList h self l)
    (entry : Nat) (v : α) (hf : h entry = none) :
    ∃ h1, push_back h self entry v = .ok (h1, ⟨some entry⟩, some entry) ∧
      IsList h1 ⟨some entry⟩ (l ++ [entry]) ∧
      vals h1 (l ++ [entry]) = vals h l ++ [v] ∧
      back h1 ⟨some entry⟩ = .ok (some entry) ∧
      (h1 entry).map Node.value = some v ∧
      (l = [] → (h1 entry).map Node.next = some (some entry)) := by
  obtain ⟨h1, hp, hl1, hv, hve, hself⟩ := push_back_aux h self l entry v hl hf
  exact ⟨h1, hp, hl1, hv, rfl, hve, hself⟩

theorem push_back_spec_witness :
    IsList exHeap exList [1, 2, 3] ∧ exHeap 9 = none ∧
    ∃ h1, push_back exHeap exList 9 7 = .ok (h1, ⟨some 9⟩, some 9) ∧
      IsList h1 ⟨some 9⟩ ([1, 2, 3] ++ [9]) ∧
      vals h1 ([1, 2, 3] ++ [9]) = vals exHeap [1, 2, 3] ++ [7] ∧
      back h1 ⟨some 9⟩ = .ok (some 9) ∧
      (h1 9).map Node.value = some 7 ∧
      (([1, 2, 3] : List Nat) = [] → (h1 9).map Node.next = some (some 9)) :=
  ⟨exList_wf, rfl, push_back_spec exHeap exList [1, 2, 3] exList_wf 9 7 rfl⟩

/-- C6: for every well-formed list with nodes `l` and every value `v`, `push_front(v)` yields
the value sequence `v :: vals h l`, so that `front()` is the new node, which holds `v`; the
handle (hence the last node) is unchanged when the list was non-empty, and `last` is the new
node when the list was empty. -/
theorem push_front_spec (h : Heap α) (self : CList) (l : List Nat) (hl : IsList h self l)
    (entry : Nat) (v : α) (hf : h entry = none) :
    ∃ h1 self1, push_front h self entry v = .ok (h1, self1, some entry) ∧
      IsList h1 self1 (entry :: l) ∧
      vals h1 (entry :: l) = v :: vals h l ∧
      front h1 self1 = .ok (some entry) ∧
      (h1 entry).map Node.value = some v ∧
      (l ≠ [] → self1 = self) ∧ (l = [] → self1.last = some entry) := by
  obtain ⟨h1, self1, hp, hl1, hv, hve, hfr, h2, h3⟩ := push_front_aux h self l entry v hl hf
  exact ⟨h1, self1, hp, hl1, hv, hfr, hve, h2, h3⟩

theorem push_front_spec_witness :
    IsList exHeap exList [1, 2, 3] ∧ exHeap 9 = none ∧
    ∃ h1 self1, push_front exHeap exList 9 7 = .ok (h1, self1, some 9) ∧
      IsList h1 self1 (9 :: [1, 2, 3]) ∧
      vals h1 (9 :: [1, 2, 3]) = 7 :: vals exHeap [1, 2, 3] ∧
      front h1 self1 = .ok (some 9) ∧
      (h1 9).map Node.value = some 7 ∧
      (([1, 2, 3] : List Nat) ≠ [] → self1 = exList) ∧
      (([1, 2, 3] : List Nat) = [] → self1.last = some 9) :=
  ⟨exList_wf, rfl, push_front_spec exHeap exList [1, 2, 3] exList_wf 9 7 rfl⟩

/-- C7: for every well-formed list with nodes `x :: xs`, `pop_front` returns and leaves the
list with nodes `xs`: exactly the head node is removed (it is no longer live, and the other
nodes keep their values and their order), `count` decreases by exactly 1, `last` becomes
absent if and only if the list had exactly one node, and otherwise the handle is unchanged. -/
theorem pop_front_spec (h : Heap α) (self : CList) (x : Nat) (xs : List Nat)
    (hl : IsList h self (x :: xs)) :
    ∃ h1 self1, pop_front h self = .ok (h1, self1) ∧
      IsList h1 self1 xs ∧ h1 x = none ∧
      vals h1 xs = (vals h (x :: xs)).tail ∧
      (∀ fuel, xs.length + 1 ≤ fuel → count fuel h self = .ok (xs.length + 1)) ∧
      (∀ fuel, xs.length ≤ fuel → count fuel h1 self1 = .ok xs.length) ∧
      (self1.last = none ↔ xs = []) ∧ (xs ≠ [] → self1 = self) := by
  obtain ⟨h1, self1, hp, hl1, hx, hv, -, hs⟩ := pop_front_aux hl
  have hxs : x ∉ xs := (List.nodup_cons.1 hl.1.nodup).1
  obtain ⟨nx, hnx⟩ := hl.1.live (x := x) (by simp)
  refine ⟨h1, self1, hp, hl1, hx, ?_, ?_, fun fuel hfu => count_of_IsList hl1 fuel hfu, ?_, hs⟩
  · rw [vals_cons_of (v := nx.value) xs (by simp [hnx]), List.tail_cons]
    exact vals_congr (fun a ha => hv a (fun e => hxs (e ▸ ha)))
  · intro fuel hfu
    have := count_of_IsList hl fuel (by simpa using hfu)
    simpa using this
  · rw [hl1.2]
    exact List.getLast?_eq_none_iff

theorem pop_front_spec_witness :
    IsList exHeap exList (1 :: [2, 3]) ∧
    ∃ h1 self1, pop_front exHeap exList = .ok (h1, self1) ∧
      IsList h1 self1 [2, 3] ∧ h1 1 = none ∧
      vals h1 [2, 3] = (vals exHeap (1 :: [2, 3])).tail ∧
      (∀ fuel, [2, 3].length + 1 ≤ fuel → count fuel exHeap exList = .ok ([2, 3].length + 1)) ∧
      (∀ fuel, [2, 3].length ≤ fuel → count fuel h1 self1 = .ok [2, 3].length) ∧
      (self1.last = none ↔ ([2, 3] : List Nat) = []) ∧
      (([2, 3] : List Nat) ≠ [] → self1 = exList) :=
  ⟨exList_wf, pop_front_spec exHeap exList 1 [2, 3] exList_wf⟩

/-- C8: `pop_front` on an empty list fails: the assertion `assert(!empty(self))` stops the
call, for every memory, before anything is read or written, so that the call does not return
and is not a silent no-op. -/
theorem pop_front_empty (h : Heap α) :
    empty ⟨none⟩ = true ∧ pop_front h ⟨none⟩ = .error .assertFailed ∧
    ∀ r, pop_front h ⟨none⟩ ≠ .ok r := by
  refine ⟨rfl, rfl, ?_⟩
  intro r hr
  simp [pop_front, empty] at hr

/-- C9, as stated, fails: on the empty list `front` and `back` do not fail with the checked
failure that `pop_front` reports (no assertion guards them). -/
theorem empty_access_not_reported :
    ¬ (front (fun _ => none : Heap Int) ⟨none⟩ = .error .assertFailed ∧
       back (fun _ => none : Heap Int) ⟨none⟩ = .error .assertFailed) := by
  rintro ⟨hfront, -⟩
  simp [front, load, bind, Except.bind] at hfront

/-- C9, amended: `front` and `back` invoked on an empty list return no value reference, but
nothing checks for emptiness: both apply `->` to the absent `last`, which is a null
dereference (undefined behaviour), not a reported `EmptyAccess`. -/
theorem front_back_on_empty_fault (h : Heap α) :
    front h ⟨none⟩ = .error .nullDeref ∧ back h ⟨none⟩ = .error .nullDeref ∧
    (∀ r, front h ⟨none⟩ ≠ .ok r) ∧ (∀ r, back h ⟨none⟩ ≠ .ok r) := by
  refine ⟨rfl, rfl, ?_, ?_⟩
  · intro r hr
    simp [front, load, bind, Except.bind] at hr
  · intro r hr
    simp [back, valueRef] at hr

/-- C10: for every well-formed list with nodes `pre ++ suf` and every valid position `it` of
it (`ref` is the first node of `suf` and `prev` the node before it in the ring, or `ref` is
absent and `suf` is empty), `insert_at(it, v)` yields the value sequence
`vals pre ++ [v] ++ vals suf`; the new node becomes `last` if and only if `it` is at the end
(`ref` absent, which is the case at every position of an empty list), and otherwise the
handle is unchanged. -/
theorem insert_at_spec (h : Heap α) (self : CList) (pre suf : List Nat) (it : Iter)
    (entry : Nat) (v : α) (hl : IsList h self (pre ++ suf)) (href : it.ref = suf.head?)
    (hprev : suf ≠ [] → it.prev = (suf ++ pre).getLast?) (hf : h entry = none) :
    ∃ h1 self1 it1, insert_at h self it entry v = .ok (h1, self1, it1) ∧
      IsList h1 self1 (pre ++ entry :: suf) ∧
      vals h1 (pre ++ entry :: suf) = vals h pre ++ [v] ++ vals h suf ∧
      (h1 entry).map Node.value = some v ∧
      (self1.last = some entry ↔ it.ref = none) ∧
      (it.ref ≠ none → self1 = self) ∧
      (pre ++ suf = [] → it.ref = none) := by
  obtain ⟨h1, self1, hp, hl1, hv, hve, h1', h2', -⟩ := insert_at_aux entry v hl href hprev hf
  have hfresh : entry ∉ pre ++ suf := hl.1.not_mem_of_fresh hf
  have hiff : it.ref = none ↔ suf = [] := by
    rw [href]
    exact List.head?_eq_none_iff
  refine ⟨h1, self1, _, hp, hl1, by simpa using hv, hve, ?_, ?_, ?_⟩
  · constructor
    · intro hs
      rw [hiff]
      by_contra hsuf
      have e1 := h2' hsuf
      rw [e1, hl.2, List.getLast?_append_of_ne_nil _ hsuf] at hs
      obtain ⟨z, hz, hzm⟩ := getLast?_mem_of_ne_nil hsuf
      rw [hz] at hs
      simp at hs
      exact hfresh (by simp [← hs, hzm])
    · intro hr
      exact h1' (hiff.1 hr)
  · intro hr
    exact h2' (fun e => hr (hiff.2 e))
  · intro he
    rw [hiff]
    exact (List.append_eq_nil.1 he).2

theorem insert_at_spec_witness :
    IsList exHeap exList ([1] ++ [2, 3]) ∧ exHeap 9 = none ∧
    ∃ h1 self1 it1, insert_at exHeap exList ⟨some 2, some 0, some 1⟩ 9 7 = .ok (h1, self1, it1) ∧
      IsList h1 self1 ([1] ++ 9 :: [2, 3]) ∧
      vals h1 ([1] ++ 9 :: [2, 3]) = vals exHeap [1] ++ [7] ++ vals exHeap [2, 3] ∧
      (h1 9).map Node.value = some 7 ∧
      (self1.last = some 9 ↔ (⟨some 2, some 0, some 1⟩ : Iter).ref = none) ∧
      ((⟨some 2, some 0, some 1⟩ : Iter).ref ≠ none → self1 = exList) ∧
      ([1] ++ [2, 3] = [] → (⟨some 2, some 0, some 1⟩ : Iter).ref = none) :=
  ⟨exList_wf, rfl,
    insert_at_spec exHeap exList [1] [2, 3] ⟨some 2, some 0, some 1⟩ 9 7 exList_wf rfl
      (fun _ => rfl) rfl⟩

end Claims2
end STC

namespace STC
open clist

section Find
variable {α : Type}

theorem readLast_ok {hs : Handles} {sid : Nat} {self : CList} (hsid : hs sid = some self) :
    readLast hs (some sid) = .ok self.last := by
  simp [readLast, hsid]

/-- Advancing an iterator that stands on the node `x` of a list. -/
theorem next_at_node {hs : Handles} {h : Heap α} {self : CList} {sid : Nat}
    {pre suf : List Nat} {x : Nat} (hl : IsList h self (pre ++ x :: suf))
    (hsid : hs sid = some self) (p : Ptr) :
    next hs h ⟨some x, some sid, p⟩ = .ok ⟨suf.head?, some sid, some x⟩ := by
  cases suf with
  | nil =>
    have e : self.last = some x := (hl.last_eq_iff.2 rfl).symm
    simp [next, readLast_ok hsid, e, bind, Except.bind, pure, Except.pure]
  | cons y s =>
    have e : ¬ (self.last = some x) := fun e => by
      have := hl.last_eq_iff.1 e.symm
      simp at this
    have e' : ¬ (some x = self.last) := fun e1 => e e1.symm
    obtain ⟨w, hw⟩ := Link_iff.1 hl.1.link_next
    simp [next, readLast_ok hsid, e', bind, Except.bind, pure, Except.pure, load, hw, valueRef]

/-- The search loop of `find_in` from a position of the list to its end. -/
theorem find_in_loop_spec (i_eq : α → α → Bool) (val : α) (vf : Nat → α) {hs : Handles}
    {h : Heap α} {self : CList} {sid : Nat} (hsid : hs sid = some self) :
    ∀ (suf pre : List Nat) (p : Ptr) (fuel : Nat), IsList h self (pre ++ suf) →
      (∀ a ∈ suf, (h a).map Node.value = some (vf a)) →
      (suf ≠ [] → p = (suf ++ pre).getLast?) → suf.length < fuel →
      (∀ s1 y s2, suf = s1 ++ y :: s2 → (∀ a ∈ s1, i_eq (vf a) val = false) →
        i_eq (vf y) val = true →
        find_in_loop i_eq hs h none val fuel ⟨suf.head?, some sid, p⟩ =
          .ok (some ⟨some y, some sid, (y :: (s2 ++ pre ++ s1)).getLast?⟩)) ∧
      ((∀ a ∈ suf, i_eq (vf a) val = false) →
        find_in_loop i_eq hs h none val fuel ⟨suf.head?, some sid, p⟩ = .ok none)
  | [], pre, p, fuel, _, _, _, hf => by
    obtain ⟨f, rfl⟩ : ∃ f, fuel = f + 1 := ⟨fuel - 1, by simp at hf; omega⟩
    refine ⟨?_, ?_⟩
    · intro s1 y s2 e
      simp at e
    · intro _
      simp [find_in_loop, pure, Except.pure]
  | x :: s, pre, p, fuel, hl, hv, hp, hf => by
    obtain ⟨f, rfl⟩ : ∃ f, fuel = f + 1 := ⟨fuel - 1, by simp at hf; omega⟩
    obtain ⟨nx, hnx⟩ := hl.1.live (x := x) (by simp)
    have hvx := hv x (by simp)
    rw [hnx] at hvx
    simp at hvx
    have hp' := hp (by simp)
    have hl' : IsList h self ((pre ++ [x]) ++ s) := by simpa using hl
    have ih := find_in_loop_spec i_eq val vf hsid s (pre ++ [x]) (some x) f hl'
      (fun a ha => hv a (by simp [ha]))
      (fun _ => by rw [← List.append_assoc, List.getLast?_concat])
      (by simp at hf; omega)
    have hnext := next_at_node hl hsid p
    refine ⟨?_, ?_⟩
    · intro s1 y s2 e hs1 hy
      cases s1 with
      | nil =>
        simp only [List.nil_append, List.cons.injEq] at e
        obtain ⟨rfl, rfl⟩ := e
        rw [hp']
        simp [find_in_loop, load, hnx, hvx, hy, bind, Except.bind, pure, Except.pure]
      | cons z s1' =>
        simp only [List.cons_append, List.cons.injEq] at e
        obtain ⟨rfl, rfl⟩ := e
        have hx : i_eq (vf x) val = false := hs1 x (by simp)
        have := ih.1 s1' y s2 rfl (fun a ha => hs1 a (by simp [ha])) hy
        simp only [find_in_loop, List.head?_cons, ne_eq, reduceCtorEq, not_false_eq_true,
          if_true, load, hnx, bind, Except.bind, hvx, hx, Bool.false_eq_true, if_false, hnext,
          this]
        simp
    · intro hall
      have hx : i_eq (vf x) val = false := hall x (by simp)
      have := ih.2 (fun a ha => hall a (by simp [ha]))
      simp only [find_in_loop, List.head?_cons, ne_eq, reduceCtorEq, not_false_eq_true,
        if_true, load, hnx, bind, Except.bind, hvx, hx, Bool.false_eq_true, if_false, hnext,
        this]

theorem begin_spec {h : Heap α} {self : CList} {l : List Nat} (hl : IsList h self l)
    (sid : Nat) : begin h sid self = .ok ⟨l.head?, some sid, l.getLast?⟩ := by
  rcases List.eq_nil_or_concat l with rfl | ⟨l0, z, rfl⟩
  · have hs : self.last = none := IsList_nil_iff.1 hl
    simp [begin, hs, bind, Except.bind, pure, Except.pure]
  · rw [List.concat_eq_append] at hl ⊢
    obtain ⟨hr, hs⟩ := IsList_snoc_iff.1 hl
    obtain ⟨a0, ha0, hza⟩ := hr.last_link
    obtain ⟨v, hv⟩ := Link_iff.1 hza
    simp [begin, hs, load, hv, valueRef, bind, Except.bind, pure, Except.pure, ha0]

end Find
end STC

namespace STC
open clist

section EraseRange
variable {α : Type}

theorem erase_range_loop_spec :
    ∀ (m : List Nat) (x : Nat) (pre suf : List Nat) (h : Heap α) (self : CList) (e fuel : Nat),
      IsList h self (pre ++ x :: (m ++ suf)) →
      (suf ++ pre ≠ [] → (suf ++ pre).head? = some e) → e ∉ m → m.length + 1 ≤ fuel →
      ∃ h1 self1, erase_range_loop (some e) ((x :: (m ++ suf ++ pre)).getLast?) fuel h self =
          .ok (h1, self1) ∧
        IsList h1 self1 (pre ++ suf) ∧
        (∀ a ∈ x :: m, h1 a = none) ∧
        (∀ a, a ∉ x :: m → (h1 a).map Node.value = (h a).map Node.value) ∧
        (∀ a, a ∉ pre ++ x :: (m ++ suf) → h1 a = h a)
  | m, x, pre, suf, h, self, e, fuel, hl, he, hem, hf => by
    obtain ⟨f, rfl⟩ : ∃ f, fuel = f + 1 := ⟨fuel - 1, by omega⟩
    obtain ⟨h1, self1, hera, hl1, hx1, hv1, hfr1, -⟩ := erase_after_pred hl
    have hanchor : (x :: (m ++ suf ++ pre)).getLast? = (x :: ((m ++ suf) ++ pre)).getLast? := rfl
    rw [erase_range_loop, hanchor]
    simp only [hera, bind, Except.bind]
    by_cases hemp : pre ++ (m ++ suf) = []
    · have hm : m = [] := by
        have := (List.append_eq_nil.1 hemp).2
        exact (List.append_eq_nil.1 this).1
      have hsuf : suf = [] := by
        have := (List.append_eq_nil.1 hemp).2
        exact (List.append_eq_nil.1 this).2
      have hpre : pre = [] := (List.append_eq_nil.1 hemp).1
      subst hm hsuf hpre
      have hs0 : self1.last = none := by simpa using hl1.2
      refine ⟨h1, self1, by simp [hs0, pure, Except.pure], by simpa using hl1, ?_, ?_,
        by simpa using hfr1⟩
      · intro a ha
        simp at ha
        subst ha
        exact hx1
      · intro a ha
        exact hv1 a (by simpa using ha)
    · obtain ⟨z, hz, -⟩ := getLast?_mem_of_ne_nil hemp
      have hs0 : self1.last ≠ none := by rw [hl1.2, hz]; simp
      have hne2 : (m ++ suf) ++ pre ≠ [] := by
        intro e0
        apply hemp
        have h1' := (List.append_eq_nil.1 e0).1
        have h2' := (List.append_eq_nil.1 e0).2
        simp [h1', h2']
      have hrot : IsRing h1 ((m ++ suf) ++ pre) := hl1.1.rotate
      obtain ⟨r0, q, hq⟩ : ∃ r0 q, (m ++ suf) ++ pre = r0 ++ [q] := by
        rcases List.eq_nil_or_concat ((m ++ suf) ++ pre) with e0 | ⟨r0, q, e0⟩
        · exact absurd e0 hne2
        · exact ⟨r0, q, by rw [e0, List.concat_eq_append]⟩
      have hprev : (x :: ((m ++ suf) ++ pre)).getLast? = some q := by
        rw [hq, ← List.cons_append, List.getLast?_concat]
      rw [hq] at hrot
      obtain ⟨a0, ha0, hqa⟩ := hrot.last_link
      rw [← hq] at ha0
      obtain ⟨vq, hvq⟩ := Link_iff.1 hqa
      rw [hprev]
      simp only [hs0, if_false, load, hvq, pure, Except.pure]
      cases m with
      | nil =>
        have ha0' : (suf ++ pre).head? = some a0 := by simpa using ha0
        have hne3 : suf ++ pre ≠ [] := by simpa using hne2
        have hea : a0 = e := by
          have := he hne3
          rw [ha0'] at this
          simpa using this
        subst hea
        refine ⟨h1, self1, by simp, by simpa using hl1, ?_, ?_, by simpa using hfr1⟩
        · intro a ha
          simp at ha
          subst ha
          exact hx1
        · intro a ha
          exact hv1 a (by simpa using ha)
      | cons y m' =>
        have ha0' : a0 = y := by
          simp at ha0
          exact ha0.symm
        subst ha0'
        have hne4 : a0 ≠ e := fun e0 => hem (by simp [e0])
        have hl1' : IsList h1 self1 (pre ++ a0 :: (m' ++ suf)) := by simpa using hl1
        obtain ⟨h2, self2, hrec, hl2, hx2, hv2, hfr2⟩ :=
          erase_range_loop_spec m' a0 pre suf h1 self1 e f hl1' he
            (fun hm => hem (by simp [hm])) (by simp at hf; omega)
        have hprev2 : (a0 :: (m' ++ suf ++ pre)).getLast? = some q := by
          have : (x :: (a0 :: m' ++ suf ++ pre)).getLast? = some q := hprev
          rw [List.cons_append, List.cons_append, List.getLast?_cons_cons] at this
          exact this
        rw [hprev2] at hrec
        have hn := hl.1.nodup
        have hxa : x ∉ pre ++ (a0 :: m' ++ suf) := by
          rw [List.nodup_append] at hn
          intro hmem
          rcases List.mem_append.1 hmem with hmem | hmem
          · exact hn.2.2 hmem (by simp)
          · have := hn.2.1
            rw [List.nodup_cons] at this
            exact this.1 hmem
        refine ⟨h2, self2, by simp [hne4, hrec], hl2, ?_, ?_, ?_⟩
        · intro a ha
          rcases List.mem_cons.1 ha with rfl | ha
          · rw [hfr2 a (by simpa using hxa), hx1]
          · exact hx2 a ha
        · intro a ha
          rw [hv2 a (fun hm => ha (List.mem_cons_of_mem _ hm)),
            hv1 a (fun e0 => ha (by simp [e0]))]
        · intro a ha
          rw [hfr2 a (fun hm => ha (by simp at hm ⊢; tauto)), hfr1 a ha]
termination_by m => m.length

theorem erase_range_aux {h : Heap α} {self : CList} {pre m suf : List Nat} {x : Nat}
    {it1 it2 : Iter} (hl : IsList h self (pre ++ x :: (m ++ suf)))
    (h1ref : it1.ref = some x) (h1prev : it1.prev = (x :: (m ++ suf ++ pre)).getLast?)
    (h2ref : it2.ref = suf.head?) {fuel : Nat} (hf : m.length + 1 ≤ fuel) :
    ∃ h1 self1, erase_range fuel h self it1 it2 = .ok (h1, self1, it2) ∧
      IsList h1 self1 (pre ++ suf) ∧
      (∀ a ∈ x :: m, h1 a = none) ∧
      (∀ a, a ∉ x :: m → (h1 a).map Node.value = (h a).map Node.value) ∧
      (∀ a, a ∉ pre ++ x :: (m ++ suf) → h1 a = h a) := by
  have hn := hl.1.nodup
  have hxs : x ∉ suf := by
    rw [List.nodup_append] at hn
    have := hn.2.1
    rw [List.nodup_cons] at this
    exact fun hm => this.1 (by simp [hm])
  have hne : it1.ref ≠ it2.ref := by
    rw [h1ref, h2ref]
    intro e
    exact hxs (List.mem_of_mem_head? e.symm)
  -- the node at which the loop stops
  obtain ⟨e, hend, he, hem⟩ : ∃ e,
      (if it2.ref ≠ none then (pure it2.ref : Except Fault Ptr)
       else do
         let ln ← load h self.last
         pure ln.next) = .ok (some e) ∧
      (suf ++ pre ≠ [] → (suf ++ pre).head? = some e) ∧ e ∉ m := by
    cases suf with
    | nil =>
      have hr : it2.ref = none := by simpa using h2ref
      obtain ⟨l0, z, hz⟩ : ∃ l0 z, pre ++ x :: (m ++ []) = l0 ++ [z] := by
        rcases List.eq_nil_or_concat (pre ++ x :: (m ++ [])) with e0 | ⟨l0, z, e0⟩
        · simp at e0
        · exact ⟨l0, z, by rw [e0, List.concat_eq_append]⟩
      have hl' := hl
      rw [hz] at hl'
      obtain ⟨hr', hs'⟩ := IsList_snoc_iff.1 hl'
      obtain ⟨a0, ha0, hza⟩ := hr'.last_link
      obtain ⟨v, hv⟩ := Link_iff.1 hza
      rw [← hz] at ha0
      refine ⟨a0, by simp [hr, hs', load, hv, bind, Except.bind, pure, Except.pure], ?_, ?_⟩
      · intro hne'
        cases pre with
        | nil => simp at hne'
        | cons b t =>
          simp at ha0
          simp [ha0]
      · cases pre with
        | nil =>
          simp at ha0
          subst ha0
          rw [List.nodup_append] at hn
          have := hn.2.1
          rw [List.nodup_cons] at this
          exact fun hm => this.1 (by simp [hm])
        | cons b t =>
          simp at ha0
          subst ha0
          rw [List.nodup_append] at hn
          exact fun hm => hn.2.2 (List.mem_cons_self _ _) (by simp [hm])
    | cons y s =>
      have hr : it2.ref = some y := by simpa using h2ref
      refine ⟨y, by simp [hr, pure, Except.pure], by simp, ?_⟩
      rw [List.nodup_append] at hn
      have := hn.2.1
      rw [List.nodup_cons, List.nodup_append] at this
      exact fun hm => this.2.2.2 hm (by simp)
  obtain ⟨h1, self1, hloop, hl1, hx1, hv1, hfr1⟩ :=
    erase_range_loop_spec m x pre suf h self e fuel hl he hem hf
  rw [← h1prev] at hloop
  refine ⟨h1, self1, ?_, hl1, hx1, hv1, hfr1⟩
  simp only [erase_range, bind, Except.bind, pure, Except.pure, ne_eq]
  simp only [bind, Except.bind, pure, Except.pure, ne_eq] at hend
  rw [hend]
  simp [hne, hloop]

end EraseRange
end STC

namespace STC
open clist

section Splice
variable {α : Type}

/-- Two disjoint rings are joined into one by exchanging the `next` of their last nodes. -/
theorem join_rings {h : Heap α} {s0 o0 : List Nat} {p ol : Nat}
    (hS : IsRing h (s0 ++ [p])) (hO : IsRing h (o0 ++ [ol]))
    (hd : ∀ a ∈ s0 ++ [p], a ∉ o0 ++ [ol]) :
    ∃ a0 b0 vp vo, h p = some ⟨some a0, vp⟩ ∧ h ol = some ⟨some b0, vo⟩ ∧
      IsRing (store (store h p ⟨some b0, vp⟩) ol ⟨some a0, vo⟩) (s0 ++ [p] ++ (o0 ++ [ol])) := by
  obtain ⟨a0, ha0, hpa⟩ := hS.last_link
  obtain ⟨b0, hb0, hob⟩ := hO.last_link
  obtain ⟨vp, hp⟩ := Link_iff.1 hpa
  obtain ⟨vo, ho⟩ := Link_iff.1 hob
  have hpo : p ≠ ol := fun e => hd p (by simp) (by simp [e])
  have hps : p ∉ s0 := by
    have := hS.nodup
    rw [List.nodup_append] at this
    exact fun hm => this.2.2 hm (by simp)
  have hoo : ol ∉ o0 := by
    have := hO.nodup
    rw [List.nodup_append] at this
    exact fun hm => this.2.2 hm (by simp)
  refine ⟨a0, b0, vp, vo, hp, ho, ?_⟩
  have e1 : s0 ++ [p] ++ (o0 ++ [ol]) = (s0 ++ [p] ++ o0) ++ [ol] := by simp
  rw [e1, IsRing_snoc_iff, ← e1]
  refine ⟨?_, ?_, ?_⟩
  · rw [List.nodup_append]
    exact ⟨hS.nodup, hO.nodup, fun a ha hb => hd a ha hb⟩
  · rw [List.chain'_append]
    refine ⟨?_, ?_, ?_⟩
    · apply chain_frame s0 p hS.2.1
      intro a ha
      have h1 : a ≠ p := fun e => hps (e ▸ ha)
      have h2 : a ≠ ol := fun e => hd a (by simp [ha]) (by simp [e])
      simp [store, h1, h2]
    · apply chain_frame o0 ol hO.2.1
      intro a ha
      have h1 : a ≠ ol := fun e => hoo (e ▸ ha)
      have h2 : a ≠ p := fun e => hd p (by simp) (by simp [← e, ha])
      simp [store, h1, h2]
    · intro x hx y hy
      simp only [List.getLast?_concat, Option.mem_def, Option.some.injEq] at hx
      rw [hb0] at hy
      simp only [Option.mem_def, Option.some.injEq] at hy
      subst hx hy
      simp [Link, store, hpo]
  · intro a ha
    rw [List.head?_append_of_ne_nil (s0 ++ [p]) (by simp), ha0] at ha
    simp only [Option.mem_def, Option.some.injEq] at ha
    subst ha
    simp [Link, store]

/-- A ring is cut into two rings by exchanging the `next` of the last nodes of its two
parts. -/
theorem split_rings {h : Heap α} {m0 r0 : List Nat} {p2 p1 : Nat}
    (hr : IsRing h ((m0 ++ [p2]) ++ (r0 ++ [p1]))) :
    ∃ x c0 v1 v2, (m0 ++ [p2]).head? = some x ∧ h p2 = some ⟨some c0, v2⟩ ∧
      h p1 = some ⟨some x, v1⟩ ∧
      IsRing (store (store h p1 ⟨some c0, v1⟩) p2 ⟨some x, v2⟩) (m0 ++ [p2]) ∧
      IsRing (store (store h p1 ⟨some c0, v1⟩) p2 ⟨some x, v2⟩) (r0 ++ [p1]) := by
  have hn := hr.nodup
  have hc := hr.2.1
  rw [List.chain'_append] at hc
  obtain ⟨hcm, hcr, hmid⟩ := hc
  obtain ⟨x, hx⟩ : ∃ x, (m0 ++ [p2]).head? = some x := by
    cases m0 with
    | nil => exact ⟨p2, rfl⟩
    | cons b t => exact ⟨b, rfl⟩
  obtain ⟨c0, hc0⟩ : ∃ c0, (r0 ++ [p1]).head? = some c0 := by
    cases r0 with
    | nil => exact ⟨p1, rfl⟩
    | cons b t => exact ⟨b, rfl⟩
  have hl2 : Link h p2 c0 := hmid p2 (by simp) c0 hc0
  have hl1 : Link h p1 x := by
    have e1 : (m0 ++ [p2]) ++ (r0 ++ [p1]) = ((m0 ++ [p2]) ++ r0) ++ [p1] := by simp
    rw [e1] at hr
    obtain ⟨a, ha, hla⟩ := hr.last_link
    rw [List.append_assoc, List.head?_append_of_ne_nil _ (by simp), hx] at ha
    simp only [Option.some.injEq] at ha
    exact ha ▸ hla
  obtain ⟨v2, hv2⟩ := Link_iff.1 hl2
  obtain ⟨v1, hv1⟩ := Link_iff.1 hl1
  rw [List.nodup_append] at hn
  obtain ⟨hnm, hnr, hdis⟩ := hn
  have h12 : p1 ≠ p2 := fun e => hdis (a := p2) (by simp) (by simp [e])
  have hp2m : p2 ∉ m0 := by
    rw [List.nodup_append] at hnm
    exact fun hm => hnm.2.2 hm (by simp)
  have hp1r : p1 ∉ r0 := by
    rw [List.nodup_append] at hnr
    exact fun hm => hnr.2.2 hm (by simp)
  refine ⟨x, c0, v1, v2, hx, hv2, hv1, ?_, ?_⟩
  · rw [IsRing_snoc_iff]
    refine ⟨hnm, ?_, ?_⟩
    · apply chain_frame m0 p2 hcm
      intro a ha
      have h1 : a ≠ p2 := fun e => hp2m (e ▸ ha)
      have h2 : a ≠ p1 := fun e => hdis (a := a) (by simp [ha]) (by simp [e])
      simp [store, h1, h2]
    · intro a ha
      rw [hx] at ha
      simp only [Option.mem_def, Option.some.injEq] at ha
      subst ha
      simp [Link, store]
  · rw [IsRing_snoc_iff]
    refine ⟨hnr, ?_, ?_⟩
    · apply chain_frame r0 p1 hcr
      intro a ha
      have h1 : a ≠ p1 := fun e => hp1r (e ▸ ha)
      have h2 : a ≠ p2 := fun e => hdis (a := p2) (by simp) (by simp [← e, ha])
      simp [store, h1, h2]
    · intro a ha
      rw [hc0] at ha
      simp only [Option.mem_def, Option.some.injEq] at ha
      subst ha
      simp [Link, store, h12]

theorem map_value_store {h : Heap α} {a : Nat} {n : Node α} (nx : Ptr) (ha : h a = some n)
    (b : Nat) : ((store h a ⟨nx, n.value⟩) b).map Node.value = (h b).map Node.value := by
  by_cases hb : b = a
  · subst hb
    simp [store, ha]
  · simp [store, hb]

end Splice
end STC

namespace STC
open clist

section Splice2
variable {α : Type}

theorem splice_aux {h : Heap α} {self other : CList} {pre suf ys : List Nat} {it : Iter}
    (hl : IsList h self (pre ++ suf)) (ho : IsList h other ys)
    (hd : ∀ a ∈ pre ++ suf, a ∉ ys) (href : it.ref = suf.head?)
    (hprev : suf ≠ [] → it.prev = (suf ++ pre).getLast?) :
    ∃ h1 self1 it1, splice h self it other = .ok (h1, self1, ⟨none⟩, it1) ∧
      IsList h1 self1 (pre ++ ys ++ suf) ∧
      (∀ a, (h1 a).map Node.value = (h a).map Node.value) ∧
      (∀ a, a ∉ pre ++ suf → a ∉ ys → h1 a = h a) ∧
      (it.ref = none → ys ≠ [] → self1.last = other.last) ∧
      (¬ (it.ref = none ∧ ys ≠ []) → self1 = self) ∧
      it1.ref = it.ref := by
  have hiff : it.ref = none ↔ suf = [] := by
    rw [href]
    exact List.head?_eq_none_iff
  by_cases hemp : pre ++ suf = []
  · have hpre : pre = [] := (List.append_eq_nil.1 hemp).1
    have hsuf : suf = [] := (List.append_eq_nil.1 hemp).2
    subst hpre hsuf
    have hs : self.last = none := IsList_nil_iff.1 hl
    refine ⟨h, ⟨other.last⟩, it, by simp [splice, hs, pure, Except.pure], ?_, fun _ => rfl,
      fun _ _ _ => rfl, fun _ _ => rfl, ?_, rfl⟩
    · simpa using (⟨ho.1, ho.2⟩ : IsList h ⟨other.last⟩ ys)
    · intro hn
      have hys : ys = [] := by
        by_contra hne
        exact hn ⟨hiff.2 rfl, hne⟩
      subst hys
      have : other.last = none := IsList_nil_iff.1 ho
      cases self
      simp only at hs
      simp [hs, this]
  · obtain ⟨z, hz, -⟩ := getLast?_mem_of_ne_nil hemp
    have hsn : self.last ≠ none := by rw [hl.2, hz]; simp
    by_cases hys : ys = []
    · subst hys
      have hon : other.last = none := IsList_nil_iff.1 ho
      refine ⟨h, self, it, by simp [splice, hsn, hon, pure, Except.pure], by simpa using hl,
        fun _ => rfl, fun _ _ _ => rfl, fun _ hne => absurd rfl hne, fun _ => rfl, rfl⟩
    · obtain ⟨o0, ol, rfl⟩ := exists_snoc_of_ne_nil hys
      obtain ⟨hor, hos⟩ := IsList_snoc_iff.1 ho
      have hne2 : suf ++ pre ≠ [] := by
        intro e
        apply hemp
        have h1' := (List.append_eq_nil.1 e).1
        have h2' := (List.append_eq_nil.1 e).2
        simp [h1', h2']
      obtain ⟨s0, p, hp⟩ := exists_snoc_of_ne_nil hne2
      have hrot : IsRing h (suf ++ pre) := hl.1.rotate
      rw [hp] at hrot
      have hpp : (if it.ref ≠ none then it.prev else self.last) = some p := by
        by_cases hsuf : suf = []
        · have : it.ref = none := hiff.2 hsuf
          subst hsuf
          simp only [this, ne_eq, not_true_eq_false, if_false]
          rw [hl.2]
          simp only [List.nil_append, List.append_nil] at hp ⊢
          rw [hp, List.getLast?_concat]
        · have : it.ref ≠ none := fun e => hsuf (hiff.1 e)
          simp only [this, ne_eq, not_false_eq_true, if_true]
          rw [hprev hsuf, hp, List.getLast?_concat]
      have hd' : ∀ a ∈ s0 ++ [p], a ∉ o0 ++ [ol] := by
        intro a ha
        rw [← hp] at ha
        exact hd a (by simp at ha ⊢; tauto)
      obtain ⟨a0, b0, vp, vo, hhp, hho, hring⟩ := join_rings hrot hor hd'
      have hpo : p ≠ ol := fun e => hd' p (by simp) (by simp [e])
      have hring2 : IsRing (store (store h p ⟨some b0, vp⟩) ol ⟨some a0, vo⟩)
          (pre ++ (o0 ++ [ol]) ++ suf) := by
        rw [← hp] at hring
        have h1 : IsRing (store (store h p ⟨some b0, vp⟩) ol ⟨some a0, vo⟩)
            (suf ++ (pre ++ (o0 ++ [ol]))) := by simpa using hring
        exact h1.rotate
      refine ⟨_, (if it.ref = none then ⟨other.last⟩ else self), ⟨it.ref, it._last, other.last⟩,
        ?_, ⟨hring2, ?_⟩, ?_, ?_, ?_, ?_, rfl⟩
      · have hon : other.last ≠ none := by rw [hos]; simp
        simp only [splice, hsn, if_false, hon, ne_eq, not_false_eq_true, if_true]
        rw [show (if ¬ it.ref = none then it.prev else self.last) = some p from hpp]
        simp [hos, load, hhp, hho, setNext, store, hpo, hpo.symm, bind, Except.bind, pure,
          Except.pure]
      · by_cases hsuf : suf = []
        · have : it.ref = none := hiff.2 hsuf
          subst hsuf
          simp [this, hos]
        · have : it.ref ≠ none := fun e => hsuf (hiff.1 e)
          simp only [this, if_false]
          rw [hl.2, List.getLast?_append_of_ne_nil _ hsuf, List.getLast?_append_of_ne_nil _ hsuf]
      · intro a
        have e1 := map_value_store (h := store h p ⟨some b0, vp⟩) (a := ol)
          (n := ⟨some b0, vo⟩) (some a0) (by simp [store, hpo.symm, hho]) a
        have e2 := map_value_store (h := h) (a := p) (n := ⟨some a0, vp⟩) (some b0) hhp a
        exact e1.trans e2
      · intro a ha hb
        have h1 : a ≠ p := by
          intro e
          apply ha
          have : p ∈ suf ++ pre := by rw [hp]; simp
          rw [e]
          simp at this ⊢
          tauto
        have h2 : a ≠ ol := fun e => hb (by simp [e])
        simp [store, h1, h2]
      · intro hr _
        simp [hr]
      · intro hn
        have : it.ref ≠ none := fun e => hn ⟨e, hys⟩
        simp [this]

theorem split_off_aux {h : Heap α} {self : CList} {pre m suf : List Nat} {x : Nat}
    {it1 it2 : Iter} (hl : IsList h self (pre ++ x :: m ++ suf))
    (h1ref : it1.ref = some x) (h1prev : it1.prev = (x :: (m ++ suf ++ pre)).getLast?)
    (h2ref : it2.ref = suf.head?) (h2prev : suf ≠ [] → it2.prev = (x :: m).getLast?) :
    ∃ h1 self1 lst, split_off h self it1 it2 = .ok (h1, self1, lst) ∧
      IsList h1 self1 (pre ++ suf) ∧ IsList h1 lst (x :: m) ∧
      (∀ a, (h1 a).map Node.value = (h a).map Node.value) ∧
      (∀ a, a ∉ pre ++ x :: m ++ suf → h1 a = h a) := by
  have hn := hl.1.nodup
  have hxs : x ∉ suf := by
    rw [List.nodup_append] at hn
    exact fun hm => hn.2.2 (show x ∈ pre ++ x :: m from by simp) hm
  have hne : it1.ref ≠ it2.ref := by
    rw [h1ref, h2ref]
    intro e
    exact hxs (List.mem_of_mem_head? e.symm)
  obtain ⟨m0, p2, hp2⟩ := exists_snoc_of_ne_nil (List.cons_ne_nil x m)
  have hiff : it2.ref = none ↔ suf = [] := by
    rw [h2ref]
    exact List.head?_eq_none_iff
  have hpp2 : (if it2.ref ≠ none then it2.prev else self.last) = some p2 := by
    by_cases hsuf : suf = []
    · have : it2.ref = none := hiff.2 hsuf
      subst hsuf
      simp only [this, ne_eq, not_true_eq_false, if_false]
      rw [hl.2, List.append_nil, List.getLast?_append_cons, hp2, List.getLast?_concat]
    · have : it2.ref ≠ none := fun e => hsuf (hiff.1 e)
      simp only [this, ne_eq, not_false_eq_true, if_true]
      rw [h2prev hsuf, hp2, List.getLast?_concat]
  have hrot : IsRing h ((x :: m) ++ (suf ++ pre)) := by
    have h0 : IsRing h (pre ++ ((x :: m) ++ suf)) := by simpa using hl.1
    have := h0.rotate
    simpa using this
  by_cases hR : suf ++ pre = []
  · have hsuf : suf = [] := (List.append_eq_nil.1 hR).1
    have hpre : pre = [] := (List.append_eq_nil.1 hR).2
    subst hsuf hpre
    simp only [List.append_nil, List.nil_append] at hl hrot h1prev ⊢
    rw [hp2] at hrot h1prev
    rw [List.getLast?_concat] at h1prev
    have hla : Link h p2 x := by
      obtain ⟨a0, ha0, hla⟩ := hrot.last_link
      rw [← hp2] at ha0
      simp only [List.head?_cons, Option.some.injEq] at ha0
      exact ha0 ▸ hla
    obtain ⟨v, hv⟩ := Link_iff.1 hla
    have hsl : self.last = some p2 := by rw [hl.2, hp2, List.getLast?_concat]
    have hsame : ∀ a, (store (store h p2 ⟨some x, v⟩) p2 ⟨some x, v⟩) a = h a := by
      intro a
      by_cases ha : a = p2
      · subst ha
        simp [store, hv]
      · simp [store, ha]
    refine ⟨store (store h p2 ⟨some x, v⟩) p2 ⟨some x, v⟩, ⟨none⟩, ⟨some p2⟩, ?_,
      IsList_nil_iff.2 rfl, ⟨?_, ?_⟩, fun a => by rw [hsame], fun a _ => hsame a⟩
    · simp only [split_off, hne, if_false, h1prev]
      rw [show (if it2.ref ≠ none then it2.prev else self.last) = some p2 from hpp2]
      simp [load, hv, setNext, store, h1ref, hsl, bind, Except.bind, pure, Except.pure]
    · exact hl.1.frame (fun a _ => hsame a)
    · rw [hp2, List.getLast?_concat]
  · obtain ⟨r0, p1, hp1⟩ := exists_snoc_of_ne_nil hR
    rw [hp2, hp1] at hrot
    obtain ⟨x', c0, v1, v2, hx', hh2, hh1, hring1, hring2⟩ := split_rings hrot
    rw [← hp2] at hx'
    simp only [List.head?_cons, Option.some.injEq] at hx'
    rw [← hx'] at hh1 hring1 hring2
    have hip1 : it1.prev = some p1 := by
      rw [h1prev]
      have : x :: (m ++ suf ++ pre) = (x :: m) ++ (suf ++ pre) := by simp
      rw [this, hp1, ← List.append_assoc, List.getLast?_concat]
    have h12 : p1 ≠ p2 := by
      have hn' := hrot.nodup
      rw [List.nodup_append] at hn'
      exact fun e => hn'.2.2 (show p2 ∈ m0 ++ [p2] from by simp) (by simp [e])
    rw [← hp2] at hring1
    rw [← hp1] at hring2
    have hring3 : IsRing (store (store h p1 ⟨some c0, v1⟩) p2 ⟨some x, v2⟩) (pre ++ suf) :=
      hring2.rotate
    refine ⟨store (store h p1 ⟨some c0, v1⟩) p2 ⟨some x, v2⟩,
      (if self.last = some p2 then ⟨some p1⟩ else self), ⟨some p2⟩, ?_, ⟨hring3, ?_⟩,
      ⟨hring1, ?_⟩, ?_, ?_⟩
    · simp only [split_off, hne, if_false, hip1]
      rw [show (if it2.ref ≠ none then it2.prev else self.last) = some p2 from hpp2]
      simp [load, hh2, hh1, setNext, store, h12, h12.symm, h1ref, bind, Except.bind, pure,
        Except.pure]
    · by_cases hsuf : suf = []
      · subst hsuf
        have hsl : self.last = some p2 := by
          rw [hl.2, List.append_nil, List.getLast?_append_cons, hp2, List.getLast?_concat]
        simp only [hsl, if_true, List.append_nil]
        simp only [List.nil_append] at hp1
        rw [hp1, List.getLast?_concat]
      · have hsl : self.last = suf.getLast? := by
          rw [hl.2, List.getLast?_append_of_ne_nil _ hsuf]
        obtain ⟨z, hz, hzm⟩ := getLast?_mem_of_ne_nil hsuf
        have hzp : ¬ (self.last = some p2) := by
          rw [hsl, hz]
          intro e
          simp only [Option.some.injEq] at e
          subst e
          rw [List.nodup_append] at hn
          have : z ∈ x :: m := by rw [hp2]; simp
          exact hn.2.2 (show z ∈ pre ++ x :: m from by simp at this ⊢; tauto) hzm
        simp only [hzp, if_false]
        rw [hsl, List.getLast?_append_of_ne_nil _ hsuf]
    · rw [hp2, List.getLast?_concat]
    · intro a
      have e1 := map_value_store (h := store h p1 ⟨some c0, v1⟩) (a := p2)
        (n := ⟨some c0, v2⟩) (some x) (by simp [store, h12.symm, hh2]) a
      have e2 := map_value_store (h := h) (a := p1) (n := ⟨some x, v1⟩) (some c0) hh1 a
      exact e1.trans e2
    · intro a ha
      have hm1 : p1 ∈ suf ++ pre := by rw [hp1]; simp
      have hm2 : p2 ∈ x :: m := by rw [hp2]; simp
      have h1 : a ≠ p1 := by
        intro e
        apply ha
        rw [e]
        simp at hm1 ⊢
        tauto
      have h2 : a ≠ p2 := by
        intro e
        apply ha
        rw [e]
        simp at hm2 ⊢
        tauto
      simp [store, h1, h2]

end Splice2
end STC

namespace STC
open clist

section Claims3
variable {α : Type}

/-- A sequence in which some element satisfies `p` splits at the first such element. -/
theorem exists_first_match {β : Type} (p : β → Bool) :
    ∀ l : List β, (∃ a ∈ l, p a = true) →
      ∃ s1 y s2, l = s1 ++ y :: s2 ∧ (∀ a ∈ s1, p a = false) ∧ p y = true
  | [], hex => by
    obtain ⟨a, ha, -⟩ := hex
    simp at ha
  | x :: t, hex => by
    by_cases hx : p x = true
    · exact ⟨[], x, t, rfl, by simp, hx⟩
    · have hx0 : p x = false := by simpa using hx
      obtain ⟨s1, y, s2, e, h1, h2⟩ := exists_first_match p t (by
        obtain ⟨a, ha, hpa⟩ := hex
        rcases List.mem_cons.1 ha with rfl | ha
        · exact absurd hpa hx
        · exact ⟨a, ha, hpa⟩)
      refine ⟨x :: s1, y, s2, by simp [e], ?_, h2⟩
      intro a ha
      rcases List.mem_cons.1 ha with rfl | ha
      · exact hx0
      · exact h1 a ha

/-- The handle memory `oneHandle c` holds `c` at the address 0. -/
theorem oneHandle_zero (c : CList) : oneHandle c 0 = some c := rfl

theorem exTwo_self_wf : IsList exTwo exList [1, 2, 3] := by decide

theorem exTwo_other_wf : IsList exTwo ⟨some 12⟩ [11, 12] := by decide

/-- C11: for every well-formed list with nodes `pre ++ suf` and every position `it` that
`insert_at` accepts (`ref` the head of `suf`, absent at the end; `prev` the node before it),
`insert_at` returns an iterator whose `ref` is the new node (holding the value), whose `prev`
is the node before the new node in the resulting ring and whose `_last` is the `_last` of
`it`.  When `_last` is the address of the handle (`it` is `begin()` or was reached by `next`),
advancing the iterator once with `next` gives the position of the node after the new node,
or the end when the new node is last.  When `_last` is `NULL`, as in the iterator made by
`end()`, `next` on the returned iterator dereferences `NULL`: the iterator is not valid. -/
theorem insert_at_iterator_next (h : Heap α) (self : CList) (pre suf : List Nat) (it : Iter)
    (entry : Nat) (v : α) (hl : IsList h self (pre ++ suf)) (href : it.ref = suf.head?)
    (hprev : suf ≠ [] → it.prev = (suf ++ pre).getLast?) (hf : h entry = none) :
    ∃ h1 self1 it1, insert_at h self it entry v = .ok (h1, self1, it1) ∧
      IsList h1 self1 (pre ++ entry :: suf) ∧
      it1.ref = some entry ∧ (h1 entry).map Node.value = some v ∧
      it1.prev = (entry :: (suf ++ pre)).getLast? ∧ it1._last = it._last ∧
      (∀ (hs : Handles) (sid : Nat), it._last = some sid → hs sid = some self1 →
        next hs h1 it1 = .ok ⟨suf.head?, some sid, some entry⟩) ∧
      (it._last = none → ∀ hs : Handles, next hs h1 it1 = .error .nullDeref) := by
  obtain ⟨h1, self1, hp, hl1, -, hve, -, -, -⟩ := insert_at_aux entry v hl href hprev hf
  refine ⟨h1, self1, _, hp, hl1, rfl, hve, rfl, rfl, ?_, ?_⟩
  · intro hs sid hsid hh
    rw [hsid]
    exact next_at_node hl1 hh _
  · intro hnone hs
    simp [next, hnone, readLast, bind, Except.bind]

/-- C11, on the list `[5, 3, 8]`: `insert_at(end(), 7)` returns an iterator at the new node
on which `next` dereferences the `NULL` in `_last`. -/
theorem insert_at_end_next_fault :
    ∃ h1 self1 it1, insert_at exHeap exList _end 9 7 = .ok (h1, self1, it1) ∧
      IsList h1 self1 [1, 2, 3, 9] ∧ it1.ref = some 9 ∧ it1.prev = some 3 ∧
      next (oneHandle self1) h1 it1 = .error .nullDeref := by
  obtain ⟨h1, self1, it1, he, hl1, hr, -, hpv, -, -, hn⟩ :=
    insert_at_iterator_next exHeap exList [1, 2, 3] [] _end 9 7 exList_wf rfl
      (fun hne => absurd rfl hne) rfl
  exact ⟨h1, self1, it1, he, hl1, hr, hpv, hn rfl _⟩

/-- C12: for every well-formed list with nodes `pre ++ x :: suf` and every iterator `it` that
designates the node `x` (`ref` is `x`, `prev` the node before it in the ring), `erase_at(it)`
returns and removes exactly that node: the list has the nodes `pre ++ suf` with their values
in order, `x` is no longer live, `count` goes from `n + 1` to `n`, and the returned iterator
designates the node that followed `x` (its `ref` is the head of `suf`, its `prev` the node
before it), or is at the end (`ref` absent) when `x` was last. -/
theorem erase_at_spec (h : Heap α) (self : CList) (pre suf : List Nat) (x : Nat) (it : Iter)
    (hl : IsList h self (pre ++ x :: suf)) (href : it.ref = some x)
    (hprev : it.prev = (x :: (suf ++ pre)).getLast?) :
    ∃ h1 self1 it1, erase_at h self it = .ok (h1, self1, it1) ∧
      IsList h1 self1 (pre ++ suf) ∧ h1 x = none ∧
      vals h1 (pre ++ suf) = vals h pre ++ vals h suf ∧
      (∀ a, a ∉ pre ++ x :: suf → h1 a = h a) ∧
      (∀ fuel, (pre ++ suf).length + 1 ≤ fuel →
        count fuel h self = .ok ((pre ++ suf).length + 1)) ∧
      (∀ fuel, (pre ++ suf).length ≤ fuel → count fuel h1 self1 = .ok (pre ++ suf).length) ∧
      it1.ref = suf.head? ∧ (suf ≠ [] → it1.prev = (suf ++ pre).getLast?) ∧
      it1._last = it._last ∧ (it1.ref = none ↔ suf = []) := by
  obtain ⟨h1, self1, hp, hl1, hx, hv, hfr, -⟩ := erase_at_aux hl href hprev
  have hn := hl.1.nodup
  have hxn : x ∉ pre ++ suf := by
    rw [List.nodup_append] at hn
    have h2 := List.nodup_cons.1 hn.2.1
    intro hm
    rcases List.mem_append.1 hm with hm | hm
    · exact hn.2.2 hm (by simp)
    · exact h2.1 hm
  refine ⟨h1, self1, _, hp, hl1, hx, ?_, hfr, ?_,
    fun fuel hfu => count_of_IsList hl1 fuel hfu, rfl, ?_, rfl, List.head?_eq_none_iff⟩
  · rw [← vals_append]
    exact vals_congr (fun a ha => hv a (fun e => hxn (e ▸ ha)))
  · intro fuel hfu
    have := count_of_IsList hl fuel (by simp at hfu ⊢; omega)
    simpa [Nat.add_assoc] using this
  · intro hne
    show it.prev = _
    rw [hprev]
    exact getLast?_cons_of_ne_nil x (by simp [hne])

theorem erase_at_spec_witness :
    IsList exHeap exList ([1] ++ 2 :: [3]) ∧
    ∃ h1 self1 it1, erase_at exHeap exList ⟨some 2, some 0, some 1⟩ = .ok (h1, self1, it1) ∧
      IsList h1 self1 ([1] ++ [3]) ∧ h1 2 = none ∧
      vals h1 ([1] ++ [3]) = vals exHeap [1] ++ vals exHeap [3] ∧
      (∀ a, a ∉ [1] ++ 2 :: [3] → h1 a = exHeap a) ∧
      (∀ fuel, ([1] ++ [3]).length + 1 ≤ fuel →
        count fuel exHeap exList = .ok (([1] ++ [3]).length + 1)) ∧
      (∀ fuel, ([1] ++ [3]).length ≤ fuel → count fuel h1 self1 = .ok ([1] ++ [3]).length) ∧
      it1.ref = [3].head? ∧ (([3] : List Nat) ≠ [] → it1.prev = ([3] ++ [1]).getLast?) ∧
      it1._last = (⟨some 2, some 0, some 1⟩ : Iter)._last ∧
      (it1.ref = none ↔ ([3] : List Nat) = []) :=
  ⟨exList_wf, erase_at_spec exHeap exList [1] [3] 2 ⟨some 2, some 0, some 1⟩ exList_wf rfl rfl⟩

/-- C13: for every well-formed list with nodes `pre ++ x :: m ++ suf` (so `mid = x :: m` is
not empty), `it1` designating `x` and `it2` designating the head of `suf` (`ref` absent when
`suf` is empty), `erase_range(it1, it2)` returns for every step budget of at least
`length(mid)`, erases every node of `mid` and no other: the list has the nodes `pre ++ suf`
with their values in order, `count` decreases by exactly `length(mid)`, and the ring stays
closed, with `last` absent if and only if `pre` and `suf` are both empty. -/
theorem erase_range_spec (h : Heap α) (self : CList) (pre m suf : List Nat) (x : Nat)
    (it1 it2 : Iter) (hl : IsList h self (pre ++ x :: (m ++ suf)))
    (h1ref : it1.ref = some x) (h1prev : it1.prev = (x :: (m ++ suf ++ pre)).getLast?)
    (h2ref : it2.ref = suf.head?) (fuel : Nat) (hf : (x :: m).length ≤ fuel) :
    ∃ h1 self1 it, erase_range fuel h self it1 it2 = .ok (h1, self1, it) ∧ it = it2 ∧
      IsList h1 self1 (pre ++ suf) ∧
      vals h1 (pre ++ suf) = vals h pre ++ vals h suf ∧
      (∀ a ∈ x :: m, h1 a = none) ∧
      (∀ a, a ∉ pre ++ x :: (m ++ suf) → h1 a = h a) ∧
      (∀ fu, (pre ++ suf).length + (x :: m).length ≤ fu →
        count fu h self = .ok ((pre ++ suf).length + (x :: m).length)) ∧
      (∀ fu, (pre ++ suf).length ≤ fu → count fu h1 self1 = .ok (pre ++ suf).length) ∧
      (self1.last = none ↔ pre = [] ∧ suf = []) := by
  obtain ⟨h1, self1, hp, hl1, hx, hv, hfr⟩ :=
    erase_range_aux hl h1ref h1prev h2ref (by simpa using hf)
  have hn := hl.1.nodup
  have hdis : ∀ a ∈ pre ++ suf, a ∉ x :: m := by
    intro a ha hm
    have e : pre ++ x :: (m ++ suf) = pre ++ ((x :: m) ++ suf) := by simp
    rw [e, List.nodup_append] at hn
    rcases List.mem_append.1 ha with ha | ha
    · exact hn.2.2 ha (List.mem_append_left _ hm)
    · have h2 := hn.2.1
      rw [List.nodup_append] at h2
      exact h2.2.2 hm ha
  refine ⟨h1, self1, it2, hp, rfl, hl1, ?_, hx, hfr, ?_,
    fun fu hfu => count_of_IsList hl1 fu hfu, ?_⟩
  · rw [← vals_append]
    exact vals_congr (fun a ha => hv a (hdis a ha))
  · intro fu hfu
    have := count_of_IsList hl fu (by simp at hfu ⊢; omega)
    rw [this]
    congr 1
    simp
    omega
  · rw [hl1.2, List.getLast?_eq_none_iff, List.append_eq_nil]

theorem erase_range_spec_witness :
    IsList exHeap exList ([] ++ 1 :: ([2] ++ [3])) ∧
    ∃ h1 self1 it, erase_range 2 exHeap exList ⟨some 1, some 0, some 3⟩
        ⟨some 3, some 0, some 2⟩ = .ok (h1, self1, it) ∧ it = ⟨some 3, some 0, some 2⟩ ∧
      IsList h1 self1 ([] ++ [3]) ∧
      vals h1 ([] ++ [3]) = vals exHeap [] ++ vals exHeap [3] ∧
      (∀ a ∈ 1 :: [2], h1 a = none) ∧
      (∀ a, a ∉ [] ++ 1 :: ([2] ++ [3]) → h1 a = exHeap a) ∧
      (∀ fu, ([] ++ [3]).length + (1 :: [2]).length ≤ fu →
        count fu exHeap exList = .ok (([] ++ [3]).length + (1 :: [2]).length)) ∧
      (∀ fu, ([] ++ [3]).length ≤ fu → count fu h1 self1 = .ok ([] ++ [3]).length) ∧
      (self1.last = none ↔ ([] : List Nat) = [] ∧ ([3] : List Nat) = []) :=
  ⟨exList_wf, erase_range_spec exHeap exList [] [2] [3] 1 ⟨some 1, some 0, some 3⟩
    ⟨some 3, some 0, some 2⟩ exList_wf rfl rfl rfl 2 (by decide)⟩

/-- C14: for every well-formed list with nodes `l` (the empty list and the lists all of whose
values equal `val` included) and every value `val`, `remove(val)` returns for every step
budget of at least `2 * length(l)`, leaves a well-formed list whose nodes are a sub-sequence
of `l` and whose values are exactly the values of `l` that are not equal to `val`, in their
order, and returns the number of values of `l` equal to `val`. -/
theorem remove_spec (i_eq : α → α → Bool) (val : α) (h : Heap α) (self : CList)
    (l : List Nat) (hl : IsList h self l) (fuel : Nat) (hf : 2 * l.length ≤ fuel) :
    ∃ h1 self1 l1 n, remove i_eq fuel h self val = .ok (h1, self1, n) ∧
      IsList h1 self1 l1 ∧ l1.Sublist l ∧
      vals h1 l1 = (vals h l).filter (fun x => !(i_eq x val)) ∧
      n = (vals h l).countP (fun x => i_eq x val) ∧
      n + l1.length = l.length ∧
      ((∀ x ∈ vals h l, i_eq x val = true) → self1.last = none) := by
  obtain ⟨h1, self1, l1, hp, hl1, hsub, hv, -⟩ := remove_aux i_eq val hl hf
  obtain ⟨vf, hvf⟩ : ∃ vf : Nat → α, ∀ a ∈ l, (h a).map Node.value = some (vf a) := by
    by_cases hne : l = []
    · exact ⟨fun _ => val, by simp [hne]⟩
    · exact exists_vf hl.1 hne
  have hvl : vals h l = l.map vf := vals_eq_map hvf
  have hlen1 : (vals h1 l1).length = l1.length := by
    by_cases hne : l1 = []
    · simp [hne, vals]
    · obtain ⟨vf1, hvf1⟩ := exists_vf hl1.1 hne
      rw [vals_eq_map hvf1, List.length_map]
  refine ⟨h1, self1, l1, _, hp, hl1, hsub, hv, rfl, ?_, ?_⟩
  · rw [← hlen1, hv, ← List.countP_eq_length_filter]
    have := List.length_eq_countP_add_countP (fun x => i_eq x val) (vals h l)
    rw [hvl, List.length_map] at this
    rw [hvl, this]
    congr 1
    apply List.countP_congr
    intro x _
    simp
  · intro hall
    have e : vals h1 l1 = [] := by
      rw [hv, List.filter_eq_nil_iff]
      intro x hx
      simp [hall x hx]
    have h0 : l1.length = 0 := by
      rw [← hlen1, e]
      rfl
    rw [hl1.2, List.length_eq_zero.1 h0]
    rfl

theorem remove_spec_witness :
    IsList exHeap exList [1, 2, 3] ∧
    ∃ h1 self1 l1 n, remove c_default_eq 6 exHeap exList 8 = .ok (h1, self1, n) ∧
      IsList h1 self1 l1 ∧ l1.Sublist [1, 2, 3] ∧
      vals h1 l1 = (vals exHeap [1, 2, 3]).filter (fun x => !(c_default_eq x 8)) ∧
      n = (vals exHeap [1, 2, 3]).countP (fun x => c_default_eq x 8) ∧
      n + l1.length = [1, 2, 3].length ∧
      ((∀ x ∈ vals exHeap [1, 2, 3], c_default_eq x 8 = true) → self1.last = none) :=
  ⟨exList_wf, remove_spec c_default_eq 8 exHeap exList [1, 2, 3] exList_wf 6 (by decide)⟩

end Claims3
end STC

namespace STC
open clist

section Claims4
variable {α : Type}

/-- C15: `clist_X_remove` of `src/stc/clist.h` on the list `[10, 20, 30, 40, 30, 50]` with the
value 30 leaves `[10, 20, 40, 50]` and returns 2, but it does not return on every
well-formed list: on the empty list the first `clist_X_next` reads `item->next` through the
`NULL` item of `before_begin`, and on the list `[30]` with the value 30 (every element equal
to the value) `clist_X_erase_after` advances its iterator through the node it has just
freed. -/
theorem clist_X_remove_faults :
    (∃ hs1 h1 n c, clist_X_remove c_default_cmp 10 (oneHandle ⟨some 6⟩) exHeap6 0 30 =
        .ok (hs1, h1, n) ∧ n = 2 ∧ hs1 0 = some c ∧ IsList h1 c [1, 2, 4, 6] ∧
        vals h1 [1, 2, 4, 6] = [10, 20, 40, 50] ∧ vals exHeap6 [1, 2, 3, 4, 5, 6] =
        [10, 20, 30, 40, 30, 50] ∧ IsList exHeap6 ⟨some 6⟩ [1, 2, 3, 4, 5, 6]) ∧
    (∀ (cmp : α → α → Int) (fuel : Nat) (h : Heap α) (val : α), IsList h ⟨none⟩ [] ∧
      clist_X_remove cmp (fuel + 1) (oneHandle ⟨none⟩) h 0 val = .error .nullDeref) ∧
    (∀ fuel : Nat, IsList exHeap1 ⟨some 1⟩ [1] ∧ vals exHeap1 [1] = [30] ∧
      clist_X_remove c_default_cmp (fuel + 1) (oneHandle ⟨some 1⟩) exHeap1 0 30 =
        .error .invalidAccess) := by
  refine ⟨⟨_, _, _, _, rfl, rfl, rfl, by decide, rfl, rfl, by decide⟩, ?_, ?_⟩
  · intro cmp fuel h val
    refine ⟨IsList_nil_iff.2 rfl, ?_⟩
    simp [clist_X_remove, clist_X_before_begin, readHandle, oneHandle, clist_X_remove_loop,
      clist_X_find_before, clist_X_next, readLast, load, bind, Except.bind, pure, Except.pure]
  · intro fuel
    refine ⟨by decide, rfl, ?_⟩
    cases fuel <;> rfl

/-- C16: for every well-formed list with nodes `l` (the empty list included) and every value
`val`, `find(val)` returns for every step budget above `length(l)`.  It takes and returns no
memory, so the list is not modified.  The iterator it returns is at the end (`ref` absent)
if and only if no value of the list equals `val`; otherwise its `ref` is the first node from
the head whose value equals `val`, its `prev` the node before that node in the ring, and its
`_last` the address of the handle. -/
theorem find_spec (i_eq : α → α → Bool) (val : α) (hs : Handles) (h : Heap α) (sid : Nat)
    (self : CList) (l : List Nat) (hl : IsList h self l) (hsid : hs sid = some self)
    (fuel : Nat) (hf : l.length < fuel) :
    ∃ it, find i_eq fuel hs h sid self val = .ok it ∧
      (it.ref = none ↔ ∀ x ∈ vals h l, i_eq x val = false) ∧
      ((∀ x ∈ vals h l, i_eq x val = false) → it = _end) ∧
      (∀ s1 y s2 ny, l = s1 ++ y :: s2 → (∀ x ∈ vals h s1, i_eq x val = false) →
        h y = some ny → i_eq ny.value val = true →
        it = ⟨some y, some sid, (y :: (s2 ++ s1)).getLast?⟩) := by
  obtain ⟨vf, hvf⟩ : ∃ vf : Nat → α, ∀ a ∈ l, (h a).map Node.value = some (vf a) := by
    by_cases hne : l = []
    · exact ⟨fun _ => val, by simp [hne]⟩
    · exact exists_vf hl.1 hne
  have hvl : vals h l = l.map vf := vals_eq_map hvf
  have hl0 : IsList h self ([] ++ l) := hl
  have hspec := find_in_loop_spec i_eq val vf hsid l [] l.getLast? fuel hl0 hvf
    (fun _ => by simp) hf
  have hb := begin_spec hl sid
  have hfirst : ∀ s1 y s2, l = s1 ++ y :: s2 → (∀ a ∈ s1, i_eq (vf a) val = false) →
      i_eq (vf y) val = true →
      find i_eq fuel hs h sid self val =
        .ok ⟨some y, some sid, (y :: (s2 ++ s1)).getLast?⟩ := by
    intro s1 y s2 e h1 h2
    have := hspec.1 s1 y s2 e h1 h2
    simp only [List.append_nil] at this
    simp only [find, find_in, hb, bind, Except.bind, _end, this, pure, Except.pure]
  have hnone : (∀ a ∈ l, i_eq (vf a) val = false) →
      find i_eq fuel hs h sid self val = .ok _end := by
    intro hall
    have := hspec.2 hall
    simp only [find, find_in, hb, bind, Except.bind, _end, this, pure, Except.pure]
  have hallv : (∀ x ∈ vals h l, i_eq x val = false) ↔ ∀ a ∈ l, i_eq (vf a) val = false := by
    rw [hvl]
    simp
  by_cases hall : ∀ a ∈ l, i_eq (vf a) val = false
  · refine ⟨_end, hnone hall, ?_, fun _ => rfl, ?_⟩
    · exact ⟨fun _ => hallv.2 hall, fun _ => rfl⟩
    · intro s1 y s2 ny e _ hy hyv
      exfalso
      have hm : y ∈ l := by simp [e]
      have h1 := hvf y hm
      rw [hy] at h1
      simp only [Option.map_some', Option.some.injEq] at h1
      have h2 := hall y hm
      rw [← h1, hyv] at h2
      exact Bool.noConfusion h2
  · have hex : ∃ a ∈ l, (fun a => i_eq (vf a) val) a = true := by
      by_contra hcon
      apply hall
      intro a ha
      by_contra hne
      exact hcon ⟨a, ha, by simpa using hne⟩
    obtain ⟨s1, y, s2, e, h1, h2⟩ := exists_first_match (fun a => i_eq (vf a) val) l hex
    refine ⟨_, hfirst s1 y s2 e h1 h2, ?_, ?_, ?_⟩
    · constructor
      · intro hr
        simp at hr
      · intro hv
        exact absurd (hallv.1 hv) hall
    · intro hv
      exact absurd (hallv.1 hv) hall
    · intro t1 z t2 nz e1 ht1 hz hzv
      have hzm : z ∈ l := by simp [e1]
      have hz1 := hvf z hzm
      rw [hz] at hz1
      simp only [Option.map_some', Option.some.injEq] at hz1
      have hvs : vals h t1 = t1.map vf := by
        apply vals_eq_map
        intro a ha
        exact hvf a (by simp [e1, ha])
      have ht1f : ∀ a ∈ t1, i_eq (vf a) val = false := by
        intro a ha
        apply ht1
        rw [hvs]
        exact List.mem_map_of_mem vf ha
      have := hfirst t1 z t2 e1 ht1f (by rw [← hz1]; exact hzv)
      rw [hfirst s1 y s2 e h1 h2] at this
      exact Except.ok.inj this

theorem find_spec_witness :
    IsList exHeap exList [1, 2, 3] ∧ oneHandle exList 0 = some exList ∧
    ∃ it, find c_default_eq 4 (oneHandle exList) exHeap 0 exList 3 = .ok it ∧
      (it.ref = none ↔ ∀ x ∈ vals exHeap [1, 2, 3], c_default_eq x 3 = false) ∧
      ((∀ x ∈ vals exHeap [1, 2, 3], c_default_eq x 3 = false) → it = _end) ∧
      (∀ s1 y s2 ny, [1, 2, 3] = s1 ++ y :: s2 →
        (∀ x ∈ vals exHeap s1, c_default_eq x 3 = false) →
        exHeap y = some ny → c_default_eq ny.value 3 = true →
        it = ⟨some y, some 0, (y :: (s2 ++ s1)).getLast?⟩) :=
  ⟨exList_wf, rfl,
    find_spec c_default_eq 3 (oneHandle exList) exHeap 0 exList [1, 2, 3] exList_wf rfl 4
      (by decide)⟩

/-- C17: for every well-formed list with nodes `l` (the empty list included), `reverse`
returns for every step budget of at least `length(l) + 1` and leaves a well-formed list whose
nodes are the nodes of `l` in reverse order and whose value sequence is the reverse of the
value sequence of `l`; it uses exactly the same nodes: every address is live after it if and
only if it was live before it, with the same value, and every node outside the list is
untouched. -/
theorem reverse_spec (h : Heap α) (self : CList) (l : List Nat) (hl : IsList h self l)
    (fuel : Nat) (hf : l.length + 1 ≤ fuel) :
    ∃ h1 self1, reverse fuel h self = .ok (h1, self1) ∧ IsList h1 self1 l.reverse ∧
      vals h1 l.reverse = (vals h l).reverse ∧
      (∀ a, (h1 a).map Node.value = (h a).map Node.value) ∧
      (∀ a, h1 a = none ↔ h a = none) ∧
      (∀ a, a ∉ l → h1 a = h a) := by
  obtain ⟨h1, self1, hp, hl1, hv, hvs, hfr⟩ := reverse_aux hl hf
  refine ⟨h1, self1, hp, hl1, hv, hvs, ?_, hfr⟩
  intro a
  have := hvs a
  cases e1 : h1 a <;> cases e : h a <;> simp [e1, e] at this ⊢

theorem reverse_spec_witness :
    IsList exHeap exList [1, 2, 3] ∧
    ∃ h1 self1, reverse 4 exHeap exList = .ok (h1, self1) ∧
      IsList h1 self1 [1, 2, 3].reverse ∧
      vals h1 [1, 2, 3].reverse = (vals exHeap [1, 2, 3]).reverse ∧
      (∀ a, (h1 a).map Node.value = (exHeap a).map Node.value) ∧
      (∀ a, h1 a = none ↔ exHeap a = none) ∧
      (∀ a, a ∉ [1, 2, 3] → h1 a = exHeap a) :=
  ⟨exList_wf, reverse_spec exHeap exList [1, 2, 3] exList_wf 4 (by decide)⟩

/-- C18: `reverse` is an involution on value sequences: for every well-formed list with nodes
`l`, applying `reverse` twice (each time with a step budget of at least `length(l) + 1`)
returns and yields a well-formed list with the nodes `l` in their original order, whose value
sequence equals that of the original list. -/
theorem reverse_involution (h : Heap α) (self : CList) (l : List Nat) (hl : IsList h self l)
    (fuel : Nat) (hf : l.length + 1 ≤ fuel) :
    ∃ h1 self1 h2 self2, reverse fuel h self = .ok (h1, self1) ∧
      reverse fuel h1 self1 = .ok (h2, self2) ∧
      IsList h2 self2 l ∧ vals h2 l = vals h l ∧ self2 = self := by
  obtain ⟨h1, self1, hp, hl1, -, hvs, -⟩ := reverse_aux hl hf
  obtain ⟨h2, self2, hp2, hl2, -, hvs2, -⟩ := reverse_aux hl1 (by simpa using hf)
  rw [List.reverse_reverse] at hl2
  refine ⟨h1, self1, h2, self2, hp, hp2, hl2, ?_, ?_⟩
  · exact vals_congr (fun a _ => (hvs2 a).trans (hvs a))
  · have e1 := hl2.2
    have e2 := hl.2
    cases self2
    cases self
    simp only at e1 e2
    rw [e1, e2]

theorem reverse_involution_witness :
    IsList exHeap exList [1, 2, 3] ∧
    ∃ h1 self1 h2 self2, reverse 4 exHeap exList = .ok (h1, self1) ∧
      reverse 4 h1 self1 = .ok (h2, self2) ∧
      IsList h2 self2 [1, 2, 3] ∧ vals h2 [1, 2, 3] = vals exHeap [1, 2, 3] ∧
      self2 = exList :=
  ⟨exList_wf, reverse_involution exHeap exList [1, 2, 3] exList_wf 4 (by decide)⟩

/-- C19: for every well-formed list with nodes `pre ++ mid ++ suf`, with `it1` at the first
node of `mid ++ suf` and `it2` at the first node of `suf` (`ref` absent when there is none,
`prev` the node before in the ring), `split_off(it1, it2)` returns a well-formed list with
the nodes `mid` and leaves the donor well formed with the nodes `pre ++ suf`; both keep their
values in order, every address is live with the same value as before (no node is created,
destroyed or copied) and the nodes outside the list are untouched.  When `mid` is empty, so
that `it1` and `it2` denote the same position, it returns the empty list and leaves the
memory and the donor unchanged. -/
theorem split_off_spec (h : Heap α) (self : CList) (pre mid suf : List Nat) (it1 it2 : Iter)
    (hl : IsList h self (pre ++ mid ++ suf)) (h1ref : it1.ref = (mid ++ suf).head?)
    (h1prev : mid ≠ [] → it1.prev = (mid ++ suf ++ pre).getLast?)
    (h2ref : it2.ref = suf.head?) (h2prev : mid ≠ [] → suf ≠ [] → it2.prev = mid.getLast?) :
    ∃ h1 self1 lst, split_off h self it1 it2 = .ok (h1, self1, lst) ∧
      IsList h1 self1 (pre ++ suf) ∧ IsList h1 lst mid ∧
      vals h1 (pre ++ suf) = vals h pre ++ vals h suf ∧ vals h1 mid = vals h mid ∧
      (∀ a, (h1 a).map Node.value = (h a).map Node.value) ∧
      (∀ a, a ∉ pre ++ mid ++ suf → h1 a = h a) ∧
      (mid = [] → h1 = h ∧ self1 = self ∧ lst = ⟨none⟩) := by
  cases mid with
  | nil =>
    have e : it1.ref = it2.ref := by
      rw [h1ref, h2ref]
      rfl
    refine ⟨h, self, ⟨none⟩, by simp [split_off, e, pure, Except.pure], by simpa using hl,
      IsList_nil_iff.2 rfl, vals_append h pre suf, rfl, fun _ => rfl, fun _ _ => rfl,
      fun _ => ⟨rfl, rfl, rfl⟩⟩
  | cons x m =>
    obtain ⟨h1, self1, lst, hp, hl1, hl2, hvs, hfr⟩ :=
      split_off_aux hl (by simpa using h1ref) (by simpa using h1prev (by simp)) h2ref
        (fun hne => h2prev (by simp) hne)
    refine ⟨h1, self1, lst, hp, hl1, hl2, ?_, vals_congr (fun a _ => hvs a), hvs, hfr,
      fun e => absurd e (by simp)⟩
    rw [← vals_append]
    exact vals_congr (fun a _ => hvs a)

theorem split_off_spec_witness :
    IsList exHeap exList ([1] ++ [2] ++ [3]) ∧
    ∃ h1 self1 lst, split_off exHeap exList ⟨some 2, some 0, some 1⟩
        ⟨some 3, some 0, some 2⟩ = .ok (h1, self1, lst) ∧
      IsList h1 self1 ([1] ++ [3]) ∧ IsList h1 lst [2] ∧
      vals h1 ([1] ++ [3]) = vals exHeap [1] ++ vals exHeap [3] ∧
      vals h1 [2] = vals exHeap [2] ∧
      (∀ a, (h1 a).map Node.value = (exHeap a).map Node.value) ∧
      (∀ a, a ∉ [1] ++ [2] ++ [3] → h1 a = exHeap a) ∧
      (([2] : List Nat) = [] → h1 = exHeap ∧ self1 = exList ∧ lst = ⟨none⟩) :=
  ⟨exList_wf, split_off_spec exHeap exList [1] [2] [3] ⟨some 2, some 0, some 1⟩
    ⟨some 3, some 0, some 2⟩ exList_wf rfl (fun _ => rfl) rfl (fun _ _ => rfl)⟩

/-- C20: for every two well-formed lists on disjoint nodes, `self` with the nodes
`pre ++ suf` and `it` at the first node of `suf` (`ref` absent when `suf` is empty, so always
when `self` is empty), and `other` with the nodes `ys`, `splice(self, it, other)` returns,
leaves `self` well formed with the nodes `pre ++ ys ++ suf` and their values in that order,
and leaves `other` empty; no node is created, destroyed or changes its value.  The `last` of
`self` becomes the former `last` of `other` when `it` is at the end and `other` is not empty,
and the handle of `self` is unchanged otherwise. -/
theorem splice_spec (h : Heap α) (self other : CList) (pre suf ys : List Nat) (it : Iter)
    (hl : IsList h self (pre ++ suf)) (ho : IsList h other ys)
    (hd : ∀ a ∈ pre ++ suf, a ∉ ys) (href : it.ref = suf.head?)
    (hprev : suf ≠ [] → it.prev = (suf ++ pre).getLast?) :
    ∃ h1 self1 other1 it1, splice h self it other = .ok (h1, self1, other1, it1) ∧
      IsList h1 self1 (pre ++ ys ++ suf) ∧ IsList h1 other1 [] ∧ other1.last = none ∧
      vals h1 (pre ++ ys ++ suf) = vals h pre ++ vals h ys ++ vals h suf ∧
      (∀ a, (h1 a).map Node.value = (h a).map Node.value) ∧
      (∀ a, a ∉ pre ++ suf → a ∉ ys → h1 a = h a) ∧
      (it.ref = none → ys ≠ [] → self1.last = other.last) ∧
      (¬ (it.ref = none ∧ ys ≠ []) → self1 = self) ∧
      (pre ++ suf = [] → it.ref = none) ∧ it1.ref = it.ref := by
  obtain ⟨h1, self1, it1, hp, hl1, hvs, hfr, hlast, hsame, hr⟩ :=
    splice_aux hl ho hd href hprev
  refine ⟨h1, self1, ⟨none⟩, it1, hp, hl1, IsList_nil_iff.2 rfl, rfl, ?_, hvs, hfr, hlast,
    hsame, ?_, hr⟩
  · rw [← vals_append, ← vals_append]
    exact vals_congr (fun a _ => hvs a)
  · intro e
    rw [href, (List.append_eq_nil.1 e).2]
    rfl

theorem splice_spec_witness :
    IsList exTwo exList ([1] ++ [2, 3]) ∧ IsList exTwo ⟨some 12⟩ [11, 12] ∧
    ∃ h1 self1 other1 it1, splice exTwo exList ⟨some 2, some 0, some 1⟩ ⟨some 12⟩ =
        .ok (h1, self1, other1, it1) ∧
      IsList h1 self1 ([1] ++ [11, 12] ++ [2, 3]) ∧ IsList h1 other1 [] ∧
      other1.last = none ∧
      vals h1 ([1] ++ [11, 12] ++ [2, 3]) =
        vals exTwo [1] ++ vals exTwo [11, 12] ++ vals exTwo [2, 3] ∧
      (∀ a, (h1 a).map Node.value = (exTwo a).map Node.value) ∧
      (∀ a, a ∉ [1] ++ [2, 3] → a ∉ [11, 12] → h1 a = exTwo a) ∧
      ((⟨some 2, some 0, some 1⟩ : Iter).ref = none → ([11, 12] : List Nat) ≠ [] →
        self1.last = (⟨some 12⟩ : CList).last) ∧
      (¬ ((⟨some 2, some 0, some 1⟩ : Iter).ref = none ∧ ([11, 12] : List Nat) ≠ []) →
        self1 = exList) ∧
      ([1] ++ [2, 3] = [] → (⟨some 2, some 0, some 1⟩ : Iter).ref = none) ∧
      it1.ref = (⟨some 2, some 0, some 1⟩ : Iter).ref :=
  ⟨exTwo_self_wf, exTwo_other_wf,
    splice_spec exTwo exList ⟨some 12⟩ [1] [2, 3] [11, 12] ⟨some 2, some 0, some 1⟩
      exTwo_self_wf exTwo_other_wf (by decide) rfl (fun _ => rfl)⟩

end Claims4
end STC

namespace STC
open clist

section Protocol
variable {α : Type}

/-- In two memories that hold the same ring, a node of the ring has the same `next`. -/
theorem ring_next_eq {h h2 : Heap α} {L : List Nat} (hr : IsRing h L) (hr2 : IsRing h2 L)
    {a : Nat} (ha : a ∈ L) : (h2 a).map Node.next = (h a).map Node.next := by
  obtain ⟨l1, l2, rfl⟩ := List.append_of_mem ha
  cases l2 with
  | nil =>
    obtain ⟨b, hb, hlb⟩ := hr.last_link
    obtain ⟨b2, hb2, hlb2⟩ := hr2.last_link
    rw [hb] at hb2
    simp only [Option.some.injEq] at hb2
    subst hb2
    unfold Link at hlb hlb2
    rw [hlb, hlb2]
  | cons y l2' =>
    have e1 : Link h a y := hr.link_next
    have e2 : Link h2 a y := hr2.link_next
    unfold Link at e1 e2
    rw [e1, e2]

/-- A node is determined by its `next` and its value. -/
theorem node_eq_of_fields {h h2 : Heap α} {a : Nat}
    (hn : (h2 a).map Node.next = (h a).map Node.next)
    (hv : (h2 a).map Node.value = (h a).map Node.value) : h2 a = h a := by
  cases e2 : h2 a with
  | none =>
    cases e : h a with
    | none => rfl
    | some n => simp [e2, e] at hn
  | some n2 =>
    cases e : h a with
    | none => simp [e2, e] at hn
    | some n =>
      simp only [e2, e, Option.map_some', Option.some.injEq] at hn hv
      cases n2
      cases n
      simp only at hn hv
      rw [hn, hv]

/-- Advancing an iterator `k` times from a position of a list. -/
theorem advance_spec {hs : Handles} {h : Heap α} {self : CList} {sid : Nat}
    (hsid : hs sid = some self) :
    ∀ (k : Nat) (pre suf : List Nat) (p : Ptr), IsList h self (pre ++ suf) →
      p = (suf ++ pre).getLast? →
      advance hs h ⟨suf.head?, some sid, p⟩ k =
        .ok ⟨(suf.drop k).head?, some sid, (suf.drop k ++ pre ++ suf.take k).getLast?⟩
  | 0, pre, suf, p, _, hp => by
    simp [advance, pure, Except.pure, hp]
  | k + 1, pre, [], p, _, hp => by
    simp [advance, pure, Except.pure, hp]
  | k + 1, pre, x :: s, p, hl, _ => by
    have hl1 : IsList h self ((pre ++ [x]) ++ s) := by simpa using hl
    have ih := advance_spec hsid k (pre ++ [x]) s (some x) hl1 (by simp)
    have hn := next_at_node hl hsid p
    simp only [advance, List.head?_cons, ne_eq, reduceCtorEq, not_false_eq_true, if_true, hn,
      bind, Except.bind, ih, List.drop_succ_cons, List.take_succ_cons]
    simp

/-- The macro `_clist_insert_after` of the older header links the new node as the macro
`_c_clist_insert_entry_after` of the current header does, when `node` is `NULL` exactly for
the empty list. -/
theorem old_insert_after_eq {hs : Handles} {h : Heap α} {self : Nat} {c : CList}
    (hc : hs self = some c) (node : Ptr) (entry : Nat) (val : α)
    (hnode : c.last = none ↔ node = none) :
    _clist_insert_after hs h self node entry val =
      _c_clist_insert_entry_after h node entry val := by
  cases node with
  | none =>
    have e : c.last = none := hnode.2 rfl
    simp [_clist_insert_after, readHandle, hc, e, _c_clist_insert_entry_after,
      _c_clist_insert_after_node, bind, Except.bind, pure, Except.pure]
    cases setNext (store h entry ⟨none, val⟩) (some entry) (some entry) <;> rfl
  | some r =>
    have e : ¬ c.last = none := fun e => by
      have := hnode.1 e
      simp at this
    simp only [_clist_insert_after, readHandle, hc, ne_eq, e, not_false_eq_true, if_true,
      _c_clist_insert_entry_after, _c_clist_insert_after_node, bind, Except.bind, pure,
      Except.pure, reduceCtorEq]
    cases load (store h entry ⟨none, val⟩) (some r) with
    | error e => rfl
    | ok nn => rfl

/-- The macro `_clist_erase_after` of the older header changes the memory and the handle as
`_cx_memb(_erase_after_node)` of the current header does. -/
theorem old_erase_after_eq {hs : Handles} {h : Heap α} {self : Nat} {c : CList}
    (hc : hs self = some c) {node : Ptr} {h1 : Heap α} {c1 : CList}
    (he : erase_after_node h c node = .ok (h1, c1)) :
    _clist_erase_after hs h self node = .ok (setHandle hs self c1, h1) := by
  simp only [erase_after_node, unlink_after_node, bind, Except.bind, pure, Except.pure] at he
  simp only [_clist_erase_after, bind, Except.bind, pure, Except.pure, readHandle, hc]
  cases e1 : load h node with
  | error e => simp [e1] at he
  | ok nn =>
    simp only [e1] at he ⊢
    cases e2 : load h nn.next with
    | error e => simp [e2] at he
    | ok dn =>
      simp only [e2] at he ⊢
      cases e3 : setNext h node dn.next with
      | error e => simp [e3] at he
      | ok h2 =>
        simp only [e3] at he ⊢
        by_cases c1' : nn.next = dn.next
        · simp only [c1', if_true] at he ⊢
          simp only [Except.ok.injEq, Prod.mk.injEq] at he
          rw [← he.1, ← he.2]
        · simp only [c1', if_false] at he ⊢
          by_cases c2 : nn.next = c.last
          · have c2' : c.last = nn.next := c2.symm
            simp only [c2, if_true] at he
            simp only [c2', if_true]
            simp only [Except.ok.injEq, Prod.mk.injEq] at he
            rw [← he.1, ← he.2, c2]
          · have c2' : ¬ c.last = nn.next := fun e => c2 e.symm
            simp only [c2, if_false] at he
            simp only [c2', if_false]
            simp only [Except.ok.injEq, Prod.mk.injEq] at he
            rw [← he.1, ← he.2]

theorem setHandle_same (hs : Handles) (s : Nat) (c : CList) : setHandle hs s c s = some c := by
  simp [setHandle]

end Protocol
end STC

namespace STC
open clist

section Claims5
variable {α : Type}

/-- C21: split/splice round trip.  For every well-formed list with nodes `pre ++ mid ++ suf`
and the sub-range `mid` given by `it1` (at the first node of `mid ++ suf`) and `it2` (at the
first node of `suf`, `ref` absent at the end), `tmp = split_off(L, it1, it2)` followed by
`splice(L, pos, tmp)`, where `pos` has the `ref` of `it2` and the `prev` of `it1`, returns and
reconstructs the list: the nodes are again `pre ++ mid ++ suf`, the value sequence is that
of the original list, the handle and every node of the memory are as before, and `tmp` is
empty. -/
theorem split_splice_round_trip (h : Heap α) (self : CList) (pre mid suf : List Nat)
    (it1 it2 pos : Iter) (hl : IsList h self (pre ++ mid ++ suf))
    (h1ref : it1.ref = (mid ++ suf).head?)
    (h1prev : mid ≠ [] → it1.prev = (mid ++ suf ++ pre).getLast?)
    (h2ref : it2.ref = suf.head?) (h2prev : mid ≠ [] → suf ≠ [] → it2.prev = mid.getLast?)
    (hpref : pos.ref = it2.ref) (hpprev : mid ≠ [] → pos.prev = it1.prev) :
    ∃ h1 self1 tmp h2 self2 tmp2 it, split_off h self it1 it2 = .ok (h1, self1, tmp) ∧
      IsList h1 self1 (pre ++ suf) ∧ IsList h1 tmp mid ∧
      splice h1 self1 pos tmp = .ok (h2, self2, tmp2, it) ∧
      IsList h2 self2 (pre ++ mid ++ suf) ∧
      vals h2 (pre ++ mid ++ suf) = vals h (pre ++ mid ++ suf) ∧
      tmp2.last = none ∧ self2 = self ∧ (∀ a, h2 a = h a) := by
  cases mid with
  | nil =>
    have e : it1.ref = it2.ref := by
      rw [h1ref, h2ref]
      rfl
    have hl0 : IsList h self (pre ++ suf) := by simpa using hl
    refine ⟨h, self, ⟨none⟩, h, self, ⟨none⟩, pos, by simp [split_off, e, pure, Except.pure],
      hl0, IsList_nil_iff.2 rfl, ?_, hl, rfl, rfl, rfl, fun _ => rfl⟩
    by_cases hs : self.last = none
    · have : self = ⟨none⟩ := by
        cases self
        simp only at hs
        rw [hs]
      simp [splice, hs, pure, Except.pure, this]
    · simp [splice, hs, pure, Except.pure]
  | cons x m =>
    have hne : x :: m ≠ [] := by simp
    obtain ⟨h1, self1, lst, hp, hl1, hl2, hvs1, hfr1⟩ :=
      split_off_aux hl (by simpa using h1ref) (by simpa using h1prev hne) h2ref
        (fun hs => h2prev hne hs)
    have hn := hl.1.nodup
    have hd : ∀ a ∈ pre ++ suf, a ∉ x :: m := by
      intro a ha hm
      rw [List.append_assoc, List.nodup_append] at hn
      rcases List.mem_append.1 ha with ha | ha
      · exact hn.2.2 ha (List.mem_append_left _ hm)
      · have h2 := hn.2.1
        rw [List.nodup_append] at h2
        exact h2.2.2 hm ha
    obtain ⟨h2, self2, it, hp2, hl3, hvs2, hfr2, -, -, -⟩ :=
      splice_aux hl1 hl2 hd (hpref.trans h2ref) (fun hs => by
        rw [hpprev hne, h1prev hne, List.append_assoc,
          List.getLast?_append_of_ne_nil _ (by simp [hs])])
    have hvs : ∀ a, (h2 a).map Node.value = (h a).map Node.value :=
      fun a => (hvs2 a).trans (hvs1 a)
    refine ⟨h1, self1, lst, h2, self2, ⟨none⟩, it, hp, hl1, hl2, hp2, hl3,
      vals_congr (fun a _ => hvs a), rfl, ?_, ?_⟩
    · have e1 := hl3.2
      have e2 := hl.2
      cases self2
      cases self
      simp only at e1 e2
      rw [e1, e2]
    · intro a
      by_cases ha : a ∈ pre ++ x :: m ++ suf
      · exact node_eq_of_fields (ring_next_eq hl.1 hl3.1 ha) (hvs a)
      · rw [hfr2 a (fun hm => ha (by simp at hm ⊢; tauto)) (fun hm => ha (by simp at hm ⊢; tauto)),
          hfr1 a ha]

theorem split_splice_round_trip_witness :
    IsList exHeap exList ([1] ++ [2] ++ [3]) ∧
    ∃ h1 self1 tmp h2 self2 tmp2 it, split_off exHeap exList ⟨some 2, some 0, some 1⟩
        ⟨some 3, some 0, some 2⟩ = .ok (h1, self1, tmp) ∧
      IsList h1 self1 ([1] ++ [3]) ∧ IsList h1 tmp [2] ∧
      splice h1 self1 ⟨some 3, some 0, some 1⟩ tmp = .ok (h2, self2, tmp2, it) ∧
      IsList h2 self2 ([1] ++ [2] ++ [3]) ∧
      vals h2 ([1] ++ [2] ++ [3]) = vals exHeap ([1] ++ [2] ++ [3]) ∧
      tmp2.last = none ∧ self2 = exList ∧ (∀ a, h2 a = exHeap a) :=
  ⟨exList_wf, split_splice_round_trip exHeap exList [1] [2] [3] ⟨some 2, some 0, some 1⟩
    ⟨some 3, some 0, some 2⟩ ⟨some 3, some 0, some 1⟩ exList_wf rfl (fun _ => rfl) rfl
    (fun _ _ => rfl) rfl (fun _ => rfl)⟩

/-- C22: `clist_X_sort` of `src/stc/clist.h` is not safe on an empty list: it evaluates
`self->last->next` to pass it to `_clist_mergesort`, with no test of `self->last`, so on the
empty list (`last` is `NULL`) it dereferences `NULL`, while `sort` of the current header
tests `self->last` and leaves the empty list as it is.  On a non-empty well-formed list of
`2^31` nodes at most it does what `sort` of the current header does, for every step
budget. -/
theorem clist_X_sort_empty (cmp : α → α → Int) (fuel : Nat) (hs : Handles) (h : Heap α)
    (self : Nat) (c : CList) (hc : hs self = some c) :
    (c.last = none → clist_X_sort cmp fuel hs h self = .error .nullDeref ∧
      clist.sort cmp fuel h c = .ok (h, c)) ∧
    (c.last ≠ none → ∀ l, IsList h c l → l.length ≤ 2147483648 →
      ∀ h1 c1, clist.sort cmp fuel h c = .ok (h1, c1) →
        clist_X_sort cmp fuel hs h self = .ok (setHandle hs self c1, h1)) := by
  constructor
  · intro he
    constructor
    · simp [clist_X_sort, readHandle, hc, he, load, bind, Except.bind]
    · simp [clist.sort, sort_with, he, pure, Except.pure]
  · intro hne l hl hb h1 c1 hsort
    obtain ⟨z, nz, a0, t, hz, hnz, hnx, rfl⟩ := hl.head_ring hne
    have hring : IsRing h (a0 :: t) := hl.1
    simp only [clist.sort, sort_with, ne_eq, hz, reduceCtorEq, not_false_eq_true, if_true,
      bind, Except.bind, pure, Except.pure, load, hnz, hnx] at hsort
    simp only [clist_X_sort, readHandle, hc, bind, Except.bind, pure, Except.pure, hz, load,
      hnz, hnx]
    rw [clist_void_mergesort_eq cmp hring hb fuel]
    cases e3 : clist._clist_mergesort fuel h (some a0) cmp with
    | error e => simp [e3] at hsort
    | ok r =>
      simp only [e3, Except.ok.injEq, Prod.mk.injEq] at hsort ⊢
      obtain ⟨r1, r2⟩ := r
      simp only at hsort ⊢
      rw [← hsort.1, ← hsort.2]
      exact ⟨rfl, rfl⟩

theorem clist_X_sort_empty_witness :
    oneHandle ⟨none⟩ 0 = some ⟨none⟩ ∧ IsList exHeap1 ⟨none⟩ [] ∧
    clist_X_sort c_default_cmp 8 (oneHandle ⟨none⟩) exHeap1 0 = .error .nullDeref ∧
    clist.sort c_default_cmp 8 exHeap1 ⟨none⟩ = .ok (exHeap1, ⟨none⟩) :=
  ⟨rfl, by decide,
    (clist_X_sort_empty c_default_cmp 8 (oneHandle ⟨none⟩) exHeap1 0 ⟨none⟩ rfl).1 rfl⟩

end Claims5
end STC

namespace STC
open clist

section Claims6
variable {α : Type}

/-- C23: `clist_X_insert_after(self, clist_X_before_begin(self), v)` of `src/stc/clist.h` is
the same as `clist_X_push_front(self, v)` on every non-empty well-formed list: both return,
leave the same memory and the same handle, with the nodes `entry :: l` and the values
`v :: xs`.  On the empty list they differ: `push_front` makes the new node the list (`last`
is the new node), but `insert_after` sets `last` only when the `state` of the position is 0,
and the `state` of `before_begin` is -1: the handle stays empty and the new node, linked to
itself, is in no list. -/
theorem insert_after_before_begin (hs : Handles) (h : Heap α) (self : Nat) (c : CList)
    (l : List Nat) (entry : Nat) (v : α) (hc : hs self = some c) (hl : IsList h c l)
    (hf : h entry = none) :
    ∃ hs1 h1 c1 hs2 h2 pos, clist_X_push_front hs h self entry v = .ok (hs1, h1) ∧
      hs1 self = some c1 ∧ IsList h1 c1 (entry :: l) ∧ vals h1 (entry :: l) = v :: vals h l ∧
      (do let it ← clist_X_before_begin hs self
          clist_X_insert_after hs h self it entry v) = .ok (hs2, h2, pos) ∧
      h2 = h1 ∧ pos.item = some entry ∧
      (l ≠ [] → hs2 = hs1) ∧
      (l = [] → c1.last = some entry ∧ hs2 self = some ⟨none⟩) := by
  obtain ⟨h1, self1, hp, hl1, hv, -, -, hsame, hnew⟩ := push_front_aux h c l entry v hl hf
  have hnode : c.last = none ↔ c.last = none := Iff.rfl
  have hins := old_insert_after_eq (h := h) hc c.last entry v hnode
  cases e1 : _c_clist_insert_entry_after h c.last entry v with
  | error e =>
    simp [push_front, e1, bind, Except.bind] at hp
  | ok hh =>
    have hh1 : hh = h1 := by
      simp only [push_front, e1, bind, Except.bind, pure, Except.pure] at hp
      split_ifs at hp <;> simp only [Except.ok.injEq, Prod.mk.injEq] at hp <;> exact hp.1
    have hself1 : self1 = if c.last = none then ⟨some entry⟩ else c := by
      simp only [push_front, e1, bind, Except.bind, pure, Except.pure] at hp
      split_ifs at hp with hcl <;> simp only [Except.ok.injEq, Prod.mk.injEq] at hp
      · rw [if_pos hcl]
        exact hp.2.1.symm
      · rw [if_neg hcl]
        exact hp.2.1.symm
    rw [e1] at hins
    subst hh1
    have hiff : c.last = none ↔ l = [] := by
      rw [hl.2]
      exact List.getLast?_eq_none_iff
    refine ⟨setHandle hs self self1, hh, self1,
      setHandle hs self (if c.last = c.last ∧ (-1 : Int) = 0 then ⟨some entry⟩ else c), hh,
      ⟨some self, some entry, -1⟩, ?_, setHandle_same _ _ _, hl1, hv, ?_, rfl, rfl, ?_, ?_⟩
    · simp only [clist_X_push_front, readHandle, hc, hins, bind, Except.bind, pure,
        Except.pure, hself1]
    · simp only [clist_X_before_begin, clist_X_insert_after, readHandle, hc, hins, bind,
        Except.bind, pure, Except.pure]
    · intro hne
      have hcl : ¬ c.last = none := fun e => hne (hiff.1 e)
      rw [hself1, if_neg hcl]
      simp
    · intro he
      have hcl : c.last = none := hiff.2 he
      refine ⟨hnew he, ?_⟩
      have hcn : c = ⟨none⟩ := by
        cases c
        simp only at hcl
        rw [hcl]
      simp [setHandle, hcn]

/-- C23, on the empty list: `insert_after(before_begin, 7)` returns with the handle still
empty, `push_front(7)` with the list `[7]`. -/
theorem insert_after_before_begin_empty :
    ∃ hs1 h1 c1 hs2 h2 pos,
      clist_X_push_front (oneHandle ⟨none⟩) exHeap1 0 9 7 = .ok (hs1, h1) ∧
      hs1 0 = some c1 ∧ c1.last = some 9 ∧ IsList h1 c1 [9] ∧ vals h1 [9] = [7] ∧
      (do let it ← clist_X_before_begin (oneHandle ⟨none⟩) 0
          clist_X_insert_after (oneHandle ⟨none⟩) exHeap1 0 it 9 7) = .ok (hs2, h2, pos) ∧
      h2 = h1 ∧ hs2 0 = some ⟨none⟩ ∧ IsList h2 ⟨none⟩ [] := by
  obtain ⟨hs1, h1, c1, hs2, h2, pos, e1, e2, e3, e4, e5, e6, -, -, e8⟩ :=
    insert_after_before_begin (oneHandle ⟨none⟩) exHeap1 0 ⟨none⟩ [] 9 7 rfl (by decide) rfl
  exact ⟨hs1, h1, c1, hs2, h2, pos, e1, e2, (e8 rfl).1, e3, e4, e5, e6, (e8 rfl).2,
    IsList_nil_iff.2 rfl⟩

/-- C24: for every well-formed list with nodes `pre ++ x :: suf` held by the handle at `self`
and the position `pos` before the node `x` (`clist_X_before_begin`, with `state` -1, when `x`
is the head; otherwise the node before `x`, with `state` 0), `clist_X_erase_after(self, pos)`
of `src/stc/clist.h` on a list of two nodes or more returns, erases exactly `x` and returns
the position of the node that followed `x` (`item` absent when `x` was last).  When `x` is
the only node of the list it does not return the end iterator: after the node is freed and
`last` set to `NULL`, `clist_X_next` compares the freed `item` with `last`, finds them
different and reads `item->next` in the freed node. -/
theorem clist_X_erase_after_spec (hs : Handles) (h : Heap α) (self : Nat) (c : CList)
    (pre suf : List Nat) (x : Nat) (pos : clist_X_iter_t)
    (hc : hs self = some c) (hl : IsList h c (pre ++ x :: suf))
    (hlast : pos._last = some self) (hitem : pos.item = (x :: (suf ++ pre)).getLast?)
    (hstate : pos.state = if pre = [] then -1 else 0) :
    (pre ++ suf ≠ [] → ∃ hs1 h1 pos1 c1,
        clist_X_erase_after hs h self pos = .ok (hs1, h1, pos1) ∧
        hs1 self = some c1 ∧ IsList h1 c1 (pre ++ suf) ∧ h1 x = none ∧
        vals h1 (pre ++ suf) = vals h pre ++ vals h suf ∧ pos1.item = suf.head?) ∧
    (pre ++ suf = [] → clist_X_erase_after hs h self pos = .error .invalidAccess) := by
  obtain ⟨h1, c1, he, hl1, hx, hv, -, -⟩ := erase_after_pred hl
  rw [← hitem] at he
  have hold := old_erase_after_eq hc he
  have hn := hl.1.nodup
  have hxn : x ∉ pre ++ suf := by
    rw [List.nodup_append] at hn
    have h2 := List.nodup_cons.1 hn.2.1
    intro hm
    rcases List.mem_append.1 hm with hm | hm
    · exact hn.2.2 hm (by simp)
    · exact h2.1 hm
  have hvals : vals h1 (pre ++ suf) = vals h pre ++ vals h suf := by
    rw [← vals_append]
    exact vals_congr (fun a ha => hv a (fun e => hxn (e ▸ ha)))
  have hrl : readLast (setHandle hs self c1) pos._last = .ok c1.last := by
    rw [hlast]
    exact readLast_ok (setHandle_same _ _ _)
  have hc1 : c1.last = (pre ++ suf).getLast? := hl1.2
  constructor
  · intro hne
    rcases List.eq_nil_or_concat pre with rfl | ⟨pre0, p, rfl⟩
    · -- the position is before_begin and the list keeps a node
      have hsuf : suf ≠ [] := by simpa using hne
      obtain ⟨s0, z, es⟩ := exists_snoc_of_ne_nil hsuf
      have hit : pos.item = some z := by
        rw [hitem, List.append_nil, getLast?_cons_of_ne_nil x hsuf, es]
        exact List.getLast?_concat _
      rw [hit] at hold
      have hlz : c1.last = some z := by
        rw [hc1, List.nil_append, es]
        simp
      have hst : pos.state = -1 := by simpa using hstate
      obtain ⟨y, hy⟩ : ∃ y, suf.head? = some y := by
        cases suf with
        | nil => exact absurd rfl hsuf
        | cons y s => exact ⟨y, rfl⟩
      have hr1 : IsRing h1 (s0 ++ [z]) := by
        have := hl1.1
        rwa [List.nil_append, es] at this
      obtain ⟨a, ha, hza⟩ := hr1.last_link
      rw [← es, hy] at ha
      simp only [Option.some.injEq] at ha
      subst ha
      obtain ⟨w, hw⟩ := Link_iff.1 hza
      refine ⟨setHandle hs self c1, h1, ⟨pos._last, some y, 0⟩, c1, ?_, setHandle_same _ _ _, hl1, hx, hvals,
        by simpa using hy.symm⟩
      simp [clist_X_erase_after, hold, clist_X_next, hrl, hit, hlz, hst, load, hw, bind,
        Except.bind, pure, Except.pure]
    · -- the position is the node before `x`
      rw [List.concat_eq_append] at hl hl1 hc1 hitem hstate hvals hxn ⊢
      have hit : pos.item = some p := by
        rw [hitem, show x :: (suf ++ (pre0 ++ [p])) = (x :: (suf ++ pre0)) ++ [p] by simp]
        exact List.getLast?_concat _
      rw [hit] at hold
      have hst : pos.state = 0 := by simpa using hstate
      cases suf with
      | nil =>
        have hlz : c1.last = some p := by
          rw [hc1]
          simp
        refine ⟨setHandle hs self c1, h1, ⟨pos._last, none, 1⟩, c1, ?_, setHandle_same _ _ _, hl1, hx, hvals,
          rfl⟩
        simp [clist_X_erase_after, hold, clist_X_next, hrl, hit, hlz, hst, bind,
          Except.bind, pure, Except.pure]
      | cons y s =>
        have hlz : c1.last ≠ some p := by
          rw [hc1]
          intro e
          have hnd := hl1.1.nodup
          rw [List.nodup_append] at hnd
          have hm : p ∈ y :: s := by
            have := List.mem_of_mem_getLast? (e ▸ rfl : p ∈ ((pre0 ++ [p]) ++ y :: s).getLast?)
            rcases List.mem_append.1 this with hm | hm
            · exfalso
              rw [List.getLast?_append_of_ne_nil _ (by simp)] at e
              obtain ⟨z, hz, hzm⟩ := getLast?_mem_of_ne_nil (l := y :: s) (by simp)
              rw [hz] at e
              simp only [Option.some.injEq] at e
              exact hnd.2.2 hm (e ▸ hzm)
            · exact hm
          exact hnd.2.2 (by simp) hm
        have hlz' : ¬ (some p = c1.last) := fun e => hlz e.symm
        have hr1 : IsRing h1 (pre0 ++ p :: y :: s) := by
          have := hl1.1
          simpa using this
        obtain ⟨w, hw⟩ := Link_iff.1 hr1.link_next
        refine ⟨setHandle hs self c1, h1, ⟨pos._last, some y, 0⟩, c1, ?_, setHandle_same _ _ _, hl1, hx, hvals,
          rfl⟩
        simp [clist_X_erase_after, hold, clist_X_next, hrl, hit, hlz', hst, load, hw, bind,
          Except.bind, pure, Except.pure]
  · intro hnil
    obtain ⟨rfl, rfl⟩ := List.append_eq_nil.1 hnil
    have hit : pos.item = some x := by
      rw [hitem]
      rfl
    rw [hit] at hold
    have hst : pos.state = -1 := by simpa using hstate
    have hlz : c1.last = none := by
      rw [hc1]
      rfl
    simp [clist_X_erase_after, hold, clist_X_next, hrl, hit, hlz, hst, load, hx, bind,
      Except.bind, pure, Except.pure]

/-- C24, on the list `[30]`: `clist_X_erase_after(self, before_begin(self))` reads the node it
has freed. -/
theorem clist_X_erase_after_single :
    oneHandle ⟨some 1⟩ 0 = some ⟨some 1⟩ ∧ IsList exHeap1 ⟨some 1⟩ ([] ++ 1 :: []) ∧
    clist_X_before_begin (oneHandle ⟨some 1⟩) 0 = .ok ⟨some 0, some 1, -1⟩ ∧
    clist_X_erase_after (oneHandle ⟨some 1⟩) exHeap1 0 ⟨some 0, some 1, -1⟩ =
      .error .invalidAccess :=
  ⟨rfl, by decide, rfl,
    (clist_X_erase_after_spec (oneHandle ⟨some 1⟩) exHeap1 0 ⟨some 1⟩ [] [] 1
      ⟨some 0, some 1, -1⟩ rfl (by decide) rfl rfl rfl).2 rfl⟩

/-- C25: for every non-empty well-formed list, `erase_range(it1, it2)` with `it1` and `it2` at
the same position returns without any step of its loop, erases nothing and leaves the memory
and the handle unchanged.  On the empty list it does not complete: the positions are at the
end (`ref` is `NULL`), so the first statement evaluates `self->last->next` with `self->last`
`NULL`. -/
theorem erase_range_empty_range (h : Heap α) (self : CList) (l : List Nat) (it1 it2 : Iter)
    (hl : IsList h self l) (href : it1.ref = it2.ref) :
    (l ≠ [] → ∀ fuel, erase_range fuel h self it1 it2 = .ok (h, self, it2)) ∧
    (l = [] → it2.ref = none → ∀ fuel, erase_range fuel h self it1 it2 = .error .nullDeref) := by
  constructor
  · intro hne fuel
    obtain ⟨l0, z, rfl⟩ := exists_snoc_of_ne_nil hne
    obtain ⟨hr, hs⟩ := IsList_snoc_iff.1 hl
    obtain ⟨nz, hnz⟩ := hr.live (x := z) (by simp)
    by_cases h2 : it2.ref = none
    · simp [erase_range, href, h2, hs, load, hnz, bind, Except.bind, pure, Except.pure]
    · simp [erase_range, href, h2, bind, Except.bind, pure, Except.pure]
  · intro he h2 fuel
    subst he
    have hs : self.last = none := IsList_nil_iff.1 hl
    simp [erase_range, h2, hs, load, bind, Except.bind]

/-- C25, on the empty list: `erase_range(begin(), end())` dereferences `NULL`. -/
theorem erase_range_empty_list_fault :
    IsList exHeap1 ⟨none⟩ [] ∧ begin exHeap1 0 ⟨none⟩ = .ok ⟨none, some 0, none⟩ ∧
    erase_range 4 exHeap1 ⟨none⟩ ⟨none, some 0, none⟩ _end = .error .nullDeref ∧
    erase_range 4 exHeap1 ⟨none⟩ _end _end = .error .nullDeref :=
  ⟨by decide, rfl,
    (erase_range_empty_range exHeap1 ⟨none⟩ [] ⟨none, some 0, none⟩ _end (by decide) rfl).2
      rfl rfl 4, rfl⟩

end Claims6
end STC

namespace STC
open clist

section Claims7
variable {α : Type}

/-- C26: the iterator protocol.  For every well-formed list with the nodes `l` (`n` of them)
whose handle is at the address `sid`, `begin()` returns the iterator `b`, and advancing `b`
`k` times with `next` (the function `advance`) returns, for every `k`: its `ref` is the
`k`-th node of `l` from the head, so the nodes are visited in head-to-last order, each once;
`ref` is absent exactly when `k >= n`, so after `n` applications of `next` and not before;
`prev` is the node before the current one in the ring (the last node at the head and at the
end); and `begin()` of the empty list has no `ref`, as `end()`. -/
theorem iterator_protocol (hs : Handles) (h : Heap α) (sid : Nat) (self : CList)
    (l : List Nat) (hl : IsList h self l) (hsid : hs sid = some self) :
    ∃ b, begin h sid self = .ok b ∧ (l = [] → b.ref = _end.ref) ∧
      ∀ k, ∃ it, advance hs h b k = .ok it ∧
        it.ref = (l.drop k).head? ∧ it.ref = l[k]? ∧
        it.prev = (l.drop k ++ l.take k).getLast? ∧
        (0 < k → k ≤ l.length → it.prev = l[k - 1]?) ∧
        it._last = some sid ∧ (it.ref = none ↔ l.length ≤ k) := by
  refine ⟨_, begin_spec hl sid, ?_, ?_⟩
  · intro e
    rw [e]
    rfl
  · intro k
    have hl0 : IsList h self ([] ++ l) := hl
    have := advance_spec hsid k [] l l.getLast? hl0 (by simp)
    simp only [List.append_nil] at this
    refine ⟨_, this, rfl, ?_, rfl, ?_, rfl, ?_⟩
    · show (l.drop k).head? = l[k]?
      rw [List.head?_drop]
    · intro hk hkl
      show (l.drop k ++ l.take k).getLast? = l[k - 1]?
      have hne : l.take k ≠ [] := by
        intro e
        have := congrArg List.length e
        rw [List.length_take, List.length_nil] at this
        omega
      rw [List.getLast?_append_of_ne_nil _ hne, List.getLast?_take]
      have hk0 : k ≠ 0 := by omega
      simp only [hk0, if_false]
      have hlt : k - 1 < l.length := by omega
      rw [List.getElem?_eq_getElem hlt]
      rfl
    · show (l.drop k).head? = none ↔ l.length ≤ k
      rw [List.head?_eq_none_iff, List.drop_eq_nil_iff]

theorem iterator_protocol_witness :
    IsList exHeap exList [1, 2, 3] ∧ oneHandle exList 0 = some exList ∧
    ∃ b, begin exHeap 0 exList = .ok b ∧ (([1, 2, 3] : List Nat) = [] → b.ref = _end.ref) ∧
      ∀ k, ∃ it, advance (oneHandle exList) exHeap b k = .ok it ∧
        it.ref = (([1, 2, 3] : List Nat).drop k).head? ∧ it.ref = ([1, 2, 3] : List Nat)[k]? ∧
        it.prev = (([1, 2, 3] : List Nat).drop k ++ ([1, 2, 3] : List Nat).take k).getLast? ∧
        (0 < k → k ≤ ([1, 2, 3] : List Nat).length →
          it.prev = ([1, 2, 3] : List Nat)[k - 1]?) ∧
        it._last = some 0 ∧ (it.ref = none ↔ ([1, 2, 3] : List Nat).length ≤ k) :=
  ⟨exList_wf, rfl, iterator_protocol (oneHandle exList) exHeap 0 exList [1, 2, 3] exList_wf rfl⟩

/-- C27: for every closed ring of `n >= 1` nodes given by its head `x`, with `n` up to `2^31`,
and every comparator (no property of it is used), `_clist_mergesort` of
`src/include/stc/clist.h` returns for every step budget above `n`.  The node `tail` it returns
is the last node of the sequence `out` that the passes with `insize` 1, 2, 4, ... build
(`SortRel`), which is a ring on exactly the nodes of the original ring (a permutation of
them, with their values): as the new `last` it gives a well-formed list, and following `next`
from it returns to it after exactly `n` steps and not before.  On a ring of more than `2^31`
nodes (and fewer than `2^32 - 2`) the doubling `insize *= 2` overflows the `int` and
`_clist_mergesort` does not return, whatever the step budget. -/
theorem mergesort_terminates_ring (cmp : α → α → Int) (h : Heap α) (x : Nat) (t : List Nat)
    (hr : IsRing h (x :: t)) :
    ((x :: t).length ≤ 2147483648 → ∀ fuel, (x :: t).length < fuel →
      ∃ h1 out tail, clist._clist_mergesort fuel h (some x) cmp = .ok (h1, some tail) ∧
        out.getLast? = some tail ∧ IsList h1 ⟨some tail⟩ out ∧ out.Perm (x :: t) ∧
        (∀ vf : Nat → α, (∀ a ∈ x :: t, (h a).map Node.value = some (vf a)) →
          SortRel (leOf cmp vf) 1 (x :: t) out) ∧
        (∀ a, (h1 a).map Node.value = (h a).map Node.value) ∧
        (∀ a, a ∉ x :: t → h1 a = h a) ∧
        walk h1 (x :: t).length tail = some tail ∧
        (∀ k, 0 < k → k < (x :: t).length → walk h1 k tail ≠ some tail) ∧
        (∀ self : CList, IsList h self (x :: t) →
          ∃ l0 z, x :: t = l0 ++ [z] ∧ self.last = some z ∧
            sort_with fuel h ⟨some z⟩ cmp = .ok (h1, ⟨some tail⟩))) ∧
    (2147483648 < (x :: t).length → (x :: t).length < 4294967294 →
      ∀ fuel r, clist._clist_mergesort fuel h (some x) cmp ≠ .ok r) := by
  constructor
  · intro hb fuel hf
    obtain ⟨vf0, hvf0⟩ := exists_vf hr (by simp)
    obtain ⟨h1, out, tail, hm, -, hlast, hr1, hsr, hv, hfr⟩ :=
      mergesort_ring cmp vf0 hr hvf0 hb hf
    have hp := hsr.perm_nodes
    have hl1 : IsList h1 ⟨some tail⟩ out := ⟨hr1, hlast.symm⟩
    obtain ⟨n, hn0, hcount, hw, hmin⟩ := hl1.returnsAfterCount tail rfl
    have hnl : n = (x :: t).length := by
      have h1c := hcount n (le_refl n)
      have h2c := count_of_IsList hl1 n (by
        by_contra hcon
        have h3 := count_of_IsList hl1 out.length (le_refl _)
        have h4 := hcount out.length (by omega)
        rw [h3] at h4
        simp only [Except.ok.injEq] at h4
        omega)
      rw [h1c] at h2c
      simp only [Except.ok.injEq] at h2c
      rw [h2c, hp.length_eq]
    refine ⟨h1, out, tail, hm, hlast, hl1, hp, ?_, hv, hfr, hnl ▸ hw, ?_, ?_⟩
    · intro vf hvf
      obtain ⟨h2, out2, tail2, hm2, -, hlast2, hr2, hsr2, -, -⟩ :=
        mergesort_ring cmp vf hr hvf hb hf
      rw [hm] at hm2
      simp only [Except.ok.injEq, Prod.mk.injEq, Option.some.injEq] at hm2
      obtain ⟨e1, e2⟩ := hm2
      subst e1 e2
      have hl2 : IsList h1 ⟨some tail⟩ out2 := ⟨hr2, hlast2.symm⟩
      rw [hl1.unique hl2]
      exact hsr2
    · intro k hk hkn
      exact hmin k hk (hnl ▸ hkn)
    · intro self hl
      obtain ⟨l0, z, e⟩ := exists_snoc_of_ne_nil (l := x :: t) (by simp)
      have hl' := hl
      rw [e] at hl'
      obtain ⟨hrz, hsz⟩ := IsList_snoc_iff.1 hl'
      obtain ⟨a0, ha0, hza⟩ := hrz.last_link
      rw [← e] at ha0
      simp only [List.head?_cons, Option.some.injEq] at ha0
      subst ha0
      obtain ⟨w, hw'⟩ := Link_iff.1 hza
      refine ⟨l0, z, e, hsz, ?_⟩
      simp [sort_with, load, hw', hm, bind, Except.bind, pure, Except.pure]
  · intro hl1 hl2 fuel r
    exact (mergesort_overflow cmp hr hl1 hl2 fuel r).1

theorem mergesort_terminates_ring_witness :
    (IsRing exHeap (1 :: [2, 3]) ∧
      (∃ h1 out tail, clist._clist_mergesort 4 exHeap (some 1) c_default_cmp =
          .ok (h1, some tail) ∧
        out.getLast? = some tail ∧ IsList h1 ⟨some tail⟩ out ∧ out.Perm (1 :: [2, 3]) ∧
        (∀ vf : Nat → Int, (∀ a ∈ 1 :: [2, 3], (exHeap a).map Node.value = some (vf a)) →
          SortRel (leOf c_default_cmp vf) 1 (1 :: [2, 3]) out) ∧
        (∀ a, (h1 a).map Node.value = (exHeap a).map Node.value) ∧
        (∀ a, a ∉ 1 :: [2, 3] → h1 a = exHeap a) ∧
        walk h1 (1 :: [2, 3]).length tail = some tail ∧
        (∀ k, 0 < k → k < (1 :: [2, 3]).length → walk h1 k tail ≠ some tail) ∧
        (∀ self : CList, IsList exHeap self (1 :: [2, 3]) →
          ∃ l0 z, 1 :: [2, 3] = l0 ++ [z] ∧ self.last = some z ∧
            sort_with 4 exHeap ⟨some z⟩ c_default_cmp = .ok (h1, ⟨some tail⟩))) ∧
      (clist._clist_mergesort 4 exHeap (some 1) c_default_cmp).toOption.map
          (fun r => (r.2, decide (IsList r.1 ⟨r.2⟩ [2, 1, 3]), vals r.1 [2, 1, 3])) =
        some (some 3, true, [3, 5, 8])) ∧
    (IsRing (ringHeap 2147483649) (0 :: List.range' 1 2147483648) ∧
      (0 :: List.range' 1 2147483648).length = 2147483649 ∧
      ∀ fuel r, clist._clist_mergesort fuel (ringHeap 2147483649) (some 0) c_default_cmp ≠
        .ok r) :=
  ⟨⟨exList_wf.1,
      (mergesort_terminates_ring c_default_cmp exHeap 1 [2, 3] exList_wf.1).1 (by decide) 4
        (by decide),
      by decide⟩,
    ringHeap_isRing 2147483648,
    by rw [List.length_cons, List.length_range'],
    (mergesort_terminates_ring c_default_cmp (ringHeap 2147483649) 0
      (List.range' 1 2147483648) (ringHeap_isRing 2147483648)).2
      (by rw [List.length_cons, List.length_range']; decide)
      (by rw [List.length_cons, List.length_range']; decide)⟩

/-- C29: `clist_X_erase_range_after` of `src/stc/clist.h` does not erase exactly the nodes
between `pos` and `last`.  Its loop takes the iterator that `clist_X_erase_after` returns,
which is at the node after the erased one, as the next anchor, so every second node is kept:
on the list `[5, 3, 8]`, `erase_range_after(before_begin, end)` returns with the list `[3]`
left, not the empty list; on the list `[30]` it reads the node it has freed.  When one node
only is between `pos` and `last` it erases that node: on `[10, 20, 30, 40, 30, 50]`, from
the node of 10 to the node of the first 30, it leaves `[10, 30, 40, 30, 50]`. -/
theorem clist_X_erase_range_after_skips :
    (IsList exHeap exList [1, 2, 3] ∧ vals exHeap [1, 2, 3] = [5, 3, 8] ∧
      clist_X_before_begin (oneHandle exList) 0 = .ok ⟨some 0, some 3, -1⟩ ∧
      ∀ fuel, ∃ hs1 h1 pos c,
        clist_X_erase_range_after 0 clist_X_end (fuel + 3) (oneHandle exList) exHeap
          ⟨some 0, some 3, -1⟩ = .ok (hs1, h1, pos) ∧
        hs1 0 = some c ∧ IsList h1 c [2] ∧ vals h1 [2] = [3] ∧ pos.item = none) ∧
    (IsList exHeap1 ⟨some 1⟩ [1] ∧
      ∀ fuel, clist_X_erase_range_after 0 clist_X_end (fuel + 1) (oneHandle ⟨some 1⟩) exHeap1
        ⟨some 0, some 1, -1⟩ = .error .invalidAccess) ∧
    (IsList exHeap6 ⟨some 6⟩ [1, 2, 3, 4, 5, 6] ∧
      ∀ fuel, ∃ hs1 h1 pos c,
        clist_X_erase_range_after 0 ⟨some 0, some 3, 0⟩ (fuel + 2) (oneHandle ⟨some 6⟩)
          exHeap6 ⟨some 0, some 1, 0⟩ = .ok (hs1, h1, pos) ∧
        hs1 0 = some c ∧ IsList h1 c [1, 3, 4, 5, 6] ∧
        vals h1 [1, 3, 4, 5, 6] = [10, 30, 40, 30, 50] ∧ pos.item = some 3) := by
  refine ⟨⟨by decide, rfl, rfl, fun fuel => ⟨_, _, _, _, rfl, rfl, by decide, rfl, rfl⟩⟩,
    ⟨by decide, fun fuel => rfl⟩,
    ⟨by decide, fun fuel => ⟨_, _, _, _, rfl, rfl, by decide, rfl, rfl⟩⟩⟩

end Claims7
end STC
